import Mathlib

/-!
mpcompact: a shallow embedding of the Packer / Unpacker codec.

Source: `include/mppacker.hpp`.

Conventions of the embedding
* a byte is a `Nat` below 256, a buffer is a `List Nat`;
* a C++ integer value is an `Int`; every implicit or explicit conversion of the
  source (integral promotion, usual arithmetic conversions, `static_cast`,
  assignment to a narrower type) is an explicit function here;
* multi-byte objects are copied in the byte order of the host (`memcpy` of the
  object representation), so the byte order is a parameter `Endian`;
* `size_t` and `long` are 64 bits wide (LP64), `int` is 32 bits wide;
* a C++ exception is a value of `Error`.
-/

namespace mpcompact

/-! ## Format table (`namespace detail`) -/

namespace detail

def MP_INT8 : Nat := 0xd0
def MP_INT16 : Nat := 0xd1
def MP_INT32 : Nat := 0xd2
def MP_INT64 : Nat := 0xd3
def MP_UINT8 : Nat := 0xcc
def MP_UINT16 : Nat := 0xcd
def MP_UINT32 : Nat := 0xce
def MP_UINT64 : Nat := 0xcf
def MP_FIXNUM : Nat := 0x00
def MP_NEGATIVE_FIXNUM : Nat := 0xe0

def MP_NIL : Nat := 0xc0

def MP_FALSE : Nat := 0xc2
def MP_TRUE : Nat := 0xc3

def MP_FLOAT : Nat := 0xca
def MP_DOUBLE : Nat := 0xcb

def MP_STR8 : Nat := 0xd9
def MP_STR16 : Nat := 0xda
def MP_STR32 : Nat := 0xdb
def MP_FIXSTR : Nat := 0xa0

def MP_BIN8 : Nat := 0xc4
def MP_BIN16 : Nat := 0xc5
def MP_BIN32 : Nat := 0xc6

def MP_ARRAY16 : Nat := 0xdc
def MP_ARRAY32 : Nat := 0xdd
def MP_FIXARRAY : Nat := 0x90

def MP_MAP16 : Nat := 0xde
def MP_MAP32 : Nat := 0xdf
def MP_FIXMAP : Nat := 0x80

/-- The helper bit masks `MAX_*` are `uint32_t` constants. -/
def MAX_4BIT : Nat := 0xf
def MAX_5BIT : Nat := 0x1f
def MAX_7BIT : Nat := 0x7f
def MAX_8BIT : Nat := 0xff
def MAX_15BIT : Nat := 0x7fff
def MAX_16BIT : Nat := 0xffff
def MAX_31BIT : Nat := 0x7fffffff
def MAX_32BIT : Nat := 0xffffffff

def TYPE_1BIT : Nat := 0x80
def TYPE_3BIT : Nat := 0xe0
def TYPE_4BIT : Nat := 0xf0
def VALUE_4BIT : Nat := 0x0f
def VALUE_5BIT : Nat := 0x1f
def VALUE_7BIT : Nat := 0x7f

end detail

/-! ## Machine integers -/

/-- The integer types the codec is instantiated at (`char` is `int8` where it is
signed). -/
inductive IntType
  | int8 | int16 | int32 | int64
  | uint8 | uint16 | uint32 | uint64
  deriving DecidableEq, Repr

namespace IntType

/-- Width in bytes, `sizeof(T)`. -/
def sizeof : IntType → Nat
  | int8 | uint8 => 1
  | int16 | uint16 => 2
  | int32 | uint32 => 4
  | int64 | uint64 => 8

def isSigned : IntType → Bool
  | int8 | int16 | int32 | int64 => true
  | uint8 | uint16 | uint32 | uint64 => false

/-- Width in bits. -/
def bits (T : IntType) : Nat := 8 * T.sizeof

/-- Value of `std::numeric_limits<T>::min()`. -/
def min (T : IntType) : Int :=
  if T.isSigned then -(2 : Int) ^ (T.bits - 1) else 0

/-- Value of `std::numeric_limits<T>::max()`. -/
def max (T : IntType) : Int :=
  if T.isSigned then (2 : Int) ^ (T.bits - 1) - 1 else (2 : Int) ^ T.bits - 1

/-- Integral conversion to `T` (`static_cast<T>(x)`, `T y = x`): the unique value
of `T` congruent to `x` modulo `2 ^ bits`. -/
def conv (T : IntType) (x : Int) : Int :=
  if T.isSigned then
    (x + (2 : Int) ^ (T.bits - 1)) % (2 : Int) ^ T.bits - (2 : Int) ^ (T.bits - 1)
  else
    x % (2 : Int) ^ T.bits

/-- The unsigned number whose binary digits are the object representation of
`(T) x`. -/
def pattern (T : IntType) (x : Int) : Nat := (x % (2 : Int) ^ T.bits).toNat

/-- The predicate "x is a value of type T". -/
def InRange (T : IntType) (x : Int) : Prop := T.min ≤ x ∧ x ≤ T.max

instance (T : IntType) (x : Int) : Decidable (T.InRange x) := by
  unfold InRange; infer_instance

end IntType

/-- Operand `value` of type `T` after the usual arithmetic conversions of a
comparison with a `uint32_t` operand: `T` narrower than or as wide as `int` and
signed is promoted to `int` and then converted to `unsigned int`; an unsigned `T` no
wider than 32 bits keeps its value; a 64-bit `T` keeps its type (the `uint32_t`
operand is the one converted). -/
def convWithU32 (T : IntType) (value : Int) : Int :=
  match T with
  | .int8 | .int16 | .int32 => IntType.uint32.conv value
  | .uint8 | .uint16 | .uint32 => value
  | .int64 | .uint64 => value

/-- Operand of type `T` after the usual arithmetic conversions of a comparison with
an `int64_t` operand: only `uint64_t` forces both sides to `uint64_t`. -/
def convWithI64 (T : IntType) (x : Int) : Int :=
  match T with
  | .uint64 => IntType.uint64.conv x
  | _ => x

/-- Unary minus on an `unsigned int`: `-(c)` for a `uint32_t` expression `c`. -/
def negU32 (c : Nat) : Int := IntType.uint32.conv (-(c : Int))

/-- Bitwise or of two `int` operands (32-bit two's complement). -/
def intOr (a b : Int) : Int :=
  IntType.int32.conv ((IntType.uint32.pattern a ||| IntType.uint32.pattern b : Nat) : Int)

/-! ## Floating point -/

/-- The floating-point types the codec is instantiated at. A floating-point object
is modelled by its IEEE-754 bit pattern (binary32 for `float`, binary64 for
`double`): a number below `2 ^ 32`, respectively `2 ^ 64`. -/
inductive FloatType
  | float | double
  deriving DecidableEq, Repr

namespace FloatType

/-- Width in bytes, `sizeof(T)`. -/
def sizeof : FloatType → Nat
  | float => 4
  | double => 8

/-- Width in bits. -/
def bits (T : FloatType) : Nat := 8 * T.sizeof

/-- The unsigned integer type of the same width, used to move the bit pattern. -/
def carrier : FloatType → IntType
  | float => .uint32
  | double => .uint64

end FloatType

/-! Operations on binary64 bit patterns: what the comparisons of
`unpack_floating_point` compute on `double` operands. -/

namespace Double

/-- Pattern without its sign bit. -/
def magnitude (x : Nat) : Nat := x % 2 ^ 63

/-- Sign bit of a pattern. -/
def signBit (x : Nat) : Bool := x / 2 ^ 63 % 2 = 1

/-- Pattern of `+infinity`. -/
def infinity : Nat := 0x7ff0000000000000

def isNaN (x : Nat) : Bool := decide (infinity < magnitude x)

/-- A pattern is finite when it is neither an infinity nor a NaN. -/
def isFinite (x : Nat) : Bool := decide (magnitude x < infinity)

/-- Position of a non-NaN pattern on the number line: IEEE-754 values of one sign are
ordered as their magnitudes, and the two zeros are equal. -/
def key (x : Nat) : Int := if signBit x then -(magnitude x : Int) else (magnitude x : Int)

/-- The built-in comparison `a < b` of two `double` operands (false when either is a
NaN). -/
def less (a b : Nat) : Bool := !isNaN a && !isNaN b && decide (key a < key b)

/-- The built-in comparison `a > b`. -/
def greater (a b : Nat) : Bool := less b a

end Double

/-- Pattern of `std::numeric_limits<T>::max()` after conversion to `double`:
`FLT_MAX` (2^128 - 2^104) and `DBL_MAX`. -/
def FloatType.maxAsDouble : FloatType → Nat
  | .float => 0x47efffffe0000000
  | .double => 0x7fefffffffffffff

/-- Pattern of `std::numeric_limits<T>::min()` after conversion to `double`: for a
floating-point type this is the smallest positive normal value, `FLT_MIN` (2^-126)
and `DBL_MIN` (2^-1022). -/
def FloatType.minAsDouble : FloatType → Nat
  | .float => 0x3810000000000000
  | .double => 0x0010000000000000

/-- The value conversions between `float` and `double` of the implementation (exact
widening, rounding on narrowing), on bit patterns. -/
structure FloatConv where
  widen : Nat → Nat
  narrow : Nat → Nat

/-- Conversion of a `float` value to `T`. -/
def FloatType.ofFloat (c : FloatConv) : FloatType → Nat → Nat
  | .float, x => x
  | .double, x => c.widen x

/-- Conversion of a `double` value to `T`. -/
def FloatType.ofDouble (c : FloatConv) : FloatType → Nat → Nat
  | .float, x => c.narrow x
  | .double, x => x

/-! ## Byte order -/

/-- Byte order of the host. -/
inductive Endian
  | little | big
  deriving DecidableEq, Repr

/-- The `w` low-order base-256 digits of `n`, least significant first. -/
def leBytes : Nat → Nat → List Nat
  | 0, _ => []
  | w + 1, n => n % 256 :: leBytes w (n / 256)

/-- The number with the given base-256 digits, least significant first. -/
def leValue : List Nat → Nat
  | [] => 0
  | b :: bs => b + 256 * leValue bs

/-- Object representation of a `w`-byte unsigned pattern on the host. -/
def hostBytes (e : Endian) (w n : Nat) : List Nat :=
  match e with
  | .little => leBytes w n
  | .big => (leBytes w n).reverse

/-- The unsigned pattern stored in a run of bytes on the host. -/
def hostValue (e : Endian) (bs : List Nat) : Nat :=
  match e with
  | .little => leValue bs
  | .big => leValue bs.reverse

/-- Object representation of `(T) x`: what `memcpy` copies out of a `T`. -/
def objectRepr (e : Endian) (T : IntType) (x : Int) : List Nat :=
  hostBytes e T.sizeof (T.pattern x)

/-! ## Errors -/

/-- The exceptions thrown by the codec, one constructor per distinct `throw`. -/
inductive Error
  /-- Thrown as `runtime_error("No space remaining in buffer")` -/
  | noSpace
  /-- Thrown as `runtime_error("No bytes remaining in buffer")` -/
  | noBytes
  /-- Thrown as `runtime_error("Invalid type received")` -/
  | invalidType
  /-- Thrown as `overflow_error("Value overflows numeric limit")` -/
  | overflow
  /-- Thrown as `underflow_error("Value underflows numeric limit")` -/
  | underflow
  /-- Thrown as `runtime_error("std::string size overflow")` -/
  | stringSizeOverflow
  /-- Thrown as `runtime_error("binary size overflow")` -/
  | binarySizeOverflow
  /-- Thrown as `runtime_error("Array size overflow")` -/
  | arraySizeOverflow
  /-- Thrown as `runtime_error("std::map size overflow")` -/
  | mapSizeOverflow
  /-- Thrown as `overflow_error("String buffer overflow")` -/
  | stringBufferOverflow
  /-- Thrown as `overflow_error("Binary buffer size mismatch")` -/
  | binarySizeMismatch
  /-- Thrown as `runtime_error("Array size mismatch")` -/
  | arraySizeMismatch
  deriving DecidableEq, Repr

/-! ## Packer -/

/-- Model of `class PackerStatic`: `written` is the content of `[base, ptr)`. -/
structure PackerStatic where
  written : List Nat
  capacity : Nat
  remaining : Nat
  deriving DecidableEq, Repr

namespace PackerStatic

/-- Constructor `PackerStatic(char* p, size_t c)`. -/
def init (c : Nat) : PackerStatic := ⟨[], c, c⟩

def write (s : PackerStatic) (data : List Nat) : Except Error PackerStatic :=
  if s.remaining < data.length then
    .error .noSpace
  else
    .ok { s with written := s.written ++ data, remaining := s.remaining - data.length }

def data (s : PackerStatic) : List Nat := s.written
def size (s : PackerStatic) : Nat := s.capacity - s.remaining
def reset (s : PackerStatic) : PackerStatic := { s with written := [], remaining := s.capacity }

end PackerStatic

/-- Model of `class PackerDynamic`. -/
structure PackerDynamic where
  dataVec : List Nat
  deriving DecidableEq, Repr

namespace PackerDynamic

def init : PackerDynamic := ⟨[]⟩
def data (d : PackerDynamic) : List Nat := d.dataVec
def size (d : PackerDynamic) : Nat := d.dataVec.length
def reset (_ : PackerDynamic) : PackerDynamic := ⟨[]⟩
def write (d : PackerDynamic) (data : List Nat) : PackerDynamic := ⟨d.dataVec ++ data⟩

end PackerDynamic

/-- The anonymous `enum { STATIC, DYNAMIC }` of `Packer`. -/
inductive SinkType
  | STATIC | DYNAMIC
  deriving DecidableEq, Repr

/-- Model of `class Packer`. -/
structure Packer where
  staticPacker : PackerStatic
  dynamicPacker : PackerDynamic
  type : SinkType
  deriving DecidableEq, Repr

/-- Outcome of a Packer operation: the Packer as the call leaves it, and the
exception, if one was thrown. -/
structure PackResult where
  packer : Packer
  error : Option Error
  deriving DecidableEq, Repr

/-- Sequencing of statements: the second runs only if the first did not throw. -/
def PackResult.andThen (r : PackResult) (f : Packer → PackResult) : PackResult :=
  match r.error with
  | none => f r.packer
  | some _ => r

namespace Packer

/-- Constructor `Packer(char* p, size_t r)`. -/
def mkStatic (r : Nat) : Packer := ⟨PackerStatic.init r, PackerDynamic.init, .STATIC⟩

/-- Constructor `Packer()`. -/
def mkDynamic : Packer := ⟨PackerStatic.init 0, PackerDynamic.init, .DYNAMIC⟩

def reset (p : Packer) : Packer :=
  match p.type with
  | .DYNAMIC => { p with dynamicPacker := p.dynamicPacker.reset }
  | .STATIC => { p with staticPacker := p.staticPacker.reset }

def data (p : Packer) : List Nat :=
  match p.type with
  | .DYNAMIC => p.dynamicPacker.data
  | .STATIC => p.staticPacker.data

def size (p : Packer) : Nat :=
  match p.type with
  | .DYNAMIC => p.dynamicPacker.size
  | .STATIC => p.staticPacker.size

/-- Method `write(const void* data, size_t length)`. -/
def write (p : Packer) (data : List Nat) : PackResult :=
  match p.type with
  | .DYNAMIC => ⟨{ p with dynamicPacker := p.dynamicPacker.write data }, none⟩
  | .STATIC =>
    match p.staticPacker.write data with
    | .ok s => ⟨{ p with staticPacker := s }, none⟩
    | .error err => ⟨p, some err⟩

/-- Method `write<T>(T value)`: the argument is converted to `T` and its object
representation is written. -/
def writeValue (e : Endian) (T : IntType) (value : Int) (p : Packer) : PackResult :=
  p.write (objectRepr e T value)

/-- Method `write<T>(uint8_t type, T value)`: one write of the packed struct
`{type, value}`. -/
def writeTagged (e : Endian) (T : IntType) (type : Nat) (value : Int) (p : Packer) :
    PackResult :=
  p.write (type :: objectRepr e T value)

/-- Method `pack_integral<T>(T value)`. -/
def pack_integral (e : Endian) (T : IntType) (value : Int) (p : Packer) : PackResult :=
  -- `value >= 0` compares with an `int` literal: the conversion keeps every value of `T`
  if value ≥ 0 then
    if convWithU32 T value ≤ detail.MAX_7BIT then
      p.writeValue e .uint8 (((IntType.uint8.conv value).toNat ||| detail.MP_FIXNUM : Nat) : Int)
    else if convWithU32 T value ≤ detail.MAX_8BIT then
      p.writeTagged e .uint8 detail.MP_UINT8 value
    else if convWithU32 T value ≤ detail.MAX_16BIT then
      p.writeTagged e .uint16 detail.MP_UINT16 value
    else if convWithU32 T value ≤ detail.MAX_32BIT then
      p.writeTagged e .uint32 detail.MP_UINT32 value
    else
      p.writeTagged e .uint64 detail.MP_UINT64 value
  else
    if convWithU32 T value ≥ negU32 (detail.MAX_5BIT + 1) then
      p.writeValue e .int8 (intOr (IntType.int8.conv value) detail.MP_NEGATIVE_FIXNUM)
    else if convWithU32 T value ≥ negU32 (detail.MAX_7BIT + 1) then
      p.writeTagged e .int8 detail.MP_INT8 value
    else if convWithU32 T value ≥ negU32 (detail.MAX_15BIT + 1) then
      p.writeTagged e .int16 detail.MP_INT16 value
    else if convWithI64 T value ≥ convWithI64 T (-((detail.MAX_31BIT : Int) + 1)) then
      p.writeTagged e .int32 detail.MP_INT32 value
    else
      p.writeTagged e .int64 detail.MP_INT64 value


/-- Method `pack_string(const char* buffer, size_t length)`; `buffer` holds the
`length` bytes of the string. -/
def pack_string (e : Endian) (buffer : List Nat) (p : Packer) : PackResult :=
  let length : Nat := buffer.length
  if length = 0 then
    p.writeValue e .uint8 detail.MP_NIL
  else if length ≤ detail.MAX_5BIT then
    (p.writeValue e .uint8
        (((IntType.uint8.conv length).toNat ||| detail.MP_FIXSTR : Nat) : Int)).andThen
      fun p => p.write buffer
  else if length ≤ detail.MAX_8BIT then
    (p.writeTagged e .uint8 detail.MP_STR8 length).andThen fun p => p.write buffer
  else if length ≤ detail.MAX_16BIT then
    (p.writeTagged e .uint16 detail.MP_STR16 length).andThen fun p => p.write buffer
  else if length ≤ detail.MAX_32BIT then
    (p.writeTagged e .uint32 detail.MP_STR32 length).andThen fun p => p.write buffer
  else
    ⟨p, some .stringSizeOverflow⟩

/-- Method `pack_boolean(bool value)`; `write(detail::MP_TRUE)` is `write<uint8_t>`. -/
def pack_boolean (e : Endian) (value : Bool) (p : Packer) : PackResult :=
  if value then
    p.writeValue e .uint8 detail.MP_TRUE
  else
    p.writeValue e .uint8 detail.MP_FALSE

/-- Method `pack_floating_point<T>(T value)`, `value` given by its bit pattern. -/
def pack_floating_point (e : Endian) (T : FloatType) (value : Nat) (p : Packer) : PackResult :=
  match T with
  | .float => p.writeTagged e FloatType.float.carrier detail.MP_FLOAT value
  | .double => p.writeTagged e FloatType.double.carrier detail.MP_DOUBLE value

/-- Method `pack_binary(const void* buffer, size_t length)`. -/
def pack_binary (e : Endian) (buffer : List Nat) (p : Packer) : PackResult :=
  let length : Nat := buffer.length
  if length ≤ detail.MAX_8BIT then
    (p.writeTagged e .uint8 detail.MP_BIN8 length).andThen fun p => p.write buffer
  else if length ≤ detail.MAX_16BIT then
    (p.writeTagged e .uint16 detail.MP_BIN16 length).andThen fun p => p.write buffer
  else if length ≤ detail.MAX_32BIT then
    (p.writeTagged e .uint32 detail.MP_BIN32 length).andThen fun p => p.write buffer
  else
    ⟨p, some .binarySizeOverflow⟩

/-- The values `i` takes in the body of `for(int i=0; i<size; i++)` where `size` is a
`size_t`: the test converts `i` to `size_t`, the increment is made in `int`
(two's-complement wrap-around past `2 ^ 31 - 1`, where C++ leaves the overflow
undefined). `fuel` bounds the number of iterations. -/
def intLoop (size : Nat) : Nat → Int → List Nat
  | 0, _ => []
  | fuel + 1, i =>
    if IntType.uint64.conv i < size then
      i.toNat :: intLoop size fuel (IntType.int32.conv (i + 1))
    else
      []

/-- The indices visited by `for(int i=0; i<size; i++)`; no more than `size` iterations
are ever made. -/
def intIndices (size : Nat) : List Nat := intLoop size size 0

/-- The indices visited by `for(size_t i=0; i<size; i++)`. -/
def sizeIndices (size : Nat) : List Nat := List.range size

/-- Statements `body i` run for the indices `i` in turn, up to the first that throws. -/
def forEach (body : Nat → Packer → PackResult) : List Nat → Packer → PackResult
  | [], p => ⟨p, none⟩
  | i :: is, p => (body i p).andThen (forEach body is)

/-- The statement `pack(data[i])` of the element loops. -/
def packAt {α : Type} (packElem : α → Packer → PackResult) (data : List α) (i : Nat)
    (p : Packer) : PackResult :=
  match data[i]? with
  | some x => packElem x p
  | none => ⟨p, none⟩

/-- The length header that opens both overloads of `pack_array`. -/
def pack_array_header (e : Endian) (size : Nat) (p : Packer) : PackResult :=
  if size ≤ detail.MAX_4BIT then
    p.writeValue e .uint8 (((IntType.uint8.conv size).toNat ||| detail.MP_FIXARRAY : Nat) : Int)
  else if size ≤ detail.MAX_16BIT then
    p.writeTagged e .uint16 detail.MP_ARRAY16 size
  else if size ≤ detail.MAX_32BIT then
    p.writeTagged e .uint32 detail.MP_ARRAY32 size
  else
    ⟨p, some .arraySizeOverflow⟩

/-- Method `pack_array<T>(const T* data, size_t size)`; `packElem` is the overload of
`pack` selected for `T`, and `size` is the length of `data`. -/
def pack_array {α : Type} (e : Endian) (packElem : α → Packer → PackResult) (data : List α)
    (p : Packer) : PackResult :=
  (pack_array_header e data.length p).andThen
    (forEach (packAt packElem data) (intIndices data.length))

/-- Method `pack_array(const std::vector<bool>& ref)`. -/
def pack_array_bool (e : Endian) (ref : List Bool) (p : Packer) : PackResult :=
  (pack_array_header e ref.length p).andThen
    (forEach (packAt (pack_boolean e) ref) (sizeIndices ref.length))

/-- The length header of `pack_map`. -/
def pack_map_header (e : Endian) (size : Nat) (p : Packer) : PackResult :=
  if size ≤ detail.MAX_4BIT then
    p.writeValue e .uint8 (((IntType.uint8.conv size).toNat ||| detail.MP_FIXMAP : Nat) : Int)
  else if size ≤ detail.MAX_16BIT then
    p.writeTagged e .uint16 detail.MP_MAP16 size
  else if size ≤ detail.MAX_32BIT then
    p.writeTagged e .uint32 detail.MP_MAP32 size
  else
    ⟨p, some .mapSizeOverflow⟩

/-- The loop `for(auto& kv : ref) { pack(kv.first); pack(kv.second); }`. -/
def packPairs {K V : Type} (packKey : K → Packer → PackResult)
    (packVal : V → Packer → PackResult) : List (K × V) → Packer → PackResult
  | [], p => ⟨p, none⟩
  | kv :: rest, p =>
    ((packKey kv.1 p).andThen (packVal kv.2)).andThen (packPairs packKey packVal rest)

/-- Method `pack_map<K,V>(const std::map<K,V>& ref)`; `ref` lists the entries in
iteration order. -/
def pack_map {K V : Type} (e : Endian) (packKey : K → Packer → PackResult)
    (packVal : V → Packer → PackResult) (ref : List (K × V)) (p : Packer) : PackResult :=
  (pack_map_header e ref.length p).andThen (packPairs packKey packVal ref)

end Packer

/-! ## Unpacker -/

/-- Model of `class Unpacker`: `readBufferPtr` is the memory at and after the read
pointer, `remaining` the number of bytes the Unpacker may still read. -/
structure Unpacker where
  readBufferPtr : List Nat
  remaining : Nat
  deriving DecidableEq, Repr

namespace Unpacker

/-- Constructor `Unpacker(const char* p, size_t r)`. -/
def init (p : List Nat) (r : Nat) : Unpacker := ⟨p, r⟩

/-- An Unpacker over exactly the byte slice `bs`. -/
def ofSlice (bs : List Nat) : Unpacker := init bs bs.length

def size (u : Unpacker) : Nat := u.remaining

def consumeAll (u : Unpacker) : Unpacker := { u with remaining := 0 }

/-- Method `consume(size_t length)`. -/
def consume (u : Unpacker) (length : Nat) : Except Error Unpacker :=
  if u.remaining < length then
    .error .noBytes
  else
    .ok ⟨u.readBufferPtr.drop length, u.remaining - length⟩

/-- Method `read(void* dst, size_t length)`, returning the bytes copied to `dst`. -/
def readBytes (u : Unpacker) (length : Nat) : Except Error (List Nat × Unpacker) :=
  if u.remaining < length then
    .error .noBytes
  else
    .ok (u.readBufferPtr.take length, ⟨u.readBufferPtr.drop length, u.remaining - length⟩)

/-- Method `read<T>()`. -/
def read (e : Endian) (T : IntType) (u : Unpacker) : Except Error (Int × Unpacker) :=
  if u.remaining < T.sizeof then
    .error .noBytes
  else
    .ok (T.conv (hostValue e (u.readBufferPtr.take T.sizeof)),
         ⟨u.readBufferPtr.drop T.sizeof, u.remaining - T.sizeof⟩)

/-- Method `peek<T>()`. -/
def peek (e : Endian) (T : IntType) (u : Unpacker) : Except Error Int :=
  if u.remaining < T.sizeof then
    .error .noBytes
  else
    .ok (T.conv (hostValue e (u.readBufferPtr.take T.sizeof)))

/-- The local `enum { S, U } type` of `unpack_integral`. -/
inductive ValKind
  | S | U
  deriving DecidableEq, Repr

/-- The `switch(head)` of `unpack_integral`: the locals `uVal` (a `uint64_t`), `sVal`
(an `int64_t`) and `type` after it, or the exception thrown. -/
def readExplicit (e : Endian) (head : Nat) (u : Unpacker) :
    Except Error ((Int × Int × ValKind) × Unpacker) :=
  let asU (r : Except Error (Int × Unpacker)) : Except Error ((Int × Int × ValKind) × Unpacker) :=
    match r with
    | .ok (v, u1) => .ok ((IntType.uint64.conv v, 0, .U), u1)
    | .error err => .error err
  let asS (r : Except Error (Int × Unpacker)) : Except Error ((Int × Int × ValKind) × Unpacker) :=
    match r with
    | .ok (v, u1) => .ok ((0, IntType.int64.conv v, .S), u1)
    | .error err => .error err
  if head = detail.MP_UINT8 then asU (u.read e .uint8)
  else if head = detail.MP_UINT16 then asU (u.read e .uint16)
  else if head = detail.MP_UINT32 then asU (u.read e .uint32)
  else if head = detail.MP_UINT64 then asU (u.read e .uint64)
  else if head = detail.MP_INT8 then asS (u.read e .int8)
  else if head = detail.MP_INT16 then asS (u.read e .int16)
  else if head = detail.MP_INT32 then asS (u.read e .int32)
  else if head = detail.MP_INT64 then asS (u.read e .int64)
  else .error .invalidType

/-- The range checks and the assignment `ref = ...` that end `unpack_integral<T>`.
`uVal` is compared as a `uint64_t` (the limit is converted to `uint64_t`); `sVal` is
compared in the common type of `int64_t` and `T`. -/
def checkRange (T : IntType) (uVal sVal : Int) (type : ValKind) : Except Error Int :=
  match type with
  | .U =>
    if uVal > IntType.uint64.conv T.max then .error .overflow
    else .ok (T.conv uVal)
  | .S =>
    if convWithI64 T sVal > convWithI64 T T.max then .error .overflow
    else if convWithI64 T sVal < convWithI64 T T.min then .error .underflow
    else .ok (T.conv sVal)

/-- Method `unpack_integral<T>(T& ref)`; the value assigned to `ref` is returned. -/
def unpack_integral (e : Endian) (T : IntType) (u : Unpacker) :
    Except Error (Int × Unpacker) :=
  match u.read e .uint8 with
  | .error err => .error err
  | .ok (head, u1) =>
    let head : Nat := head.toNat
    if head &&& detail.TYPE_1BIT = detail.MP_FIXNUM then
      .ok (T.conv ((head &&& detail.VALUE_7BIT : Nat) : Int), u1)
    else if head &&& detail.TYPE_3BIT = detail.MP_NEGATIVE_FIXNUM then
      .ok (T.conv (-((head &&& detail.VALUE_5BIT : Nat) : Int)), u1)
    else
      match readExplicit e head u1 with
      | .error err => .error err
      | .ok ((uVal, sVal, type), u2) =>
        match checkRange T uVal sVal type with
        | .error err => .error err
        | .ok ref => .ok (ref, u2)

/-- The length header of `unpack_string` once `nil` is excluded: the decoded
`length` and the Unpacker after the header. -/
def readStringLength (e : Endian) (head : Nat) (u : Unpacker) :
    Except Error (Nat × Unpacker) :=
  let asLen (r : Except Error (Int × Unpacker)) : Except Error (Nat × Unpacker) :=
    match r with
    | .ok (v, u1) => .ok (v.toNat, u1)
    | .error err => .error err
  if head &&& detail.TYPE_3BIT = detail.MP_FIXSTR then
    .ok (head &&& detail.VALUE_5BIT, u)
  else if head = detail.MP_STR8 then asLen (u.read e .uint8)
  else if head = detail.MP_STR16 then asLen (u.read e .uint16)
  else if head = detail.MP_STR32 then asLen (u.read e .uint32)
  else .error .invalidType

/-- Method `unpack_string(std::string& ref)`; `ref` is the prior content of the
target and the returned list its content after the call. -/
def unpack_string (e : Endian) (ref : List Nat) (u : Unpacker) :
    Except Error (List Nat × Unpacker) :=
  match u.read e .uint8 with
  | .error err => .error err
  | .ok (head, u1) =>
    let head : Nat := head.toNat
    if head = detail.MP_NIL then
      .ok ((ref.take 0), u1)
    else
      match readStringLength e head u1 with
      | .error err => .error err
      | .ok (length, u2) =>
        if u2.remaining < length then
          .error .noBytes
        else
          match u2.consume length with
          | .error err => .error err
          | .ok u3 => .ok (u2.readBufferPtr.take length, u3)

end Unpacker

/-! ## Unpacker: targets that are written in place -/

/-- Outcome of an unpack into a target: the target and the Unpacker after a
successful call, or the exception thrown and the target as the call left it. -/
abbrev UnpackResult (α : Type) := Except (Error × α) (α × Unpacker)

/-- Method `std::vector<T>::resize(n)`; `dflt` is the value-initialised `T()`. -/
def resize {α : Type} (l : List α) (n : Nat) (dflt : α) : List α :=
  l.take n ++ List.replicate (n - l.length) dflt

/-- The assignment `ref[key] = value` on a `std::map`, given as the list of its
entries in key order. -/
def mapAssign {K V : Type} [LinearOrder K] (k : K) (v : V) : List (K × V) → List (K × V)
  | [] => [(k, v)]
  | (k', v') :: rest =>
    if k < k' then (k, v) :: (k', v') :: rest
    else if k' < k then (k', v') :: mapAssign k v rest
    else (k', v) :: rest

namespace Unpacker

/-- A scalar unpack seen as an operation on its target `ref`: the target keeps its
content when the call throws. -/
def onTarget {α : Type} (f : Unpacker → Except Error (α × Unpacker)) (ref : α)
    (u : Unpacker) : UnpackResult α :=
  match f u with
  | .ok r => .ok r
  | .error err => .error (err, ref)

/-- Method `unpack_boolean(bool& ref)`; the value assigned to `ref` is returned. -/
def unpack_boolean (e : Endian) (u : Unpacker) : Except Error (Bool × Unpacker) :=
  match u.read e .uint8 with
  | .error err => .error err
  | .ok (head, u1) =>
    let head : Nat := head.toNat
    if head = detail.MP_TRUE then
      .ok (true, u1)
    else if head = detail.MP_FALSE then
      .ok (false, u1)
    else
      .error .invalidType

/-- Methods `read<float>()` and `read<double>()`: the bit pattern read. -/
def readFloat (e : Endian) (T : FloatType) (u : Unpacker) : Except Error (Nat × Unpacker) :=
  match u.read e T.carrier with
  | .ok (v, u1) => .ok (v.toNat, u1)
  | .error err => .error err

/-- Method `unpack_floating_point<T>(T& ref)`; the pattern assigned to `ref` is
returned. -/
def unpack_floating_point (e : Endian) (c : FloatConv) (T : FloatType) (u : Unpacker) :
    Except Error (Nat × Unpacker) :=
  match u.read e .uint8 with
  | .error err => .error err
  | .ok (head, u1) =>
    let head : Nat := head.toNat
    if head = detail.MP_FLOAT then
      match readFloat e .float u1 with
      | .error err => .error err
      | .ok (v, u2) => .ok (T.ofFloat c v, u2)
    else if head = detail.MP_DOUBLE then
      match readFloat e .double u1 with
      | .error err => .error err
      | .ok (value, u2) =>
        if Double.greater value T.maxAsDouble then
          .error .overflow
        else if Double.less value T.minAsDouble then
          .error .underflow
        else
          .ok (T.ofDouble c value, u2)
    else
      .error .invalidType

/-- Method `unpack_c_string(char* ptr, size_t size)`; `ptr` is the content of the
`size` bytes of the target. The length header is the one of `unpack_string`. -/
def unpack_c_string (e : Endian) (ptr : List Nat) (u : Unpacker) : UnpackResult (List Nat) :=
  let size : Nat := ptr.length
  match u.read e .uint8 with
  | .error err => .error (err, ptr)
  | .ok (head, u1) =>
    let head : Nat := head.toNat
    if head = detail.MP_NIL then
      -- `*ptr = 0`
      .ok (ptr.set 0 0, u1)
    else
      match readStringLength e head u1 with
      | .error err => .error (err, ptr)
      | .ok (length, u2) =>
        if length > size then
          .error (.stringBufferOverflow, ptr)
        else
          -- `memset(ptr+length, 0, size-length)`
          let ptr : List Nat := ptr.take length ++ List.replicate (size - length) 0
          -- `read(ptr, length)`
          match u2.readBytes length with
          | .error err => .error (err, ptr)
          | .ok (bytes, u3) => .ok (bytes ++ ptr.drop length, u3)

/-- The length header of both overloads of `unpack_binary`. -/
def readBinaryLength (e : Endian) (head : Nat) (u : Unpacker) :
    Except Error (Nat × Unpacker) :=
  let asLen (r : Except Error (Int × Unpacker)) : Except Error (Nat × Unpacker) :=
    match r with
    | .ok (v, u1) => .ok (v.toNat, u1)
    | .error err => .error err
  if head = detail.MP_BIN8 then asLen (u.read e .uint8)
  else if head = detail.MP_BIN16 then asLen (u.read e .uint16)
  else if head = detail.MP_BIN32 then asLen (u.read e .uint32)
  else .error .invalidType

/-- Method `unpack_binary(void* buffer, size_t size)`; `buffer` is the content of the
`size` bytes of the target. -/
def unpack_binary_fixed (e : Endian) (buffer : List Nat) (u : Unpacker) :
    UnpackResult (List Nat) :=
  let size : Nat := buffer.length
  match u.read e .uint8 with
  | .error err => .error (err, buffer)
  | .ok (head, u1) =>
    match readBinaryLength e head.toNat u1 with
    | .error err => .error (err, buffer)
    | .ok (length, u2) =>
      if length ≠ size then
        .error (.binarySizeMismatch, buffer)
      else
        match u2.readBytes length with
        | .error err => .error (err, buffer)
        | .ok (bytes, u3) => .ok (bytes ++ buffer.drop length, u3)

/-- Method `unpack_binary<T>(std::vector<T>& ref)`. -/
def unpack_binary (e : Endian) (ref : List Nat) (u : Unpacker) : UnpackResult (List Nat) :=
  match u.read e .uint8 with
  | .error err => .error (err, ref)
  | .ok (head, u1) =>
    match readBinaryLength e head.toNat u1 with
    | .error err => .error (err, ref)
    | .ok (length, u2) =>
      -- `ref.resize(length)`
      let ref : List Nat := resize ref length 0
      match u2.readBytes length with
      | .error err => .error (err, ref)
      | .ok (bytes, u3) => .ok (bytes ++ ref.drop length, u3)

/-- The count header of the three overloads of `unpack_array`. -/
def readArrayCount (e : Endian) (head : Nat) (u : Unpacker) :
    Except Error (Nat × Unpacker) :=
  let asLen (r : Except Error (Int × Unpacker)) : Except Error (Nat × Unpacker) :=
    match r with
    | .ok (v, u1) => .ok (v.toNat, u1)
    | .error err => .error err
  if head &&& detail.TYPE_4BIT = detail.MP_FIXARRAY then
    .ok (head &&& detail.VALUE_4BIT, u)
  else if head = detail.MP_ARRAY16 then asLen (u.read e .uint16)
  else if head = detail.MP_ARRAY32 then asLen (u.read e .uint32)
  else .error .invalidType

/-- The count header of `unpack_map`. -/
def readMapCount (e : Endian) (head : Nat) (u : Unpacker) :
    Except Error (Nat × Unpacker) :=
  let asLen (r : Except Error (Int × Unpacker)) : Except Error (Nat × Unpacker) :=
    match r with
    | .ok (v, u1) => .ok (v.toNat, u1)
    | .error err => .error err
  if head &&& detail.TYPE_4BIT = detail.MP_FIXMAP then
    .ok (head &&& detail.VALUE_4BIT, u)
  else if head = detail.MP_MAP16 then asLen (u.read e .uint16)
  else if head = detail.MP_MAP32 then asLen (u.read e .uint32)
  else .error .invalidType

/-- Statements `body i` run on the target for the indices `i` in turn, up to the
first that throws. -/
def forEach {τ : Type} (body : Nat → τ → Unpacker → UnpackResult τ) :
    List Nat → τ → Unpacker → UnpackResult τ
  | [], t, u => .ok (t, u)
  | i :: is, t, u =>
    match body i t u with
    | .ok (t', u') => forEach body is t' u'
    | .error err => .error err

/-- The statement `unpack(data[i])`: element `i` of the target is unpacked in
place. -/
def unpackAt {α : Type} (unpackElem : α → Unpacker → UnpackResult α) (i : Nat)
    (data : List α) (u : Unpacker) : UnpackResult (List α) :=
  match data[i]? with
  | none => .ok (data, u)
  | some x =>
    match unpackElem x u with
    | .ok (x', u') => .ok (data.set i x', u')
    | .error (err, x') => .error (err, data.set i x')

/-- Method `unpack_array<T>(T* data, size_t size)`; `unpackElem` is the overload of
`unpack` selected for `T`, and `size` is the length of `data`. -/
def unpack_array_fixed {α : Type} (e : Endian) (unpackElem : α → Unpacker → UnpackResult α)
    (data : List α) (u : Unpacker) : UnpackResult (List α) :=
  let size : Nat := data.length
  match u.read e .uint8 with
  | .error err => .error (err, data)
  | .ok (head, u1) =>
    match readArrayCount e head.toNat u1 with
    | .error err => .error (err, data)
    | .ok (elements, u2) =>
      if elements ≠ size then
        .error (.arraySizeMismatch, data)
      else
        forEach (unpackAt unpackElem) (Packer.intIndices size) data u2

/-- Method `unpack_array<T>(std::vector<T>& ref)`; `dflt` is the value-initialised
`T()`. -/
def unpack_array {α : Type} (e : Endian) (unpackElem : α → Unpacker → UnpackResult α)
    (dflt : α) (ref : List α) (u : Unpacker) : UnpackResult (List α) :=
  match u.read e .uint8 with
  | .error err => .error (err, ref)
  | .ok (head, u1) =>
    match readArrayCount e head.toNat u1 with
    | .error err => .error (err, ref)
    | .ok (elements, u2) =>
      forEach (unpackAt unpackElem) (Packer.sizeIndices elements) (resize ref elements dflt) u2

/-- Method `unpack_array(std::vector<bool>& ref)`: each element is unpacked into the
local `value` and then stored with `ref.at(i) = value`. -/
def unpack_array_bool (e : Endian) (ref : List Bool) (u : Unpacker) :
    UnpackResult (List Bool) :=
  match u.read e .uint8 with
  | .error err => .error (err, ref)
  | .ok (head, u1) =>
    match readArrayCount e head.toNat u1 with
    | .error err => .error (err, ref)
    | .ok (elements, u2) =>
      forEach
        (fun i ref u =>
          match unpack_boolean e u with
          | .ok (value, u') => .ok (ref.set i value, u')
          | .error err => .error (err, ref))
        (Packer.sizeIndices elements) (resize ref elements false) u2

/-- The loop of `unpack_map`, `n` iterations to go: `key` and `value` are the locals
declared before the loop, which every iteration unpacks into and then stores with
`ref[key] = value`. -/
def unpackPairs {K V : Type} [LinearOrder K] (unpackKey : K → Unpacker → UnpackResult K)
    (unpackVal : V → Unpacker → UnpackResult V) :
    Nat → List (K × V) → K → V → Unpacker → UnpackResult (List (K × V))
  | 0, ref, _, _, u => .ok (ref, u)
  | n + 1, ref, key, value, u =>
    match unpackKey key u with
    | .error (err, _) => .error (err, ref)
    | .ok (key, u1) =>
      match unpackVal value u1 with
      | .error (err, _) => .error (err, ref)
      | .ok (value, u2) =>
        unpackPairs unpackKey unpackVal n (mapAssign key value ref) key value u2

/-- Method `unpack_map<K,V>(std::map<K,V>& ref)`; `key0` and `value0` are the
default-initialised locals `K key; V value;`. -/
def unpack_map {K V : Type} [LinearOrder K] (e : Endian)
    (unpackKey : K → Unpacker → UnpackResult K) (unpackVal : V → Unpacker → UnpackResult V)
    (key0 : K) (value0 : V) (ref : List (K × V)) (u : Unpacker) :
    UnpackResult (List (K × V)) :=
  match u.read e .uint8 with
  | .error err => .error (err, ref)
  | .ok (head, u1) =>
    match readMapCount e head.toNat u1 with
    | .error err => .error (err, ref)
    | .ok (elements, u2) => unpackPairs unpackKey unpackVal elements ref key0 value0 u2

end Unpacker

/-! ## Notions used to state the properties -/

/-- The sink of `p` can take `n` more bytes: it is growable, or it is a fixed buffer
with at least `n` bytes free. -/
def Packer.HasRoom (p : Packer) (n : Nat) : Prop :=
  p.type = .DYNAMIC ∨ n ≤ p.staticPacker.remaining

instance (p : Packer) (n : Nat) : Decidable (p.HasRoom n) := by
  unfold Packer.HasRoom; infer_instance

/-- The operation `r` completed without an exception and appended exactly the bytes
`bs` to what the Packer `p` held. -/
def PackResult.Appends (r : PackResult) (p : Packer) (bs : List Nat) : Prop :=
  r.error = none ∧ r.packer.data = p.data ++ bs

instance (r : PackResult) (p : Packer) (bs : List Nat) : Decidable (r.Appends p bs) := by
  unfold PackResult.Appends; infer_instance

/-- The bytes `pack_integral<T>(value)` produces in an empty growable Packer. -/
def packedIntegral (e : Endian) (T : IntType) (value : Int) : List Nat :=
  (Packer.mkDynamic.pack_integral e T value).packer.data

/-- The bytes `pack_string` produces in an empty growable Packer. -/
def packedString (e : Endian) (s : List Nat) : List Nat :=
  (Packer.mkDynamic.pack_string e s).packer.data

/-- Encoding of a non-negative integer as the specification words it: the smallest
of the inline form and the `uint8/16/32/64` forms that holds `v`. -/
def specNonNegEncoding (e : Endian) (v : Nat) : List Nat :=
  if v ≤ 127 then [v]
  else if v ≤ 255 then 0xcc :: hostBytes e 1 v
  else if v ≤ 65535 then 0xcd :: hostBytes e 2 v
  else if v ≤ 2 ^ 32 - 1 then 0xce :: hostBytes e 4 v
  else 0xcf :: hostBytes e 8 v

/-- Encoding of a negative integer as the specification words it: the smallest of
the inline form and the `int8/16/32/64` forms that holds `v`, the value bytes being
the two's-complement pattern of `v` at that width. -/
def specNegEncoding (e : Endian) (v : Int) : List Nat :=
  if -32 ≤ v then [(v % 256).toNat]
  else if -128 ≤ v then 0xd0 :: hostBytes e 1 (v % 2 ^ 8).toNat
  else if -32768 ≤ v then 0xd1 :: hostBytes e 2 (v % 2 ^ 16).toNat
  else if -2 ^ 31 ≤ v then 0xd2 :: hostBytes e 4 (v % 2 ^ 32).toNat
  else 0xd3 :: hostBytes e 8 (v % 2 ^ 64).toNat

/-- Encoding of a byte string of at most `2 ^ 32 - 1` bytes as the specification
words it. -/
def specStringEncoding (e : Endian) (s : List Nat) : List Nat :=
  if s.length = 0 then [0xc0]
  else if s.length ≤ 31 then (0xa0 ||| s.length) :: s
  else if s.length ≤ 255 then 0xd9 :: hostBytes e 1 s.length ++ s
  else if s.length ≤ 65535 then 0xda :: hostBytes e 2 s.length ++ s
  else 0xdb :: hostBytes e 4 s.length ++ s

/-- The explicit unsigned integer tags with the type of the value that follows. -/
def unsignedTags : List (Nat × IntType) :=
  [(detail.MP_UINT8, .uint8), (detail.MP_UINT16, .uint16),
   (detail.MP_UINT32, .uint32), (detail.MP_UINT64, .uint64)]

/-- The explicit signed integer tags with the type of the value that follows. -/
def signedTags : List (Nat × IntType) :=
  [(detail.MP_INT8, .int8), (detail.MP_INT16, .int16),
   (detail.MP_INT32, .int32), (detail.MP_INT64, .int64)]

/-- The leading bytes of the integer category: inline non-negative, inline negative,
and the eight explicit tags. -/
def IsIntegerTag (b : Nat) : Prop :=
  b ≤ 0x7f ∨ (0xe0 ≤ b ∧ b ≤ 0xff) ∨ b ∈ [0xcc, 0xcd, 0xce, 0xcf, 0xd0, 0xd1, 0xd2, 0xd3]

instance (b : Nat) : Decidable (IsIntegerTag b) := by
  unfold IsIntegerTag; infer_instance

/-- The list `p` is a prefix of `l` other than `l` itself. -/
def StrictPrefix (p l : List Nat) : Prop := p <+: l ∧ p ≠ l

/-- The bytes `pack_binary` produces in an empty growable Packer. -/
def packedBinary (e : Endian) (bs : List Nat) : List Nat :=
  (Packer.mkDynamic.pack_binary e bs).packer.data

/-- Encoding of a byte sequence of at most `2 ^ 32 - 1` bytes as the specification
words it: `bin8`, `bin16` or `bin32` header, then the raw bytes. -/
def specBinaryEncoding (e : Endian) (bs : List Nat) : List Nat :=
  if bs.length ≤ 255 then 0xc4 :: hostBytes e 1 bs.length ++ bs
  else if bs.length ≤ 65535 then 0xc5 :: hostBytes e 2 bs.length ++ bs
  else 0xc6 :: hostBytes e 4 bs.length ++ bs

/-- The explicit binary tags with the type of the length field that follows. -/
def binaryTags : List (Nat × IntType) :=
  [(detail.MP_BIN8, .uint8), (detail.MP_BIN16, .uint16), (detail.MP_BIN32, .uint32)]

/-- The bytes `pack_floating_point<T>` produces in an empty growable Packer. -/
def packedFloating (e : Endian) (T : FloatType) (value : Nat) : List Nat :=
  (Packer.mkDynamic.pack_floating_point e T value).packer.data

/-- Successive `write` calls, one for each chunk, up to the first that throws. -/
def Packer.writeChunks : List (List Nat) → Packer → PackResult
  | [], p => ⟨p, none⟩
  | c :: cs, p => (p.write c).andThen (Packer.writeChunks cs)

/-- The pack operation `f` consists of one `write` call for each of the chunks `cs`,
in order, whatever the Packer. -/
def WritesChunks (f : Packer → PackResult) (cs : List (List Nat)) : Prop :=
  ∀ p, f p = p.writeChunks cs

/-- Outcome of a pack that ran out of room in the fixed sink of `p` while writing the
encoding `enc`: the no-space exception, with the bytes `p` held still in place and
followed by a strict prefix of `enc`. -/
def PackResult.FailsPartway (r : PackResult) (p : Packer) (enc : List Nat) : Prop :=
  r.error = some .noSpace ∧ ∃ pre, StrictPrefix pre enc ∧ r.packer.data = p.data ++ pre

/-- Length header of an array of `n ≤ 2 ^ 32 - 1` elements as the specification
words it. -/
def specArrayHeader (e : Endian) (n : Nat) : List Nat :=
  if n ≤ 15 then [0x90 ||| n]
  else if n ≤ 65535 then 0xdc :: hostBytes e 2 n
  else 0xdd :: hostBytes e 4 n

/-- Length header of a map of `n ≤ 2 ^ 32 - 1` entries as the specification words
it. -/
def specMapHeader (e : Endian) (n : Nat) : List Nat :=
  if n ≤ 15 then [0x80 ||| n]
  else if n ≤ 65535 then 0xde :: hostBytes e 2 n
  else 0xdf :: hostBytes e 4 n

/-- A well-formed array header declaring the count `c`: any of the three header forms
the decoder accepts (the count need not use the smallest form). -/
def IsArrayHeader (e : Endian) (hdr : List Nat) (c : Nat) : Prop :=
  (c ≤ 15 ∧ hdr = [0x90 ||| c]) ∨ (c ≤ 65535 ∧ hdr = 0xdc :: hostBytes e 2 c)
    ∨ (c ≤ 2 ^ 32 - 1 ∧ hdr = 0xdd :: hostBytes e 4 c)

/-- A well-formed binary header declaring the length `c`. -/
def IsBinaryHeader (e : Endian) (hdr : List Nat) (c : Nat) : Prop :=
  (c ≤ 255 ∧ hdr = 0xc4 :: hostBytes e 1 c) ∨ (c ≤ 65535 ∧ hdr = 0xc5 :: hostBytes e 2 c)
    ∨ (c ≤ 2 ^ 32 - 1 ∧ hdr = 0xc6 :: hostBytes e 4 c)

/-- A well-formed map header declaring the count `c`. -/
def IsMapHeader (e : Endian) (hdr : List Nat) (c : Nat) : Prop :=
  (c ≤ 15 ∧ hdr = [0x80 ||| c]) ∨ (c ≤ 65535 ∧ hdr = 0xde :: hostBytes e 2 c)
    ∨ (c ≤ 2 ^ 32 - 1 ∧ hdr = 0xdf :: hostBytes e 4 c)

/-- The value a `std::map`, given as the list of its entries, holds for the key `k`. -/
def mapFind {K V : Type} [DecidableEq K] (k : K) (m : List (K × V)) : Option V :=
  (m.find? fun kv => decide (kv.1 = k)).map fun kv => kv.2

/-- The value of the last pair with key `k` in a sequence of pairs. -/
def lastValue {K V : Type} [DecidableEq K] (k : K) (pairs : List (K × V)) : Option V :=
  mapFind k pairs.reverse

/-- The bytes `pack_map` produces in an empty growable Packer. -/
def packedMap {K V : Type} (e : Endian) (packKey : K → Packer → PackResult)
    (packVal : V → Packer → PackResult) (m : List (K × V)) : List Nat :=
  (Packer.mkDynamic.pack_map e packKey packVal m).packer.data

/-- The Unpacker over the slice `bs` when the bytes `junk` lie in memory right after
the slice: the pointer sees `bs ++ junk`, the counter allows `bs.length` bytes. -/
def Unpacker.within (bs junk : List Nat) : Unpacker := Unpacker.init (bs ++ junk) bs.length

/-- Cursor discipline of a decoding operation `f`. On every slice `bs`: if `f`
succeeds it has consumed some `k` bytes, at least one and no more than the slice
holds, so that the pointer is at `bs.drop k` and the counter at `bs.length - k`; and
whatever bytes lie in memory after the slice, `f` ends the same way (same value or
same exception, same number of bytes consumed), so that no byte at or beyond the end
of the slice is read. -/
def CursorSafe {ε α : Type} (f : Unpacker → Except ε (α × Unpacker)) : Prop :=
  ∀ bs : List Nat,
    (∀ v u', f (Unpacker.ofSlice bs) = .ok (v, u') →
      ∃ k, 1 ≤ k ∧ k ≤ bs.length ∧ u'.readBufferPtr = bs.drop k ∧ u'.remaining = bs.length - k)
    ∧ ∀ junk,
      f (Unpacker.within bs junk) =
        match f (Unpacker.ofSlice bs) with
        | .ok (v, u') => .ok (v, Unpacker.within u'.readBufferPtr junk)
        | .error err => .error err

/-- The outcome of `f` on a slice is fixed by the slice alone: some `r`, a value with
the number `k ≥ lo` of bytes consumed or an exception, describes the run of `f`
whatever lies after the slice. -/
def Framed {ε α : Type} (lo : Nat) (f : Unpacker → Except ε (α × Unpacker)) : Prop :=
  ∀ bs : List Nat, ∃ r : Except ε (α × Nat),
    (∀ v k, r = .ok (v, k) → lo ≤ k ∧ k ≤ bs.length)
    ∧ ∀ junk,
      f (Unpacker.within bs junk) =
        match r with
        | .ok (v, k) => .ok (v, Unpacker.within (bs.drop k) junk)
        | .error err => .error err

/-- Two decoding steps in sequence; an exception of the first is passed on
through `h`. -/
def Unpacker.seq {ε ε' α β : Type} (h : ε → ε') (f : Unpacker → Except ε (α × Unpacker))
    (g : α → Unpacker → Except ε' (β × Unpacker)) : Unpacker → Except ε' (β × Unpacker) :=
  fun u =>
    match f u with
    | .error err => .error (h err)
    | .ok (v, u1) => g v u1

/-- The seven categories of encoded values that have a decoder. -/
inductive Category
  | integer | boolean | floating | string | binary | array | map
  deriving DecidableEq, Repr

/-- The tests that the decoders make on the leading byte `head`, each with the
category of the decoder that makes it: the five mask tests and the explicit tag
constants. -/
def tagTests : List (Category × (Nat → Bool)) :=
  [(.integer, fun head => head &&& detail.TYPE_1BIT == detail.MP_FIXNUM),
   (.integer, fun head => head &&& detail.TYPE_3BIT == detail.MP_NEGATIVE_FIXNUM),
   (.integer, fun head => head == detail.MP_UINT8),
   (.integer, fun head => head == detail.MP_UINT16),
   (.integer, fun head => head == detail.MP_UINT32),
   (.integer, fun head => head == detail.MP_UINT64),
   (.integer, fun head => head == detail.MP_INT8),
   (.integer, fun head => head == detail.MP_INT16),
   (.integer, fun head => head == detail.MP_INT32),
   (.integer, fun head => head == detail.MP_INT64),
   (.boolean, fun head => head == detail.MP_TRUE),
   (.boolean, fun head => head == detail.MP_FALSE),
   (.floating, fun head => head == detail.MP_FLOAT),
   (.floating, fun head => head == detail.MP_DOUBLE),
   (.string, fun head => head == detail.MP_NIL),
   (.string, fun head => head &&& detail.TYPE_3BIT == detail.MP_FIXSTR),
   (.string, fun head => head == detail.MP_STR8),
   (.string, fun head => head == detail.MP_STR16),
   (.string, fun head => head == detail.MP_STR32),
   (.binary, fun head => head == detail.MP_BIN8),
   (.binary, fun head => head == detail.MP_BIN16),
   (.binary, fun head => head == detail.MP_BIN32),
   (.array, fun head => head &&& detail.TYPE_4BIT == detail.MP_FIXARRAY),
   (.array, fun head => head == detail.MP_ARRAY16),
   (.array, fun head => head == detail.MP_ARRAY32),
   (.map, fun head => head &&& detail.TYPE_4BIT == detail.MP_FIXMAP),
   (.map, fun head => head == detail.MP_MAP16),
   (.map, fun head => head == detail.MP_MAP32)]

/-- The byte `head` passes one of the tests of the decoder of category `c`. -/
def Category.tag (c : Category) (head : Nat) : Bool :=
  tagTests.any fun t => t.1 == c && t.2 head

/-- The category `head` is classified into when the tests are tried in the order of
the list `tests`: the category of the first test that `head` passes. -/
def classify (tests : List (Category × (Nat → Bool))) (head : Nat) : Option Category :=
  (tests.find? fun t => t.2 head).map Prod.fst

/-- The byte sequence `bs` decodes successfully as a value of category `c`: one of
the decoders of that category, for some target, returns without an exception on an
Unpacker over `bs`. -/
def Category.decodes (e : Endian) : Category → List Nat → Prop
  | .integer, bs => ∃ T r, Unpacker.unpack_integral e T (Unpacker.ofSlice bs) = .ok r
  | .boolean, bs => ∃ r, Unpacker.unpack_boolean e (Unpacker.ofSlice bs) = .ok r
  | .floating, bs =>
    ∃ c T r, Unpacker.unpack_floating_point e c T (Unpacker.ofSlice bs) = .ok r
  | .string, bs =>
    (∃ ref r, Unpacker.unpack_string e ref (Unpacker.ofSlice bs) = .ok r)
      ∨ ∃ ptr r, Unpacker.unpack_c_string e ptr (Unpacker.ofSlice bs) = .ok r
  | .binary, bs =>
    (∃ buffer r, Unpacker.unpack_binary_fixed e buffer (Unpacker.ofSlice bs) = .ok r)
      ∨ ∃ ref r, Unpacker.unpack_binary e ref (Unpacker.ofSlice bs) = .ok r
  | .array, bs =>
    (∃ (α : Type) (unpackElem : α → Unpacker → UnpackResult α) (data : List α) (r : _),
        Unpacker.unpack_array_fixed e unpackElem data (Unpacker.ofSlice bs) = .ok r)
      ∨ (∃ (α : Type) (unpackElem : α → Unpacker → UnpackResult α) (dflt : α) (ref : List α)
          (r : _), Unpacker.unpack_array e unpackElem dflt ref (Unpacker.ofSlice bs) = .ok r)
      ∨ ∃ ref r, Unpacker.unpack_array_bool e ref (Unpacker.ofSlice bs) = .ok r
  | .map, bs =>
    ∃ (K V : Type) (_ : LinearOrder K) (unpackKey : K → Unpacker → UnpackResult K)
      (unpackVal : V → Unpacker → UnpackResult V) (key0 : K) (value0 : V) (ref : List (K × V))
      (r : _),
      Unpacker.unpack_map e unpackKey unpackVal key0 value0 ref (Unpacker.ofSlice bs) = .ok r

/-- The decoder of category `c` accepts `b` as a leading tag byte: some byte sequence
starting with `b` decodes successfully as a value of category `c`. -/
def Category.accepts (e : Endian) (c : Category) (b : Nat) : Prop :=
  ∃ rest, c.decodes e (b :: rest)

/-! ## Object

An `Object` holds pointers: to its parent, to nested Objects, and (inside the
closures `f_pack`, `f_unpack` made by `reg`) references to the registered variables.
The pointer graph at the time of a `pack` or `unpack` call is given as a tree, which
covers every Object whose parent chain and nesting are acyclic; `σ` is the memory that
holds the registered variables, read by `f_pack` and written by `f_unpack`. -/

/-- Model of `struct Object::Field`, `O` being the type of Objects: a field made by
`reg(T& arg)` holds the two closures and `nestedObject == NULL`; a field made by
`reg(Object& object)` holds `nestedObject == &object`. -/
inductive Field (σ : Type) (O : Type) : Type
  | leaf (f_pack : σ → Packer → PackResult) (f_unpack : σ → Unpacker → UnpackResult σ) :
      Field σ O
  | nested (nestedObject : O) : Field σ O

/-- Model of `class Object`: the members `parentObj` (`none` for `NULL`) and
`fieldVec`. -/
inductive Object (σ : Type) : Type
  | mk (parentObj : Option (Object σ)) (fieldVec : List (Field σ (Object σ))) : Object σ

namespace Object

def parentObj {σ : Type} : Object σ → Option (Object σ)
  | .mk parentObj _ => parentObj

def fieldVec {σ : Type} : Object σ → List (Field σ (Object σ))
  | .mk _ fieldVec => fieldVec

/-- Constructor `Object()`. -/
def init {σ : Type} : Object σ := .mk none []

/-- Method `inherit(Object* p)`. -/
def inherit {σ : Type} (o : Object σ) (p : Object σ) : Object σ :=
  .mk (some p) o.fieldVec

/-- Method `reg(T& arg)`; `f_pack` is the closure `packer.pack(arg)` and `f_unpack` the
closure `unpacker.unpack(arg)`. -/
def reg {σ : Type} (o : Object σ) (f_pack : σ → Packer → PackResult)
    (f_unpack : σ → Unpacker → UnpackResult σ) : Object σ :=
  .mk o.parentObj (o.fieldVec ++ [.leaf f_pack f_unpack])

/-- Method `reg(Object& object)`. -/
def regObject {σ : Type} (o : Object σ) (object : Object σ) : Object σ :=
  .mk o.parentObj (o.fieldVec ++ [.nested object])

mutual
/-- Method `pack(Packer& packer)`. -/
def pack {σ : Type} : Object σ → σ → Packer → PackResult
  | .mk parentObj fieldVec, mem, packer =>
    (packParent parentObj mem packer).andThen (packFields fieldVec mem)
/-- The statement `if(parentObj) parentObj->pack(packer)`. -/
def packParent {σ : Type} : Option (Object σ) → σ → Packer → PackResult
  | none, _, packer => ⟨packer, none⟩
  | some p, mem, packer => p.pack mem packer
/-- The loop `for(auto& field : fieldVec)` of `pack`. -/
def packFields {σ : Type} : List (Field σ (Object σ)) → σ → Packer → PackResult
  | [], _, packer => ⟨packer, none⟩
  | field :: rest, mem, packer => (packField field mem packer).andThen (packFields rest mem)
/-- The body of the loop of `pack`. -/
def packField {σ : Type} : Field σ (Object σ) → σ → Packer → PackResult
  | .leaf f_pack _, mem, packer => f_pack mem packer
  | .nested nestedObject, mem, packer => nestedObject.pack mem packer
end

mutual
/-- Method `unpack(Unpacker& unpacker)`; the memory as the call leaves it is
returned. -/
def unpack {σ : Type} : Object σ → σ → Unpacker → UnpackResult σ
  | .mk parentObj fieldVec, mem, unpacker =>
    match unpackParent parentObj mem unpacker with
    | .error err => .error err
    | .ok (mem1, u1) => unpackFields fieldVec mem1 u1
/-- The statement `if(parentObj) parentObj->unpack(unpacker)`. -/
def unpackParent {σ : Type} : Option (Object σ) → σ → Unpacker → UnpackResult σ
  | none, mem, unpacker => .ok (mem, unpacker)
  | some p, mem, unpacker => p.unpack mem unpacker
/-- The loop `for(auto& field : fieldVec)` of `unpack`. -/
def unpackFields {σ : Type} : List (Field σ (Object σ)) → σ → Unpacker → UnpackResult σ
  | [], mem, unpacker => .ok (mem, unpacker)
  | field :: rest, mem, unpacker =>
    match unpackField field mem unpacker with
    | .error err => .error err
    | .ok (mem1, u1) => unpackFields rest mem1 u1
/-- The body of the loop of `unpack`. -/
def unpackField {σ : Type} : Field σ (Object σ) → σ → Unpacker → UnpackResult σ
  | .leaf _ f_unpack, mem, unpacker => f_unpack mem unpacker
  | .nested nestedObject, mem, unpacker => nestedObject.unpack mem unpacker
end

mutual
/-- The flattened fields of an Object: the flattened fields of its parent, then for
each of its own fields in registration order the field itself, or the flattened fields
of the nested Object. -/
def flatten {σ : Type} : Object σ → List (Field σ (Object σ))
  | .mk parentObj fieldVec => flattenParent parentObj ++ flattenFields fieldVec
def flattenParent {σ : Type} : Option (Object σ) → List (Field σ (Object σ))
  | none => []
  | some p => p.flatten
def flattenFields {σ : Type} : List (Field σ (Object σ)) → List (Field σ (Object σ))
  | [] => []
  | field :: rest => flattenField field ++ flattenFields rest
def flattenField {σ : Type} : Field σ (Object σ) → List (Field σ (Object σ))
  | .leaf f_pack f_unpack => [.leaf f_pack f_unpack]
  | .nested nestedObject => nestedObject.flatten
end

end Object

/-- The memory that holds the variables registered with Objects: integer variables,
`bool` variables and `std::string` variables, each kind indexed by an address. -/
structure Memory where
  integrals : Nat → Int
  booleans : Nat → Bool
  strings : Nat → List Nat

/-- Zeroed storage. -/
def Memory.zero : Memory := ⟨fun _ => 0, fun _ => false, fun _ => []⟩

/-- A variable that is registered with `reg(T& arg)`: an integer of type `T`, a
`bool` or a `std::string`, at an address. -/
inductive Variable
  | integral (T : IntType) (addr : Nat)
  | boolean (addr : Nat)
  | string (addr : Nat)
  deriving DecidableEq, Repr

namespace Variable

/-- The closure `[&](Packer& packer) { packer.pack(arg); }` of `reg`, with the
overload of `pack` selected for the type of `arg`. -/
def f_pack (e : Endian) : Variable → Memory → Packer → PackResult
  | .integral T addr, mem => Packer.pack_integral e T (mem.integrals addr)
  | .boolean addr, mem => Packer.pack_boolean e (mem.booleans addr)
  | .string addr, mem => Packer.pack_string e (mem.strings addr)

/-- The closure `[&](Unpacker& unpacker) { unpacker.unpack(arg); }` of `reg`, with
the overload of `unpack` selected for the type of `arg`. -/
def f_unpack (e : Endian) : Variable → Memory → Unpacker → UnpackResult Memory
  | .integral T addr, mem, u =>
    match Unpacker.unpack_integral e T u with
    | .ok (v, u1) => .ok ({ mem with integrals := Function.update mem.integrals addr v }, u1)
    | .error err => .error (err, mem)
  | .boolean addr, mem, u =>
    match Unpacker.unpack_boolean e u with
    | .ok (v, u1) => .ok ({ mem with booleans := Function.update mem.booleans addr v }, u1)
    | .error err => .error (err, mem)
  | .string addr, mem, u =>
    match Unpacker.unpack_string e (mem.strings addr) u with
    | .ok (v, u1) => .ok ({ mem with strings := Function.update mem.strings addr v }, u1)
    | .error err => .error (err, mem)

/-- The field that `reg(arg)` appends for the variable. -/
def field (e : Endian) (x : Variable) : Field Memory (Object Memory) :=
  .leaf (x.f_pack e) (x.f_unpack e)

end Variable

/-- The value the variable holds can be packed: a string has at most `2 ^ 32 - 1`
bytes. -/
def Variable.Packable (mem : Memory) : Variable → Prop
  | .string addr => (mem.strings addr).length ≤ 2 ^ 32 - 1
  | _ => True

/-- The call `reg(arg)` for the variable `x`. -/
def Object.regVariable (e : Endian) (o : Object Memory) (x : Variable) : Object Memory :=
  o.reg (x.f_pack e) (x.f_unpack e)

namespace Variable

/-- The variable is an unsigned integer holding a value of its type, a `bool`, or a
string of at most `2 ^ 32 - 1` bytes. -/
def Admissible (mem : Memory) : Variable → Prop
  | .integral T addr => T.isSigned = false ∧ T.InRange (mem.integrals addr)
  | .boolean _ => True
  | .string addr => (mem.strings addr).length ≤ 2 ^ 32 - 1

/-- The variable holds the same value in the memories `m` and `m'`. -/
def sameValue (m m' : Memory) : Variable → Prop
  | .integral _ addr => m.integrals addr = m'.integrals addr
  | .boolean addr => m.booleans addr = m'.booleans addr
  | .string addr => m.strings addr = m'.strings addr

/-- The memory `dst` after the variable has been given the value it holds in
`src`. -/
def assign (src dst : Memory) : Variable → Memory
  | .integral _ addr =>
    { dst with integrals := Function.update dst.integrals addr (src.integrals addr) }
  | .boolean addr =>
    { dst with booleans := Function.update dst.booleans addr (src.booleans addr) }
  | .string addr =>
    { dst with strings := Function.update dst.strings addr (src.strings addr) }

/-- The bytes packed for the variable in an empty growable Packer. -/
def packed (e : Endian) (mem : Memory) (x : Variable) : List Nat :=
  (x.f_pack e mem Packer.mkDynamic).packer.data

end Variable

/-! ## Arithmetic of the conversions -/

theorem leBytes_length (w n : Nat) : (leBytes w n).length = w := by
  induction w generalizing n with
  | zero => rfl
  | succ w ih => simp [leBytes, ih]

theorem leValue_leBytes (w n : Nat) : leValue (leBytes w n) = n % 256 ^ w := by
  induction w generalizing n with
  | zero => simp [leBytes, leValue, Nat.mod_one]
  | succ w ih =>
    simp only [leBytes, leValue, ih]
    rw [pow_succ, Nat.mul_comm (256 ^ w) 256, Nat.mod_mul]

theorem hostBytes_length (e : Endian) (w n : Nat) : (hostBytes e w n).length = w := by
  cases e <;> simp [hostBytes, leBytes_length]

theorem hostValue_hostBytes (e : Endian) (w n : Nat) :
    hostValue e (hostBytes e w n) = n % 256 ^ w := by
  cases e <;> simp [hostValue, hostBytes, leValue_leBytes]

theorem hostBytes_one (e : Endian) (n : Nat) : hostBytes e 1 n = [n % 256] := by
  cases e <;> simp [hostBytes, leBytes]

theorem hostValue_singleton (e : Endian) (b : Nat) : hostValue e [b] = b := by
  cases e <;> simp [hostValue, leValue]

theorem IntType.conv_eq_self {T : IntType} {x : Int} (h : T.InRange x) : T.conv x = x := by
  cases T <;>
    simp [IntType.InRange, IntType.min, IntType.max, IntType.isSigned, IntType.bits,
      IntType.sizeof, IntType.conv] at * <;> omega

theorem IntType.pattern_of_nonneg {T : IntType} {x : Int} (h : T.InRange x) (h0 : 0 ≤ x) :
    T.pattern x = x.toNat := by
  cases T <;>
    simp [IntType.InRange, IntType.min, IntType.max, IntType.isSigned, IntType.bits,
      IntType.sizeof, IntType.pattern] at * <;> omega

theorem IntType.pattern_lt (T : IntType) (x : Int) : T.pattern x < 256 ^ T.sizeof := by
  cases T <;> simp [IntType.bits, IntType.sizeof, IntType.pattern] <;> omega

theorem IntType.conv_pattern (T : IntType) (x : Int) : T.conv (T.pattern x : Int) = T.conv x := by
  cases T <;>
    simp [IntType.isSigned, IntType.bits, IntType.sizeof, IntType.conv, IntType.pattern] <;>
    omega

theorem convWithU32_of_nonneg {T : IntType} {v : Int} (h : T.InRange v) (h0 : 0 ≤ v) :
    convWithU32 T v = v := by
  cases T <;>
    simp [IntType.InRange, IntType.min, IntType.max, IntType.isSigned, IntType.bits,
      IntType.sizeof, IntType.conv, convWithU32] at * <;> omega

theorem hostValue_objectRepr (e : Endian) (T : IntType) (x : Int) :
    hostValue e (objectRepr e T x) = T.pattern x := by
  rw [objectRepr, hostValue_hostBytes, Nat.mod_eq_of_lt (T.pattern_lt x)]

theorem objectRepr_length (e : Endian) (T : IntType) (x : Int) :
    (objectRepr e T x).length = T.sizeof := by
  simp [objectRepr, hostBytes_length]

/-! ## The sink -/

theorem Packer.write_appends (p : Packer) (bs : List Nat) (h : p.HasRoom bs.length) :
    (p.write bs).Appends p bs := by
  rcases p with ⟨sp, dp, ty⟩
  cases ty with
  | DYNAMIC => simp [Packer.write, PackResult.Appends, Packer.data, PackerDynamic.write,
      PackerDynamic.data]
  | STATIC =>
    have hr : bs.length ≤ sp.remaining := by
      rcases h with h | h
      · simp at h
      · exact h
    simp [Packer.write, PackResult.Appends, Packer.data, PackerStatic.write,
      PackerStatic.data, Nat.not_lt.mpr hr]

theorem Packer.write_hasRoom (p : Packer) (bs : List Nat) (n : Nat)
    (h : p.HasRoom (bs.length + n)) : (p.write bs).packer.HasRoom n := by
  rcases p with ⟨sp, dp, ty⟩
  cases ty with
  | DYNAMIC => simp [Packer.write, Packer.HasRoom]
  | STATIC =>
    have hr : bs.length + n ≤ sp.remaining := by
      rcases h with h | h
      · simp at h
      · exact h
    have hlt : ¬ sp.remaining < bs.length := by omega
    simp only [Packer.write, PackerStatic.write, hlt, if_false, Packer.HasRoom]
    right
    show n ≤ sp.remaining - bs.length
    omega

theorem Packer.write_two_appends (p : Packer) (hd bs : List Nat)
    (h : p.HasRoom (hd.length + bs.length)) :
    ((p.write hd).andThen fun q => q.write bs).Appends p (hd ++ bs) := by
  have h1 := p.write_appends hd
    (by rcases h with h | h
        · exact Or.inl h
        · exact Or.inr (by omega))
  have h2 := (p.write hd).packer.write_appends bs (p.write_hasRoom hd bs.length h)
  unfold PackResult.Appends at *
  simp only [PackResult.andThen, h1.1]
  refine ⟨h2.1, ?_⟩
  rw [h2.2, h1.2, List.append_assoc]

theorem Packer.mkDynamic_write_data (bs : List Nat) :
    (Packer.mkDynamic.write bs).packer.data = bs := by
  simp [Packer.write, Packer.mkDynamic, Packer.data, PackerDynamic.write, PackerDynamic.data,
    PackerDynamic.init]

/-! ## Encoding of integers -/

theorem objectRepr_of_nat (e : Endian) (W : IntType) (n : Nat) (h : W.InRange (n : Int)) :
    objectRepr e W (n : Int) = hostBytes e W.sizeof n := by
  rw [objectRepr, IntType.pattern_of_nonneg h (Int.ofNat_nonneg n), Int.toNat_ofNat]

theorem fixnum_byte (e : Endian) (n : Nat) (h : n ≤ 127) :
    objectRepr e .uint8
      (((IntType.uint8.conv (n : Int)).toNat ||| detail.MP_FIXNUM : Nat) : Int) = [n] := by
  have hc : IntType.uint8.conv (n : Int) = (n : Int) :=
    IntType.conv_eq_self (by simp [IntType.InRange, IntType.min, IntType.max, IntType.isSigned,
      IntType.bits, IntType.sizeof]; omega)
  rw [hc, Int.toNat_ofNat]
  simp only [detail.MP_FIXNUM, Nat.or_zero]
  rw [objectRepr_of_nat e .uint8 n (by simp [IntType.InRange, IntType.min, IntType.max,
    IntType.isSigned, IntType.bits, IntType.sizeof]; omega)]
  rw [IntType.sizeof, hostBytes_one, Nat.mod_eq_of_lt (by omega)]

theorem pack_integral_nonneg_eq (e : Endian) (T : IntType) (n : Nat) (p : Packer)
    (hv : T.InRange (n : Int)) :
    p.pack_integral e T (n : Int) = p.write (specNonNegEncoding e n) := by
  have hconv := convWithU32_of_nonneg hv (Int.ofNat_nonneg n)
  unfold Packer.pack_integral specNonNegEncoding
  simp only [hconv, ge_iff_le, Int.ofNat_nonneg, if_true, detail.MAX_7BIT, detail.MAX_8BIT,
    detail.MAX_16BIT, detail.MAX_32BIT, detail.MP_UINT8, detail.MP_UINT16, detail.MP_UINT32,
    detail.MP_UINT64, Packer.writeValue, Packer.writeTagged]
  by_cases h1 : n ≤ 127
  · have h1' : (n : Int) ≤ ((0x7f : Nat) : Int) := by omega
    rw [if_pos h1', if_pos h1, fixnum_byte e n h1]
  have h1' : ¬ (n : Int) ≤ ((0x7f : Nat) : Int) := by omega
  rw [if_neg h1', if_neg h1]
  by_cases h2 : n ≤ 255
  · have h2' : (n : Int) ≤ ((0xff : Nat) : Int) := by omega
    rw [if_pos h2', if_pos h2, objectRepr_of_nat e .uint8 n (by
      simp [IntType.InRange, IntType.min, IntType.max, IntType.isSigned, IntType.bits,
        IntType.sizeof]; omega)]
    rfl
  have h2' : ¬ (n : Int) ≤ ((0xff : Nat) : Int) := by omega
  rw [if_neg h2', if_neg h2]
  by_cases h3 : n ≤ 65535
  · have h3' : (n : Int) ≤ ((0xffff : Nat) : Int) := by omega
    rw [if_pos h3', if_pos h3, objectRepr_of_nat e .uint16 n (by
      simp [IntType.InRange, IntType.min, IntType.max, IntType.isSigned, IntType.bits,
        IntType.sizeof]; omega)]
    rfl
  have h3' : ¬ (n : Int) ≤ ((0xffff : Nat) : Int) := by omega
  rw [if_neg h3', if_neg h3]
  by_cases h4 : n ≤ 2 ^ 32 - 1
  · have h4' : (n : Int) ≤ ((0xffffffff : Nat) : Int) := by omega
    rw [if_pos h4', if_pos h4, objectRepr_of_nat e .uint32 n (by
      simp [IntType.InRange, IntType.min, IntType.max, IntType.isSigned, IntType.bits,
        IntType.sizeof]; omega)]
    rfl
  have h4' : ¬ (n : Int) ≤ ((0xffffffff : Nat) : Int) := by omega
  rw [if_neg h4', if_neg h4, objectRepr_of_nat e .uint64 n (by
    have hmax : T.max ≤ 2 ^ 64 - 1 := by
      cases T <;> simp [IntType.max, IntType.isSigned, IntType.bits, IntType.sizeof]
    have := hv.2
    simp [IntType.InRange, IntType.min, IntType.max, IntType.isSigned, IntType.bits,
      IntType.sizeof]; omega)]
  rfl

/-- C2: for every integer type `T`, every value `v ≥ 0` of `T` and every Packer whose
sink has room for the encoding, `pack_integral` completes and appends exactly the
minimal-width encoding of the specification: the byte `v` up to 127, then `0xcc`,
`0xcd`, `0xce`, `0xcf` followed by 1, 2, 4, 8 value bytes in host byte order. In
particular 5 packs as the byte `0x05` also at 64-bit types, and 200 as `0xcc 0xc8`. -/
theorem pack_integral_nonneg_minimal (e : Endian) (T : IntType) (v : Int) (p : Packer)
    (hv : T.InRange v) (h0 : 0 ≤ v)
    (hroom : p.HasRoom (specNonNegEncoding e v.toNat).length) :
    (p.pack_integral e T v).Appends p (specNonNegEncoding e v.toNat)
      ∧ packedIntegral e .int64 5 = [0x05]
      ∧ packedIntegral e .uint64 5 = [0x05]
      ∧ packedIntegral e .uint8 200 = [0xcc, 0xc8]
      ∧ packedIntegral e .int32 200 = [0xcc, 0xc8] := by
  refine ⟨?_, ?_, ?_, ?_, ?_⟩
  · obtain ⟨n, rfl⟩ := Int.eq_ofNat_of_zero_le h0
    rw [pack_integral_nonneg_eq e T n p hv]
    exact p.write_appends _ hroom
  all_goals cases e <;> decide

theorem pack_integral_nonneg_minimal_witness :
    (Packer.mkStatic 3).HasRoom (specNonNegEncoding .big (300 : Int).toNat).length
      ∧ ((Packer.mkStatic 3).pack_integral .big .uint16 300).packer.data = [0xcd, 0x01, 0x2c] :=
  ⟨by decide,
   (pack_integral_nonneg_minimal .big .uint16 300 (Packer.mkStatic 3) (by decide) (by decide)
      (by decide)).1.2⟩

theorem negfixnum_byte (e : Endian) (v : Int) (h1 : -32 ≤ v) (h2 : v ≤ -1) :
    objectRepr e .int8 (intOr (IntType.int8.conv v) (detail.MP_NEGATIVE_FIXNUM : Nat)) =
      [(v % 256).toNat] := by
  interval_cases v <;> cases e <;> decide

theorem negU32_values :
    negU32 (detail.MAX_5BIT + 1) = 2 ^ 32 - 32 ∧ negU32 (detail.MAX_7BIT + 1) = 2 ^ 32 - 128
      ∧ negU32 (detail.MAX_15BIT + 1) = 2 ^ 32 - 32768 := by
  decide

/-- The narrow signed types: those that a comparison with a `uint32_t` converts to
`unsigned int`. -/
theorem convWithU32_of_neg {T : IntType} {v : Int} (hT : T = .int8 ∨ T = .int16 ∨ T = .int32)
    (hv : T.InRange v) (hneg : v < 0) : convWithU32 T v = v + 2 ^ 32 := by
  rcases hT with rfl | rfl | rfl <;>
    simp [IntType.InRange, IntType.min, IntType.max, IntType.isSigned, IntType.bits,
      IntType.sizeof, IntType.conv, convWithU32] at * <;> omega

theorem pack_integral_neg_eq (e : Endian) (T : IntType) (v : Int) (p : Packer)
    (hT : T = .int8 ∨ T = .int16 ∨ T = .int32) (hv : T.InRange v) (hneg : v < 0) :
    p.pack_integral e T v = p.write (specNegEncoding e v) := by
  have hconv := convWithU32_of_neg hT hv hneg
  have hI : ∀ x, convWithI64 T x = x := by
    intro x; rcases hT with rfl | rfl | rfl <;> rfl
  obtain ⟨n5, n7, n15⟩ := negU32_values
  have h0 : ¬ v ≥ 0 := by omega
  unfold Packer.pack_integral specNegEncoding
  simp only [h0, if_false, hconv, hI, n5, n7, n15, detail.MAX_31BIT, detail.MP_INT8,
    detail.MP_INT16, detail.MP_INT32, detail.MP_INT64, Packer.writeValue, Packer.writeTagged]
  by_cases h1 : -32 ≤ v
  · have h1' : v + 2 ^ 32 ≥ 2 ^ 32 - 32 := by omega
    rw [if_pos h1', if_pos h1, negfixnum_byte e v h1 (by omega)]
  have h1' : ¬ v + 2 ^ 32 ≥ 2 ^ 32 - 32 := by omega
  rw [if_neg h1', if_neg h1]
  by_cases h2 : -128 ≤ v
  · have h2' : v + 2 ^ 32 ≥ 2 ^ 32 - 128 := by omega
    rw [if_pos h2', if_pos h2]
    rfl
  have h2' : ¬ v + 2 ^ 32 ≥ 2 ^ 32 - 128 := by omega
  rw [if_neg h2', if_neg h2]
  by_cases h3 : -32768 ≤ v
  · have h3' : v + 2 ^ 32 ≥ 2 ^ 32 - 32768 := by omega
    rw [if_pos h3', if_pos h3]
    rfl
  have h3' : ¬ v + 2 ^ 32 ≥ 2 ^ 32 - 32768 := by omega
  rw [if_neg h3', if_neg h3]
  by_cases h4 : -2 ^ 31 ≤ v
  · have h4' : v ≥ -(((0x7fffffff : Nat) : Int) + 1) := by omega
    rw [if_pos h4', if_pos h4]
    rfl
  · exfalso
    rcases hT with rfl | rfl | rfl <;>
      simp [IntType.InRange, IntType.min, IntType.max, IntType.isSigned, IntType.bits,
        IntType.sizeof] at hv <;> omega

/-- What `pack_integral<int64_t>` does with a negative value: the comparisons with
the negated `uint32_t` constants are made in `int64_t` and are all false, so only the
`int32` and `int64` forms are ever chosen. -/
theorem pack_integral_int64_neg_eq (e : Endian) (v : Int) (p : Packer) (hneg : v < 0) :
    p.pack_integral e .int64 v =
      p.write (if -2 ^ 31 ≤ v then 0xd2 :: hostBytes e 4 (v % 2 ^ 32).toNat
               else 0xd3 :: hostBytes e 8 (v % 2 ^ 64).toNat) := by
  obtain ⟨n5, n7, n15⟩ := negU32_values
  have h0 : ¬ v ≥ 0 := by omega
  have hc : convWithU32 .int64 v = v := rfl
  have hI : ∀ x, convWithI64 .int64 x = x := fun _ => rfl
  unfold Packer.pack_integral
  simp only [h0, if_false, hc, hI, n5, n7, n15, detail.MAX_31BIT, detail.MP_INT8,
    detail.MP_INT16, detail.MP_INT32, detail.MP_INT64, Packer.writeValue, Packer.writeTagged]
  have h1' : ¬ v ≥ 2 ^ 32 - 32 := by omega
  have h2' : ¬ v ≥ 2 ^ 32 - 128 := by omega
  have h3' : ¬ v ≥ 2 ^ 32 - 32768 := by omega
  rw [if_neg h1', if_neg h2', if_neg h3']
  by_cases h4 : -2 ^ 31 ≤ v
  · have h4' : v ≥ -(((0x7fffffff : Nat) : Int) + 1) := by omega
    rw [if_pos h4', if_pos h4]
    rfl
  · have h4' : ¬ v ≥ -(((0x7fffffff : Nat) : Int) + 1) := by omega
    rw [if_neg h4', if_neg h4]
    rfl

/-- C3 (the code at the failing input): `pack_integral<int64_t>(-1)` produces the
five bytes `0xd2 0xff 0xff 0xff 0xff`, not the single byte `0xff` that the minimal
encoding prescribes and that the same call produces at `int32_t`. -/
theorem pack_integral_int64_minus_one (e : Endian) :
    packedIntegral e .int64 (-1) = [0xd2, 0xff, 0xff, 0xff, 0xff]
      ∧ specNegEncoding e (-1) = [0xff]
      ∧ packedIntegral e .int32 (-1) = [0xff] := by
  cases e <;> decide

/-! ## Decoding of integers -/

set_option maxRecDepth 100000 in
theorem byte_masks : ∀ b < 256,
    (b &&& 0x80 = 0 ↔ b ≤ 127) ∧ (b &&& 0xe0 = 0xe0 ↔ 0xe0 ≤ b) ∧ b &&& 0x7f = b % 128
      ∧ b &&& 0x1f = b % 32 ∧ (b &&& 0xe0 = 0xa0 ↔ 0xa0 ≤ b ∧ b ≤ 0xbf) := by
  decide

theorem Unpacker.read_empty (e : Endian) (T : IntType) :
    (Unpacker.ofSlice []).read e T = .error .noBytes := by
  cases T <;> rfl

theorem Unpacker.read_head (e : Endian) (b : Nat) (rest : List Nat) (hb : b < 256) :
    (Unpacker.ofSlice (b :: rest)).read e .uint8 = .ok ((b : Int), Unpacker.ofSlice rest) := by
  have hc : IntType.uint8.conv (b : Int) = (b : Int) :=
    IntType.conv_eq_self (by simp [IntType.InRange, IntType.min, IntType.max, IntType.isSigned,
      IntType.bits, IntType.sizeof]; omega)
  simp [Unpacker.read, Unpacker.ofSlice, Unpacker.init, IntType.sizeof, hostValue_singleton, hc]

theorem Unpacker.read_objectRepr (e : Endian) (W : IntType) (x : Int) (rest : List Nat) :
    (Unpacker.ofSlice (objectRepr e W x ++ rest)).read e W =
      .ok (W.conv x, Unpacker.ofSlice rest) := by
  have hl := objectRepr_length e W x
  have ht : List.take W.sizeof (objectRepr e W x ++ rest) = objectRepr e W x := by
    rw [← hl, List.take_left']
    rfl
  have hd : List.drop W.sizeof (objectRepr e W x ++ rest) = rest := by
    rw [← hl, List.drop_left']
    rfl
  have hlt : ¬ W.sizeof + rest.length < W.sizeof := by omega
  simp only [Unpacker.read, Unpacker.ofSlice, Unpacker.init, hlt, if_false, ht, hd,
    hostValue_objectRepr, IntType.conv_pattern, List.length_append, hl, Nat.add_sub_cancel_left]

theorem Unpacker.read_short (e : Endian) (W : IntType) (q : List Nat) (h : q.length < W.sizeof) :
    (Unpacker.ofSlice q).read e W = .error .noBytes := by
  simp [Unpacker.read, Unpacker.ofSlice, Unpacker.init, h]

theorem Unpacker.unpack_integral_nil (e : Endian) (T : IntType) :
    Unpacker.unpack_integral e T (Unpacker.ofSlice []) = .error .noBytes := by
  simp [Unpacker.unpack_integral, Unpacker.read_empty]

theorem Unpacker.unpack_integral_cons (e : Endian) (T : IntType) (b : Nat) (rest : List Nat)
    (hb : b < 256) :
    Unpacker.unpack_integral e T (Unpacker.ofSlice (b :: rest)) =
      if b ≤ 127 then .ok (T.conv ((b % 128 : Nat) : Int), Unpacker.ofSlice rest)
      else if 0xe0 ≤ b then .ok (T.conv (-((b % 32 : Nat) : Int)), Unpacker.ofSlice rest)
      else
        match Unpacker.readExplicit e b (Unpacker.ofSlice rest) with
        | .error err => .error err
        | .ok ((uVal, sVal, type), u2) =>
          match Unpacker.checkRange T uVal sVal type with
          | .error err => .error err
          | .ok ref => .ok (ref, u2) := by
  obtain ⟨m1, m2, m3, m4, -⟩ := byte_masks b hb
  simp only [Unpacker.unpack_integral, Unpacker.read_head e b rest hb, Int.toNat_ofNat,
    detail.TYPE_1BIT, detail.MP_FIXNUM, detail.VALUE_7BIT, detail.TYPE_3BIT,
    detail.MP_NEGATIVE_FIXNUM, detail.VALUE_5BIT, m1, m2, m3, m4]

theorem Unpacker.readExplicit_unsigned (e : Endian) (tag : Nat) (W : IntType) (u : Unpacker)
    (hW : (tag, W) ∈ unsignedTags) :
    Unpacker.readExplicit e tag u =
      match u.read e W with
      | .ok (v, u1) => .ok ((IntType.uint64.conv v, 0, .U), u1)
      | .error err => .error err := by
  simp only [unsignedTags, List.mem_cons, Prod.mk.injEq, List.mem_singleton, List.not_mem_nil,
    or_false] at hW
  rcases hW with ⟨rfl, rfl⟩ | ⟨rfl, rfl⟩ | ⟨rfl, rfl⟩ | ⟨rfl, rfl⟩ <;>
    simp [Unpacker.readExplicit, detail.MP_UINT8, detail.MP_UINT16, detail.MP_UINT32,
      detail.MP_UINT64]

theorem Unpacker.readExplicit_signed (e : Endian) (tag : Nat) (W : IntType) (u : Unpacker)
    (hW : (tag, W) ∈ signedTags) :
    Unpacker.readExplicit e tag u =
      match u.read e W with
      | .ok (v, u1) => .ok ((0, IntType.int64.conv v, .S), u1)
      | .error err => .error err := by
  simp only [signedTags, List.mem_cons, Prod.mk.injEq, List.mem_singleton, List.not_mem_nil,
    or_false] at hW
  rcases hW with ⟨rfl, rfl⟩ | ⟨rfl, rfl⟩ | ⟨rfl, rfl⟩ | ⟨rfl, rfl⟩ <;>
    simp [Unpacker.readExplicit, detail.MP_UINT8, detail.MP_UINT16, detail.MP_UINT32,
      detail.MP_UINT64, detail.MP_INT8, detail.MP_INT16, detail.MP_INT32, detail.MP_INT64]

theorem explicit_tag_bounds (tag : Nat) (W : IntType)
    (hW : (tag, W) ∈ unsignedTags ∨ (tag, W) ∈ signedTags) :
    tag < 256 ∧ ¬ tag ≤ 127 ∧ ¬ 0xe0 ≤ tag := by
  simp only [unsignedTags, signedTags, List.mem_cons, Prod.mk.injEq, List.mem_singleton,
    List.not_mem_nil, or_false] at hW
  rcases hW with (⟨rfl, -⟩ | ⟨rfl, -⟩ | ⟨rfl, -⟩ | ⟨rfl, -⟩) |
    (⟨rfl, -⟩ | ⟨rfl, -⟩ | ⟨rfl, -⟩ | ⟨rfl, -⟩) <;> decide

theorem IntType.uint64_conv_max (T : IntType) : IntType.uint64.conv T.max = T.max := by
  cases T <;> decide

theorem IntType.min_le_zero (T : IntType) : T.min ≤ 0 := by
  cases T <;> decide

theorem unsigned_inRange_uint64 {tag : Nat} {W : IntType} {x : Int}
    (hW : (tag, W) ∈ unsignedTags) (hx : W.InRange x) : IntType.uint64.InRange x := by
  simp only [unsignedTags, List.mem_cons, Prod.mk.injEq, List.mem_singleton, List.not_mem_nil,
    or_false] at hW
  rcases hW with ⟨-, rfl⟩ | ⟨-, rfl⟩ | ⟨-, rfl⟩ | ⟨-, rfl⟩ <;>
    simp [IntType.InRange, IntType.min, IntType.max, IntType.isSigned, IntType.bits,
      IntType.sizeof] at * <;> omega

theorem signed_inRange_int64 {tag : Nat} {W : IntType} {x : Int}
    (hW : (tag, W) ∈ signedTags) (hx : W.InRange x) : IntType.int64.InRange x := by
  simp only [signedTags, List.mem_cons, Prod.mk.injEq, List.mem_singleton, List.not_mem_nil,
    or_false] at hW
  rcases hW with ⟨-, rfl⟩ | ⟨-, rfl⟩ | ⟨-, rfl⟩ | ⟨-, rfl⟩ <;>
    simp [IntType.InRange, IntType.min, IntType.max, IntType.isSigned, IntType.bits,
      IntType.sizeof] at * <;> omega

/-- Decoding of an explicit unsigned tag followed by the value `x` of its width. -/
theorem Unpacker.unpack_integral_unsigned (e : Endian) (T : IntType) (tag : Nat) (W : IntType)
    (x : Int) (rest : List Nat) (hW : (tag, W) ∈ unsignedTags) (hx : W.InRange x) :
    Unpacker.unpack_integral e T (Unpacker.ofSlice (tag :: objectRepr e W x ++ rest)) =
      if x ≤ T.max then .ok (x, Unpacker.ofSlice rest) else .error .overflow := by
  obtain ⟨t1, t2, t3⟩ := explicit_tag_bounds tag W (Or.inl hW)
  rw [List.cons_append, Unpacker.unpack_integral_cons e T tag _ t1, if_neg t2, if_neg t3,
    Unpacker.readExplicit_unsigned e tag W _ hW, Unpacker.read_objectRepr]
  simp only [IntType.conv_eq_self hx, IntType.conv_eq_self (unsigned_inRange_uint64 hW hx),
    Unpacker.checkRange, IntType.uint64_conv_max]
  have hx0 : 0 ≤ x := by
    have := hx.1
    simp only [unsignedTags, List.mem_cons, Prod.mk.injEq, List.mem_singleton,
      List.not_mem_nil, or_false] at hW
    rcases hW with ⟨-, rfl⟩ | ⟨-, rfl⟩ | ⟨-, rfl⟩ | ⟨-, rfl⟩ <;>
      simpa [IntType.min, IntType.isSigned] using this
  by_cases h : x ≤ T.max
  · have hin : T.InRange x := ⟨le_trans T.min_le_zero hx0, h⟩
    simp [h, Int.not_lt.mpr h, IntType.conv_eq_self hin]
  · simp [h, Int.lt_of_not_ge h]

/-- C5: for every target type `T` and every input made of an explicit unsigned tag
(`0xcc`, `0xcd`, `0xce`, `0xcf`) followed by a value `u` of that width (and any further
bytes), `unpack_integral` succeeds with `u`, consuming the tag and the value, if and
only if `u ≤ max(T)`, and fails with the overflow error otherwise. In particular
`0xce 0xff 0xff 0xff 0xff` overflows an 8-bit target and decodes to 4294967295 in a
64-bit target. -/
theorem unpack_integral_unsigned_tag (e : Endian) (T : IntType) (tag : Nat) (W : IntType)
    (u : Nat) (rest : List Nat) (hW : (tag, W) ∈ unsignedTags) (hu : W.InRange (u : Int)) :
    (Unpacker.unpack_integral e T (Unpacker.ofSlice (tag :: hostBytes e W.sizeof u ++ rest)) =
        if (u : Int) ≤ T.max then .ok ((u : Int), Unpacker.ofSlice rest) else .error .overflow)
      ∧ Unpacker.unpack_integral e .uint8 (Unpacker.ofSlice [0xce, 0xff, 0xff, 0xff, 0xff]) =
          .error .overflow
      ∧ Unpacker.unpack_integral e .int8 (Unpacker.ofSlice [0xce, 0xff, 0xff, 0xff, 0xff]) =
          .error .overflow
      ∧ Unpacker.unpack_integral e .uint64 (Unpacker.ofSlice [0xce, 0xff, 0xff, 0xff, 0xff]) =
          .ok (4294967295, Unpacker.ofSlice [])
      ∧ Unpacker.unpack_integral e .int64 (Unpacker.ofSlice [0xce, 0xff, 0xff, 0xff, 0xff]) =
          .ok (4294967295, Unpacker.ofSlice []) := by
  refine ⟨?_, ?_, ?_, ?_, ?_⟩
  · rw [← objectRepr_of_nat e W u hu]
    exact Unpacker.unpack_integral_unsigned e T tag W u rest hW hu
  all_goals cases e <;> rfl

theorem unpack_integral_unsigned_tag_witness :
    Unpacker.unpack_integral .little .int16
        (Unpacker.ofSlice (0xcd :: hostBytes .little IntType.uint16.sizeof 40000 ++ [7])) =
      .error .overflow
    ∧ Unpacker.unpack_integral .little .uint16
        (Unpacker.ofSlice (0xcd :: hostBytes .little IntType.uint16.sizeof 40000 ++ [7])) =
      .ok (40000, Unpacker.ofSlice [7]) :=
  ⟨(unpack_integral_unsigned_tag .little .int16 0xcd .uint16 40000 [7] (by decide)
      (by decide)).1,
   (unpack_integral_unsigned_tag .little .uint16 0xcd .uint16 40000 [7] (by decide)
      (by decide)).1⟩

/-- Decoding of an explicit signed tag followed by the value `x` of its width, at
every target other than `uint64_t`: both range checks are made on the values. -/
theorem Unpacker.unpack_integral_signed (e : Endian) (T : IntType) (tag : Nat) (W : IntType)
    (x : Int) (rest : List Nat) (hT : T ≠ .uint64) (hW : (tag, W) ∈ signedTags)
    (hx : W.InRange x) :
    Unpacker.unpack_integral e T (Unpacker.ofSlice (tag :: objectRepr e W x ++ rest)) =
      if x > T.max then .error .overflow
      else if x < T.min then .error .underflow
      else .ok (x, Unpacker.ofSlice rest) := by
  obtain ⟨t1, t2, t3⟩ := explicit_tag_bounds tag W (Or.inr hW)
  have hI : ∀ y, convWithI64 T y = y := by
    intro y; cases T <;> first | rfl | exact absurd rfl hT
  rw [List.cons_append, Unpacker.unpack_integral_cons e T tag _ t1, if_neg t2, if_neg t3,
    Unpacker.readExplicit_signed e tag W _ hW, Unpacker.read_objectRepr]
  simp only [IntType.conv_eq_self hx, IntType.conv_eq_self (signed_inRange_int64 hW hx),
    Unpacker.checkRange, hI]
  by_cases h1 : x > T.max
  · simp [h1]
  by_cases h2 : x < T.min
  · simp [h1, h2]
  have hin : T.InRange x := ⟨Int.not_lt.mp h2, Int.not_lt.mp h1⟩
  simp [h1, h2, IntType.conv_eq_self hin]

/-- Decoding of an explicit signed tag at the target `uint64_t`: both comparisons are
made after converting `sVal` to `uint64_t`, neither can hold, and the value is stored
converted to `uint64_t`. -/
theorem Unpacker.unpack_integral_signed_uint64 (e : Endian) (tag : Nat) (W : IntType)
    (x : Int) (rest : List Nat) (hW : (tag, W) ∈ signedTags) (hx : W.InRange x) :
    Unpacker.unpack_integral e .uint64 (Unpacker.ofSlice (tag :: objectRepr e W x ++ rest)) =
      .ok (x % 2 ^ 64, Unpacker.ofSlice rest) := by
  obtain ⟨t1, t2, t3⟩ := explicit_tag_bounds tag W (Or.inr hW)
  rw [List.cons_append, Unpacker.unpack_integral_cons e .uint64 tag _ t1, if_neg t2, if_neg t3,
    Unpacker.readExplicit_signed e tag W _ hW, Unpacker.read_objectRepr]
  simp only [IntType.conv_eq_self hx, IntType.conv_eq_self (signed_inRange_int64 hW hx),
    Unpacker.checkRange, convWithI64]
  have h1 : ¬ IntType.uint64.conv x > IntType.uint64.conv IntType.uint64.max := by
    simp [IntType.conv, IntType.max, IntType.isSigned, IntType.bits, IntType.sizeof]; omega
  have h2 : ¬ IntType.uint64.conv x < IntType.uint64.conv IntType.uint64.min := by
    simp [IntType.conv, IntType.min, IntType.isSigned, IntType.bits, IntType.sizeof]; omega
  rw [if_neg h1, if_neg h2]
  simp [IntType.conv, IntType.isSigned, IntType.bits, IntType.sizeof]

/-- C6 (the code at the failing input): the input `0xd0 0xff`, the `int8` encoding of
-1, decoded into a `uint64_t` target is accepted and stores 18446744073709551615; the
same input is rejected with the underflow error at every narrower unsigned target. -/
theorem unpack_integral_int8_into_uint64 (e : Endian) :
    Unpacker.unpack_integral e .uint64 (Unpacker.ofSlice [0xd0, 0xff]) =
        .ok (18446744073709551615, Unpacker.ofSlice [])
      ∧ Unpacker.unpack_integral e .uint32 (Unpacker.ofSlice [0xd0, 0xff]) = .error .underflow
      ∧ Unpacker.unpack_integral e .uint16 (Unpacker.ofSlice [0xd0, 0xff]) = .error .underflow
      ∧ Unpacker.unpack_integral e .uint8 (Unpacker.ofSlice [0xd0, 0xff]) = .error .underflow := by
  cases e <;> exact ⟨rfl, rfl, rfl, rfl⟩

/-- C7: for every target type, every byte `b` outside the integer tag set and every
sequence of following bytes, `unpack_integral` fails with the invalid-type error. -/
theorem unpack_integral_invalid_type (e : Endian) (T : IntType) (b : Nat) (rest : List Nat)
    (hb : b < 256) (hnot : ¬ IsIntegerTag b) :
    Unpacker.unpack_integral e T (Unpacker.ofSlice (b :: rest)) = .error .invalidType := by
  simp only [IsIntegerTag, List.mem_cons, List.mem_singleton, List.not_mem_nil, or_false,
    not_or, not_and] at hnot
  obtain ⟨n1, n2, c1, c2, c3, c4, c5, c6, c7, c8⟩ := hnot
  have n2' : ¬ 0xe0 ≤ b := fun h => n2 h (by omega)
  rw [Unpacker.unpack_integral_cons e T b rest hb, if_neg n1, if_neg n2']
  simp [Unpacker.readExplicit, detail.MP_UINT8, detail.MP_UINT16, detail.MP_UINT32,
    detail.MP_UINT64, detail.MP_INT8, detail.MP_INT16, detail.MP_INT32, detail.MP_INT64,
    c1, c2, c3, c4, c5, c6, c7, c8]

theorem unpack_integral_invalid_type_witness :
    Unpacker.unpack_integral .little .int32 (Unpacker.ofSlice [0xc0, 0x01, 0x02]) =
      .error .invalidType :=
  unpack_integral_invalid_type .little .int32 0xc0 [0x01, 0x02] (by decide) (by decide)

/-- Decoding of the inline negative tags: the low five bits of the tag are negated. -/
theorem Unpacker.unpack_integral_negfixnum (e : Endian) (T : IntType) (b : Nat)
    (rest : List Nat) (h1 : 0xe0 ≤ b) (h2 : b ≤ 0xff) :
    Unpacker.unpack_integral e T (Unpacker.ofSlice (b :: rest)) =
      .ok (T.conv (-((b : Int) - 224)), Unpacker.ofSlice rest) := by
  rw [Unpacker.unpack_integral_cons e T b rest (by omega), if_neg (by omega), if_pos h1]
  have : ((b % 32 : Nat) : Int) = (b : Int) - 224 := by omega
  rw [this]

/-- C4 (the code at the failing input): the tag `0xff` decodes to -31 and the tag
`0xe0` decodes to 0 at a signed target; the two's-complement values are -1 and
-32. -/
theorem unpack_integral_negfixnum_values (e : Endian) :
    Unpacker.unpack_integral e .int8 (Unpacker.ofSlice [0xff]) = .ok (-31, Unpacker.ofSlice [])
      ∧ Unpacker.unpack_integral e .int8 (Unpacker.ofSlice [0xe0]) = .ok (0, Unpacker.ofSlice [])
      ∧ Unpacker.unpack_integral e .int64 (Unpacker.ofSlice [0xff]) =
          .ok (-31, Unpacker.ofSlice []) := by
  cases e <;> exact ⟨rfl, rfl, rfl⟩

/-- C1 (the code at the failing input): packing the `int8_t` value -1 and unpacking
the byte produced into an `int8_t` target yields -31. -/
theorem integral_roundtrip_minus_one (e : Endian) :
    packedIntegral e .int8 (-1) = [0xff]
      ∧ Unpacker.unpack_integral e .int8 (Unpacker.ofSlice (packedIntegral e .int8 (-1))) =
          .ok (-31, Unpacker.ofSlice []) := by
  cases e <;> exact ⟨rfl, rfl⟩

/-! ## Where the integer round trip holds -/

theorem Unpacker.unpack_integral_specNonNeg (e : Endian) (T : IntType) (n : Nat)
    (hv : T.InRange (n : Int)) :
    Unpacker.unpack_integral e T (Unpacker.ofSlice (specNonNegEncoding e n)) =
      .ok ((n : Int), Unpacker.ofSlice []) := by
  have key : ∀ (tag : Nat) (W : IntType), (tag, W) ∈ unsignedTags → W.InRange (n : Int) →
      Unpacker.unpack_integral e T (Unpacker.ofSlice (tag :: hostBytes e W.sizeof n)) =
        .ok ((n : Int), Unpacker.ofSlice []) := by
    intro tag W hW hn
    have h := Unpacker.unpack_integral_unsigned e T tag W n [] hW hn
    rw [List.append_nil, if_pos hv.2, objectRepr_of_nat e W n hn] at h
    exact h
  unfold specNonNegEncoding
  split_ifs with h1 h2 h3 h4
  · rw [Unpacker.unpack_integral_cons e T n [] (by omega), if_pos h1,
      Nat.mod_eq_of_lt (by omega), IntType.conv_eq_self hv]
  · exact key 0xcc .uint8 (by decide) (by
      simp [IntType.InRange, IntType.min, IntType.max, IntType.isSigned, IntType.bits,
        IntType.sizeof]; omega)
  · exact key 0xcd .uint16 (by decide) (by
      simp [IntType.InRange, IntType.min, IntType.max, IntType.isSigned, IntType.bits,
        IntType.sizeof]; omega)
  · exact key 0xce .uint32 (by decide) (by
      simp [IntType.InRange, IntType.min, IntType.max, IntType.isSigned, IntType.bits,
        IntType.sizeof]; omega)
  · exact key 0xcf .uint64 (by decide) (by
      have hmax : T.max ≤ 2 ^ 64 - 1 := by
        cases T <;> simp [IntType.max, IntType.isSigned, IntType.bits, IntType.sizeof]
      have := hv.2
      simp [IntType.InRange, IntType.min, IntType.max, IntType.isSigned, IntType.bits,
        IntType.sizeof]; omega)

/-- The integer round trip outside the inline negative range: for every type `T` and
every value `v` of `T` that is non-negative, or below -32, or of type `int64_t`,
unpacking the bytes `pack_integral` produced yields `v` and leaves no byte. -/
theorem integral_roundtrip_outside_negfixnum (e : Endian) (T : IntType) (v : Int)
    (hv : T.InRange v) (h : 0 ≤ v ∨ v < -32 ∨ T = .int64) :
    Unpacker.unpack_integral e T (Unpacker.ofSlice (packedIntegral e T v)) =
      .ok (v, Unpacker.ofSlice []) := by
  have key : ∀ (tag : Nat) (W : IntType), T ≠ .uint64 → (tag, W) ∈ signedTags → W.InRange v →
      Unpacker.unpack_integral e T (Unpacker.ofSlice (tag :: objectRepr e W v)) =
        .ok (v, Unpacker.ofSlice []) := by
    intro tag W hT hW hx
    have h := Unpacker.unpack_integral_signed e T tag W v [] hT hW hx
    rw [List.append_nil, if_neg (Int.not_lt.mpr hv.2), if_neg (Int.not_lt.mpr hv.1)] at h
    exact h
  unfold packedIntegral
  rcases Int.lt_or_le v 0 with hneg | h0
  · have hsigned : T = .int8 ∨ T = .int16 ∨ T = .int32 ∨ T = .int64 := by
      cases T <;> simp [IntType.InRange, IntType.min, IntType.isSigned] at hv ⊢ <;> omega
    rcases hsigned with hT | hT | hT | rfl
    case inr.inr.inr =>
      rw [pack_integral_int64_neg_eq e v _ hneg, Packer.mkDynamic_write_data]
      split_ifs with h4
      · exact key 0xd2 .int32 (by decide) (by decide) (by
          simp [IntType.InRange, IntType.min, IntType.max, IntType.isSigned, IntType.bits,
            IntType.sizeof]; omega)
      · exact key 0xd3 .int64 (by decide) (by decide) hv
    all_goals
      have hlow : v < -32 := by
        rcases h with h | h | h
        · omega
        · exact h
        · rw [hT] at h; exact absurd h (by decide)
      have hT64 : T ≠ .uint64 := by rw [hT]; decide
      rw [pack_integral_neg_eq e T v _ (by simp [hT]) hv hneg, Packer.mkDynamic_write_data]
      unfold specNegEncoding
      split_ifs with h1 h2 h3 h4
      · omega
      · exact key 0xd0 .int8 hT64 (by decide) (by
          simp [IntType.InRange, IntType.min, IntType.max, IntType.isSigned, IntType.bits,
            IntType.sizeof]; omega)
      · exact key 0xd1 .int16 hT64 (by decide) (by
          simp [IntType.InRange, IntType.min, IntType.max, IntType.isSigned, IntType.bits,
            IntType.sizeof]; omega)
      · exact key 0xd2 .int32 hT64 (by decide) (by
          simp [IntType.InRange, IntType.min, IntType.max, IntType.isSigned, IntType.bits,
            IntType.sizeof]; omega)
      · exfalso
        rw [hT] at hv
        simp [IntType.InRange, IntType.min, IntType.max, IntType.isSigned, IntType.bits,
          IntType.sizeof] at hv
        omega
  · obtain ⟨n, rfl⟩ := Int.eq_ofNat_of_zero_le h0
    rw [pack_integral_nonneg_eq e T n _ hv, Packer.mkDynamic_write_data]
    exact Unpacker.unpack_integral_specNonNeg e T n hv

/-! ## Strings -/

theorem fixstr_byte (e : Endian) (n : Nat) (h : n ≤ 31) :
    objectRepr e .uint8
      (((IntType.uint8.conv (n : Int)).toNat ||| detail.MP_FIXSTR : Nat) : Int) =
        [0xa0 ||| n] := by
  interval_cases n <;> cases e <;> decide

theorem nil_byte (e : Endian) : objectRepr e .uint8 (detail.MP_NIL : Nat) = [0xc0] := by
  cases e <;> decide

theorem fixstr_tag_facts : ∀ n < 32, 0 < n →
    (0xa0 ||| n) < 256 ∧ (0xa0 ||| n) ≠ 0xc0 ∧ 0xa0 ≤ (0xa0 ||| n) ∧ (0xa0 ||| n) ≤ 0xbf
      ∧ (0xa0 ||| n) % 32 = n := by
  decide

theorem pack_string_eq (e : Endian) (s : List Nat) (p : Packer) (hlen : s.length ≤ 2 ^ 32 - 1) :
    p.pack_string e s =
      if s.length = 0 then p.write [0xc0]
      else if s.length ≤ 31 then (p.write [0xa0 ||| s.length]).andThen fun q => q.write s
      else if s.length ≤ 255 then
        (p.write (0xd9 :: hostBytes e 1 s.length)).andThen fun q => q.write s
      else if s.length ≤ 65535 then
        (p.write (0xda :: hostBytes e 2 s.length)).andThen fun q => q.write s
      else (p.write (0xdb :: hostBytes e 4 s.length)).andThen fun q => q.write s := by
  unfold Packer.pack_string
  simp only [detail.MAX_5BIT, detail.MAX_8BIT, detail.MAX_16BIT, detail.MAX_32BIT,
    detail.MP_STR8, detail.MP_STR16, detail.MP_STR32, Packer.writeValue, Packer.writeTagged,
    nil_byte]
  by_cases h0 : s.length = 0
  · simp only [h0, if_true]
  simp only [h0, if_false]
  by_cases h1 : s.length ≤ 31
  · simp only [h1, if_true, fixstr_byte e s.length h1]
  simp only [h1, if_false]
  by_cases h2 : s.length ≤ 255
  · simp only [h2, if_true]
    rw [objectRepr_of_nat e .uint8 s.length (by
      simp [IntType.InRange, IntType.min, IntType.max, IntType.isSigned, IntType.bits,
        IntType.sizeof]; omega)]
    rfl
  simp only [h2, if_false]
  by_cases h3 : s.length ≤ 65535
  · simp only [h3, if_true]
    rw [objectRepr_of_nat e .uint16 s.length (by
      simp [IntType.InRange, IntType.min, IntType.max, IntType.isSigned, IntType.bits,
        IntType.sizeof]; omega)]
    rfl
  simp only [h3, if_false]
  have h4 : s.length ≤ 4294967295 := by omega
  simp only [h4, if_true]
  rw [objectRepr_of_nat e .uint32 s.length (by
    simp [IntType.InRange, IntType.min, IntType.max, IntType.isSigned, IntType.bits,
      IntType.sizeof]; omega)]
  rfl

theorem pack_string_appends (e : Endian) (s : List Nat) (p : Packer)
    (hlen : s.length ≤ 2 ^ 32 - 1) (hroom : p.HasRoom (specStringEncoding e s).length) :
    (p.pack_string e s).Appends p (specStringEncoding e s) := by
  rw [pack_string_eq e s p hlen]
  unfold specStringEncoding at *
  by_cases h0 : s.length = 0
  · simp only [h0, if_true] at hroom ⊢
    exact p.write_appends _ hroom
  simp only [h0, if_false] at hroom ⊢
  by_cases h1 : s.length ≤ 31
  · simp only [h1, if_true] at hroom ⊢
    exact p.write_two_appends [0xa0 ||| s.length] s (by simpa [Nat.add_comm] using hroom)
  simp only [h1, if_false] at hroom ⊢
  by_cases h2 : s.length ≤ 255
  · simp only [h2, if_true] at hroom ⊢
    exact p.write_two_appends (0xd9 :: hostBytes e 1 s.length) s
      (by simpa [Nat.add_comm, Nat.add_left_comm, Nat.add_assoc] using hroom)
  simp only [h2, if_false] at hroom ⊢
  by_cases h3 : s.length ≤ 65535
  · simp only [h3, if_true] at hroom ⊢
    exact p.write_two_appends (0xda :: hostBytes e 2 s.length) s
      (by simpa [Nat.add_comm, Nat.add_left_comm, Nat.add_assoc] using hroom)
  simp only [h3, if_false] at hroom ⊢
  exact p.write_two_appends (0xdb :: hostBytes e 4 s.length) s
    (by simpa [Nat.add_comm, Nat.add_left_comm, Nat.add_assoc] using hroom)

theorem pack_string_too_long (e : Endian) (s : List Nat) (p : Packer)
    (hlen : ¬ s.length ≤ 2 ^ 32 - 1) : p.pack_string e s = ⟨p, some .stringSizeOverflow⟩ := by
  unfold Packer.pack_string
  simp only [detail.MAX_5BIT, detail.MAX_8BIT, detail.MAX_16BIT, detail.MAX_32BIT]
  rw [if_neg (by omega), if_neg (by omega), if_neg (by omega), if_neg (by omega),
    if_neg (by omega)]

/-- C8: for every byte string `s` of length `n` and every Packer whose sink has room
for the encoding, `pack_string` appends exactly `0xc0` when `n = 0`; `0xa0 | n` and
the bytes of `s` when `1 ≤ n ≤ 31`; `0xd9`, `0xda`, `0xdb` with a 1-, 2-, 4-byte
length and the bytes of `s` when `n ≤ 255`, `n ≤ 65535`, `n ≤ 2^32-1`; and when
`n > 2^32-1` it throws the string size-overflow error having written nothing. -/
theorem pack_string_encoding (e : Endian) (s : List Nat) (p : Packer)
    (hroom : s.length ≤ 2 ^ 32 - 1 → p.HasRoom (specStringEncoding e s).length) :
    if s.length ≤ 2 ^ 32 - 1 then (p.pack_string e s).Appends p (specStringEncoding e s)
    else (p.pack_string e s).error = some .stringSizeOverflow ∧ (p.pack_string e s).packer = p := by
  by_cases hlen : s.length ≤ 2 ^ 32 - 1
  · rw [if_pos hlen]
    exact pack_string_appends e s p hlen (hroom hlen)
  · rw [if_neg hlen, pack_string_too_long e s p hlen]
    exact ⟨rfl, rfl⟩

theorem pack_string_encoding_witness :
    ((Packer.mkStatic 4).pack_string .little [0x61, 0x00, 0x62]).error = none
      ∧ ((Packer.mkStatic 4).pack_string .little [0x61, 0x00, 0x62]).packer.data =
          [0xa3, 0x61, 0x00, 0x62] := by
  have h := pack_string_encoding .little [0x61, 0x00, 0x62] (Packer.mkStatic 4)
    (fun _ => by decide)
  rw [if_pos (by decide)] at h
  exact h

theorem packedString_eq (e : Endian) (s : List Nat) (hlen : s.length ≤ 2 ^ 32 - 1) :
    packedString e s = specStringEncoding e s := by
  have h := pack_string_appends e s Packer.mkDynamic hlen (Or.inl rfl)
  have hd : Packer.mkDynamic.data = [] := rfl
  rw [packedString, h.2, hd, List.nil_append]

theorem Unpacker.unpack_string_nil (e : Endian) (ref : List Nat) :
    Unpacker.unpack_string e ref (Unpacker.ofSlice []) = .error .noBytes := by
  simp [Unpacker.unpack_string, Unpacker.read_empty]

theorem Unpacker.unpack_string_cons (e : Endian) (ref : List Nat) (b : Nat) (rest : List Nat)
    (hb : b < 256) :
    Unpacker.unpack_string e ref (Unpacker.ofSlice (b :: rest)) =
      if b = 0xc0 then .ok ([], Unpacker.ofSlice rest)
      else
        match Unpacker.readStringLength e b (Unpacker.ofSlice rest) with
        | .error err => .error err
        | .ok (length, u2) =>
          if u2.remaining < length then .error .noBytes
          else .ok (u2.readBufferPtr.take length,
                    ⟨u2.readBufferPtr.drop length, u2.remaining - length⟩) := by
  simp only [Unpacker.unpack_string, Unpacker.read_head e b rest hb, Int.toNat_ofNat,
    detail.MP_NIL, List.take_zero]
  by_cases h0 : b = 0xc0
  · simp only [h0, if_true]
  simp only [h0, if_false]
  cases hr : Unpacker.readStringLength e b (Unpacker.ofSlice rest) with
  | error err => rfl
  | ok r =>
    obtain ⟨length, u2⟩ := r
    by_cases hlt : u2.remaining < length
    · simp only [hlt, if_true]
    · simp only [hlt, if_false, Unpacker.consume]

theorem Unpacker.readStringLength_fixstr (e : Endian) (n : Nat) (u : Unpacker)
    (h0 : 0 < n) (h1 : n ≤ 31) :
    Unpacker.readStringLength e (0xa0 ||| n) u = .ok (n, u) := by
  obtain ⟨f1, -, f3, f4, f5⟩ := fixstr_tag_facts n (by omega) h0
  obtain ⟨-, -, -, m4, m5⟩ := byte_masks (0xa0 ||| n) f1
  simp only [Unpacker.readStringLength, detail.TYPE_3BIT, detail.MP_FIXSTR, detail.VALUE_5BIT,
    m5.mpr ⟨f3, f4⟩, if_true, m4, f5]

/-- The explicit string tags with the type of the length field that follows. -/
theorem Unpacker.readStringLength_explicit (e : Endian) (tag : Nat) (W : IntType)
    (u : Unpacker)
    (hW : (tag, W) ∈ [(0xd9, IntType.uint8), (0xda, IntType.uint16), (0xdb, IntType.uint32)]) :
    Unpacker.readStringLength e tag u =
      match u.read e W with
      | .ok (v, u1) => .ok (v.toNat, u1)
      | .error err => .error err := by
  simp only [List.mem_cons, Prod.mk.injEq, List.mem_singleton, List.not_mem_nil, or_false] at hW
  have a1 : ¬ ((217 : Nat) &&& 224 = 160) := by decide
  have a2 : ¬ ((218 : Nat) &&& 224 = 160) := by decide
  have a3 : ¬ ((219 : Nat) &&& 224 = 160) := by decide
  rcases hW with ⟨rfl, rfl⟩ | ⟨rfl, rfl⟩ | ⟨rfl, rfl⟩ <;>
    simp [Unpacker.readStringLength, detail.TYPE_3BIT, detail.MP_FIXSTR, detail.MP_STR8,
      detail.MP_STR16, detail.MP_STR32, a1, a2, a3]

/-- Decoding of an explicit string header `tag, length` followed by `q`: the
payload is cut out of `q` if `q` is long enough. -/
theorem Unpacker.unpack_string_explicit (e : Endian) (ref : List Nat) (tag : Nat) (W : IntType)
    (n : Nat) (q : List Nat)
    (hW : (tag, W) ∈ [(0xd9, IntType.uint8), (0xda, IntType.uint16), (0xdb, IntType.uint32)])
    (hn : W.InRange (n : Int)) :
    Unpacker.unpack_string e ref (Unpacker.ofSlice (tag :: hostBytes e W.sizeof n ++ q)) =
      if q.length < n then .error .noBytes
      else .ok (q.take n, Unpacker.ofSlice (q.drop n)) := by
  have ht : tag < 256 ∧ tag ≠ 0xc0 := by
    simp only [List.mem_cons, Prod.mk.injEq, List.mem_singleton, List.not_mem_nil,
      or_false] at hW
    rcases hW with ⟨rfl, -⟩ | ⟨rfl, -⟩ | ⟨rfl, -⟩ <;> decide
  rw [List.cons_append, Unpacker.unpack_string_cons e ref tag _ ht.1, if_neg ht.2,
    Unpacker.readStringLength_explicit e tag W _ hW, ← objectRepr_of_nat e W n hn,
    Unpacker.read_objectRepr, IntType.conv_eq_self hn]
  simp [Unpacker.ofSlice, Unpacker.init]

theorem Unpacker.unpack_string_fixstr (e : Endian) (ref : List Nat) (n : Nat) (q : List Nat)
    (h0 : 0 < n) (h1 : n ≤ 31) :
    Unpacker.unpack_string e ref (Unpacker.ofSlice ((0xa0 ||| n) :: q)) =
      if q.length < n then .error .noBytes
      else .ok (q.take n, Unpacker.ofSlice (q.drop n)) := by
  obtain ⟨f1, f2, -⟩ := fixstr_tag_facts n (by omega) h0
  rw [Unpacker.unpack_string_cons e ref _ _ f1, if_neg f2,
    Unpacker.readStringLength_fixstr e n _ h0 h1]
  simp [Unpacker.ofSlice, Unpacker.init]

/-- Decoding of the specified encoding of `s` followed by `rest`. -/
theorem Unpacker.unpack_string_spec (e : Endian) (ref s rest : List Nat)
    (hlen : s.length ≤ 2 ^ 32 - 1) :
    Unpacker.unpack_string e ref (Unpacker.ofSlice (specStringEncoding e s ++ rest)) =
      .ok (s, Unpacker.ofSlice rest) := by
  unfold specStringEncoding
  by_cases h0 : s.length = 0
  · have hs : s = [] := List.length_eq_zero.mp h0
    subst hs
    simp only [List.length_nil, if_true, List.singleton_append]
    rw [Unpacker.unpack_string_cons e ref _ _ (by decide), if_pos rfl]
  simp only [h0, if_false]
  by_cases h1 : s.length ≤ 31
  · simp only [h1, if_true, List.cons_append]
    rw [Unpacker.unpack_string_fixstr e ref s.length _ (by omega) h1]
    simp
  simp only [h1, if_false]
  by_cases h2 : s.length ≤ 255
  · simp only [h2, if_true, List.cons_append, List.append_assoc]
    rw [show (217 : Nat) :: (hostBytes e 1 s.length ++ (s ++ rest)) =
        0xd9 :: hostBytes e IntType.uint8.sizeof s.length ++ (s ++ rest) from rfl,
      Unpacker.unpack_string_explicit e ref 0xd9 .uint8 s.length _ (by simp) (by
        simp [IntType.InRange, IntType.min, IntType.max, IntType.isSigned, IntType.bits,
          IntType.sizeof]; omega)]
    simp
  simp only [h2, if_false]
  by_cases h3 : s.length ≤ 65535
  · simp only [h3, if_true, List.cons_append, List.append_assoc]
    rw [show (218 : Nat) :: (hostBytes e 2 s.length ++ (s ++ rest)) =
        0xda :: hostBytes e IntType.uint16.sizeof s.length ++ (s ++ rest) from rfl,
      Unpacker.unpack_string_explicit e ref 0xda .uint16 s.length _ (by simp) (by
        simp [IntType.InRange, IntType.min, IntType.max, IntType.isSigned, IntType.bits,
          IntType.sizeof]; omega)]
    simp
  simp only [h3, if_false, List.cons_append, List.append_assoc]
  rw [show (219 : Nat) :: (hostBytes e 4 s.length ++ (s ++ rest)) =
      0xdb :: hostBytes e IntType.uint32.sizeof s.length ++ (s ++ rest) from rfl,
    Unpacker.unpack_string_explicit e ref 0xdb .uint32 s.length _ (by simp) (by
      simp [IntType.InRange, IntType.min, IntType.max, IntType.isSigned, IntType.bits,
        IntType.sizeof]; omega)]
  simp

/-- C9: for every byte string `s` of at most `2^32-1` bytes (empty, or with zero
bytes in it) and every prior content `ref` of the target, `pack_string` into an empty
growable Packer completes, and `unpack_string` over exactly the bytes produced
succeeds, leaves the target equal to `s` and leaves no byte unread. -/
theorem string_roundtrip (e : Endian) (s ref : List Nat) (hlen : s.length ≤ 2 ^ 32 - 1) :
    (Packer.mkDynamic.pack_string e s).error = none
      ∧ Unpacker.unpack_string e ref (Unpacker.ofSlice (packedString e s)) =
          .ok (s, Unpacker.ofSlice [])
      ∧ (Unpacker.ofSlice []).remaining = 0 := by
  refine ⟨(pack_string_appends e s Packer.mkDynamic hlen (Or.inl rfl)).1, ?_, rfl⟩
  have h := Unpacker.unpack_string_spec e ref s [] hlen
  rw [List.append_nil] at h
  rw [packedString_eq e s hlen, h]

theorem string_roundtrip_witness :
    Unpacker.unpack_string .big [9, 9]
        (Unpacker.ofSlice (packedString .big [0x68, 0x00, 0x69])) =
      .ok ([0x68, 0x00, 0x69], Unpacker.ofSlice [])
    ∧ Unpacker.unpack_string .big [9, 9] (Unpacker.ofSlice (packedString .big [])) =
      .ok ([], Unpacker.ofSlice []) :=
  ⟨(string_roundtrip .big [0x68, 0x00, 0x69] [9, 9] (by decide)).2.1,
   (string_roundtrip .big [] [9, 9] (by decide)).2.1⟩

/-! ## Truncated input -/

theorem StrictPrefix.length_lt {p l : List Nat} (h : StrictPrefix p l) : p.length < l.length := by
  rcases Nat.lt_or_ge p.length l.length with hlt | hge
  · exact hlt
  · exact absurd (h.1.eq_of_length_le hge) h.2

theorem StrictPrefix.cons_cases {p l : List Nat} {a : Nat} (h : StrictPrefix p (a :: l)) :
    p = [] ∨ ∃ q, p = a :: q ∧ StrictPrefix q l := by
  rcases List.prefix_cons_iff.mp h.1 with h0 | ⟨q, rfl, hq⟩
  · exact Or.inl h0
  · exact Or.inr ⟨q, rfl, hq, fun hql => h.2 (by rw [hql])⟩

theorem StrictPrefix.append_cases {q L s : List Nat} (h : StrictPrefix q (L ++ s)) :
    q.length < L.length ∨ ∃ r, q = L ++ r ∧ StrictPrefix r s := by
  rcases Nat.lt_or_ge q.length L.length with hlt | hge
  · exact Or.inl hlt
  · right
    have hL : L <+: q := List.prefix_of_prefix_length_le (List.prefix_append L s) h.1 hge
    obtain ⟨r, rfl⟩ := hL
    exact ⟨r, rfl, (List.prefix_append_right_inj L).mp h.1, fun hrs => h.2 (by rw [hrs])⟩

/-- Every integer encoding the Packer produces is one inline byte or an explicit tag
followed by exactly the bytes of a value of the width that tag announces. -/
theorem packedIntegral_forms (e : Endian) (T : IntType) (v : Int) (hv : T.InRange v) :
    (∃ b, packedIntegral e T v = [b]) ∨
      ∃ tag W x, ((tag, W) ∈ unsignedTags ∨ (tag, W) ∈ signedTags) ∧
        packedIntegral e T v = tag :: hostBytes e W.sizeof x := by
  unfold packedIntegral
  rcases Int.lt_or_le v 0 with hneg | h0
  · have hsigned : T = .int8 ∨ T = .int16 ∨ T = .int32 ∨ T = .int64 := by
      cases T <;> simp [IntType.InRange, IntType.min, IntType.isSigned] at hv ⊢ <;> omega
    rcases hsigned with hT | hT | hT | rfl
    case inr.inr.inr =>
      rw [pack_integral_int64_neg_eq e v _ hneg, Packer.mkDynamic_write_data]
      right
      split_ifs
      · exact ⟨0xd2, .int32, _, Or.inr (by decide), rfl⟩
      · exact ⟨0xd3, .int64, _, Or.inr (by decide), rfl⟩
    all_goals
      rw [pack_integral_neg_eq e T v _ (by simp [hT]) hv hneg, Packer.mkDynamic_write_data]
      unfold specNegEncoding
      split_ifs
      · exact Or.inl ⟨_, rfl⟩
      · exact Or.inr ⟨0xd0, .int8, _, Or.inr (by decide), rfl⟩
      · exact Or.inr ⟨0xd1, .int16, _, Or.inr (by decide), rfl⟩
      · exact Or.inr ⟨0xd2, .int32, _, Or.inr (by decide), rfl⟩
      · exact Or.inr ⟨0xd3, .int64, _, Or.inr (by decide), rfl⟩
  · obtain ⟨n, rfl⟩ := Int.eq_ofNat_of_zero_le h0
    rw [pack_integral_nonneg_eq e T n _ hv, Packer.mkDynamic_write_data]
    unfold specNonNegEncoding
    split_ifs
    · exact Or.inl ⟨_, rfl⟩
    · exact Or.inr ⟨0xcc, .uint8, _, Or.inl (by decide), rfl⟩
    · exact Or.inr ⟨0xcd, .uint16, _, Or.inl (by decide), rfl⟩
    · exact Or.inr ⟨0xce, .uint32, _, Or.inl (by decide), rfl⟩
    · exact Or.inr ⟨0xcf, .uint64, _, Or.inl (by decide), rfl⟩

theorem Unpacker.unpack_integral_truncated (e : Endian) (T : IntType) (tag : Nat) (W : IntType)
    (q : List Nat) (hW : (tag, W) ∈ unsignedTags ∨ (tag, W) ∈ signedTags)
    (hq : q.length < W.sizeof) :
    Unpacker.unpack_integral e T (Unpacker.ofSlice (tag :: q)) = .error .noBytes := by
  obtain ⟨t1, t2, t3⟩ := explicit_tag_bounds tag W hW
  rw [Unpacker.unpack_integral_cons e T tag q t1, if_neg t2, if_neg t3]
  rcases hW with hW | hW
  · rw [Unpacker.readExplicit_unsigned e tag W _ hW, Unpacker.read_short e W q hq]
  · rw [Unpacker.readExplicit_signed e tag W _ hW, Unpacker.read_short e W q hq]

theorem Unpacker.unpack_string_truncated (e : Endian) (ref : List Nat) (tag : Nat)
    (W : IntType) (q : List Nat)
    (hW : (tag, W) ∈ [(0xd9, IntType.uint8), (0xda, IntType.uint16), (0xdb, IntType.uint32)])
    (hq : q.length < W.sizeof) :
    Unpacker.unpack_string e ref (Unpacker.ofSlice (tag :: q)) = .error .noBytes := by
  have ht : tag < 256 ∧ tag ≠ 0xc0 := by
    simp only [List.mem_cons, Prod.mk.injEq, List.mem_singleton, List.not_mem_nil,
      or_false] at hW
    rcases hW with ⟨rfl, -⟩ | ⟨rfl, -⟩ | ⟨rfl, -⟩ <;> decide
  rw [Unpacker.unpack_string_cons e ref tag q ht.1, if_neg ht.2,
    Unpacker.readStringLength_explicit e tag W _ hW, Unpacker.read_short e W q hq]

theorem Unpacker.unpack_string_explicit_cut (e : Endian) (ref : List Nat) (tag : Nat)
    (W : IntType) (s p : List Nat)
    (hW : (tag, W) ∈ [(0xd9, IntType.uint8), (0xda, IntType.uint16), (0xdb, IntType.uint32)])
    (hn : W.InRange (s.length : Int))
    (hp : StrictPrefix p (tag :: hostBytes e W.sizeof s.length ++ s)) :
    Unpacker.unpack_string e ref (Unpacker.ofSlice p) = .error .noBytes := by
  rw [List.cons_append] at hp
  rcases hp.cons_cases with rfl | ⟨q, rfl, hq⟩
  · exact Unpacker.unpack_string_nil e ref
  rcases hq.append_cases with hlt | ⟨r, rfl, hr⟩
  · rw [hostBytes_length] at hlt
    exact Unpacker.unpack_string_truncated e ref tag W q hW hlt
  · rw [← List.cons_append, Unpacker.unpack_string_explicit e ref tag W s.length r hW hn,
      if_pos hr.length_lt]

theorem Unpacker.unpack_string_cut (e : Endian) (ref s p : List Nat)
    (hlen : s.length ≤ 2 ^ 32 - 1) (hp : StrictPrefix p (specStringEncoding e s)) :
    Unpacker.unpack_string e ref (Unpacker.ofSlice p) = .error .noBytes := by
  unfold specStringEncoding at hp
  by_cases h0 : s.length = 0
  · simp only [h0, if_true] at hp
    rcases hp.cons_cases with rfl | ⟨q, rfl, hq⟩
    · exact Unpacker.unpack_string_nil e ref
    · exact absurd hq.length_lt (by simp)
  simp only [h0, if_false] at hp
  by_cases h1 : s.length ≤ 31
  · simp only [h1, if_true] at hp
    rcases hp.cons_cases with rfl | ⟨q, rfl, hq⟩
    · exact Unpacker.unpack_string_nil e ref
    · rw [Unpacker.unpack_string_fixstr e ref s.length q (by omega) h1, if_pos hq.length_lt]
  simp only [h1, if_false] at hp
  by_cases h2 : s.length ≤ 255
  · simp only [h2, if_true] at hp
    exact Unpacker.unpack_string_explicit_cut e ref 0xd9 .uint8 s p (by simp) (by
      simp [IntType.InRange, IntType.min, IntType.max, IntType.isSigned, IntType.bits,
        IntType.sizeof]; omega) hp
  simp only [h2, if_false] at hp
  by_cases h3 : s.length ≤ 65535
  · simp only [h3, if_true] at hp
    exact Unpacker.unpack_string_explicit_cut e ref 0xda .uint16 s p (by simp) (by
      simp [IntType.InRange, IntType.min, IntType.max, IntType.isSigned, IntType.bits,
        IntType.sizeof]; omega) hp
  simp only [h3, if_false] at hp
  exact Unpacker.unpack_string_explicit_cut e ref 0xdb .uint32 s p (by simp) (by
    simp [IntType.InRange, IntType.min, IntType.max, IntType.isSigned, IntType.bits,
      IntType.sizeof]; omega) hp

/-- C10: a truncated encoding is reported as buffer exhaustion. For every integer
type `T` and value `v` of `T`, every strict prefix of the bytes `pack_integral`
produces (the empty one included) makes `unpack_integral<T>` fail with the
no-bytes-remaining error; for every string `s` of at most `2^32-1` bytes, every strict
prefix of the bytes `pack_string` produces makes `unpack_string` fail with that same
error; and so does every 2-byte source that starts with the str16 tag `0xda`. -/
theorem truncated_input_buffer_exhausted (e : Endian) :
    (∀ (T : IntType) (v : Int) (p : List Nat), T.InRange v →
        StrictPrefix p (packedIntegral e T v) →
        Unpacker.unpack_integral e T (Unpacker.ofSlice p) = .error .noBytes)
      ∧ (∀ (s ref p : List Nat), s.length ≤ 2 ^ 32 - 1 →
        StrictPrefix p (packedString e s) →
        Unpacker.unpack_string e ref (Unpacker.ofSlice p) = .error .noBytes)
      ∧ (∀ (ref : List Nat) (b : Nat),
        Unpacker.unpack_string e ref (Unpacker.ofSlice [0xda, b]) = .error .noBytes) := by
  refine ⟨?_, ?_, ?_⟩
  · intro T v p hv hp
    rcases packedIntegral_forms e T v hv with ⟨b, hb⟩ | ⟨tag, W, x, hW, hx⟩
    · rw [hb] at hp
      rcases hp.cons_cases with rfl | ⟨q, rfl, hq⟩
      · exact Unpacker.unpack_integral_nil e T
      · exact absurd hq.length_lt (by simp)
    · rw [hx] at hp
      rcases hp.cons_cases with rfl | ⟨q, rfl, hq⟩
      · exact Unpacker.unpack_integral_nil e T
      · have hlt := hq.length_lt
        rw [hostBytes_length] at hlt
        exact Unpacker.unpack_integral_truncated e T tag W q hW hlt
  · intro s ref p hlen hp
    rw [packedString_eq e s hlen] at hp
    exact Unpacker.unpack_string_cut e ref s p hlen hp
  · intro ref b
    exact Unpacker.unpack_string_truncated e ref 0xda .uint16 [b] (by simp)
      (by simp [IntType.sizeof])

theorem truncated_input_buffer_exhausted_witness :
    (IntType.int16.InRange (-300) ∧ StrictPrefix [0xd1, 0xd4] (packedIntegral .little .int16 (-300))
        ∧ Unpacker.unpack_integral .little .int16 (Unpacker.ofSlice [0xd1, 0xd4]) =
            .error .noBytes)
      ∧ (StrictPrefix [0xa3, 0x61] (packedString .little [0x61, 0x62, 0x63])
        ∧ Unpacker.unpack_string .little [] (Unpacker.ofSlice [0xa3, 0x61]) = .error .noBytes) :=
  ⟨⟨by decide, ⟨⟨[0xfe], by decide⟩, by decide⟩,
      (truncated_input_buffer_exhausted .little).1 .int16 (-300) [0xd1, 0xd4] (by decide)
        ⟨⟨[0xfe], by decide⟩, by decide⟩⟩,
   ⟨⟨⟨[0x62, 0x63], by decide⟩, by decide⟩,
      (truncated_input_buffer_exhausted .little).2.1 [0x61, 0x62, 0x63] [] [0xa3, 0x61]
        (by decide) ⟨⟨[0x62, 0x63], by decide⟩, by decide⟩⟩⟩

/-! ## Booleans -/

theorem true_false_bytes (e : Endian) :
    objectRepr e .uint8 (detail.MP_TRUE : Nat) = [0xc3]
      ∧ objectRepr e .uint8 (detail.MP_FALSE : Nat) = [0xc2] := by
  cases e <;> decide

theorem Unpacker.unpack_boolean_cons (e : Endian) (h : Nat) (rest : List Nat) (hh : h < 256) :
    Unpacker.unpack_boolean e (Unpacker.ofSlice (h :: rest)) =
      if h = 0xc3 then .ok (true, Unpacker.ofSlice rest)
      else if h = 0xc2 then .ok (false, Unpacker.ofSlice rest)
      else .error .invalidType := by
  simp only [Unpacker.unpack_boolean, Unpacker.read_head e h rest hh, Int.toNat_ofNat,
    detail.MP_TRUE, detail.MP_FALSE]

/-- C20: `pack_boolean` appends exactly the byte `0xc3` for `true` and `0xc2` for
`false` (in every Packer with room for one byte), and for every input with first byte
`h`, `unpack_boolean` yields `true` and consumes one byte if `h = 0xc3`, yields `false`
and consumes one byte if `h = 0xc2`, and fails with the invalid-type error for every
other `h`. -/
theorem boolean_codec (e : Endian) (p : Packer) (h : Nat) (rest : List Nat)
    (hroom : p.HasRoom 1) (hh : h < 256) :
    (p.pack_boolean e true).Appends p [0xc3]
      ∧ (p.pack_boolean e false).Appends p [0xc2]
      ∧ Unpacker.unpack_boolean e (Unpacker.ofSlice (h :: rest)) =
          (if h = 0xc3 then .ok (true, Unpacker.ofSlice rest)
           else if h = 0xc2 then .ok (false, Unpacker.ofSlice rest)
           else .error .invalidType) := by
  refine ⟨?_, ?_, Unpacker.unpack_boolean_cons e h rest hh⟩
  · simp only [Packer.pack_boolean, if_true, Packer.writeValue, (true_false_bytes e).1]
    exact p.write_appends [0xc3] hroom
  · simp only [Packer.pack_boolean, Bool.false_eq_true, if_false, Packer.writeValue,
      (true_false_bytes e).2]
    exact p.write_appends [0xc2] hroom

theorem boolean_codec_witness :
    ((Packer.mkStatic 1).pack_boolean .little true).packer.data = [0xc3]
      ∧ Unpacker.unpack_boolean .little (Unpacker.ofSlice [0xc0, 0xc3]) = .error .invalidType
      ∧ Unpacker.unpack_boolean .little (Unpacker.ofSlice [0x00]) = .error .invalidType
      ∧ Unpacker.unpack_boolean .little (Unpacker.ofSlice [0x01]) = .error .invalidType
      ∧ Unpacker.unpack_boolean .little (Unpacker.ofSlice [0xc2, 0x07]) =
          .ok (false, Unpacker.ofSlice [0x07]) :=
  ⟨(boolean_codec .little (Packer.mkStatic 1) 0xc0 [0xc3] (by decide) (by decide)).1.2,
   (boolean_codec .little (Packer.mkStatic 1) 0xc0 [0xc3] (by decide) (by decide)).2.2,
   (boolean_codec .little (Packer.mkStatic 1) 0x00 [] (by decide) (by decide)).2.2,
   (boolean_codec .little (Packer.mkStatic 1) 0x01 [] (by decide) (by decide)).2.2,
   (boolean_codec .little (Packer.mkStatic 1) 0xc2 [0x07] (by decide) (by decide)).2.2⟩

/-! ## Binary -/

theorem resize_length {α : Type} (l : List α) (n : Nat) (d : α) : (resize l n d).length = n := by
  simp only [resize, List.length_append, List.length_take, List.length_replicate]
  omega

theorem pack_binary_eq (e : Endian) (bs : List Nat) (p : Packer) (hlen : bs.length ≤ 2 ^ 32 - 1) :
    p.pack_binary e bs =
      if bs.length ≤ 255 then
        (p.write (0xc4 :: hostBytes e 1 bs.length)).andThen fun q => q.write bs
      else if bs.length ≤ 65535 then
        (p.write (0xc5 :: hostBytes e 2 bs.length)).andThen fun q => q.write bs
      else (p.write (0xc6 :: hostBytes e 4 bs.length)).andThen fun q => q.write bs := by
  unfold Packer.pack_binary
  simp only [detail.MAX_8BIT, detail.MAX_16BIT, detail.MAX_32BIT, detail.MP_BIN8,
    detail.MP_BIN16, detail.MP_BIN32, Packer.writeTagged]
  by_cases h2 : bs.length ≤ 255
  · simp only [h2, if_true]
    rw [objectRepr_of_nat e .uint8 bs.length (by
      simp [IntType.InRange, IntType.min, IntType.max, IntType.isSigned, IntType.bits,
        IntType.sizeof]; omega)]
    rfl
  simp only [h2, if_false]
  by_cases h3 : bs.length ≤ 65535
  · simp only [h3, if_true]
    rw [objectRepr_of_nat e .uint16 bs.length (by
      simp [IntType.InRange, IntType.min, IntType.max, IntType.isSigned, IntType.bits,
        IntType.sizeof]; omega)]
    rfl
  simp only [h3, if_false]
  have h4 : bs.length ≤ 4294967295 := by omega
  simp only [h4, if_true]
  rw [objectRepr_of_nat e .uint32 bs.length (by
    simp [IntType.InRange, IntType.min, IntType.max, IntType.isSigned, IntType.bits,
      IntType.sizeof]; omega)]
  rfl

theorem pack_binary_appends (e : Endian) (bs : List Nat) (p : Packer)
    (hlen : bs.length ≤ 2 ^ 32 - 1) (hroom : p.HasRoom (specBinaryEncoding e bs).length) :
    (p.pack_binary e bs).Appends p (specBinaryEncoding e bs) := by
  rw [pack_binary_eq e bs p hlen]
  unfold specBinaryEncoding at *
  by_cases h2 : bs.length ≤ 255
  · simp only [h2, if_true] at hroom ⊢
    exact p.write_two_appends (0xc4 :: hostBytes e 1 bs.length) bs
      (by simpa [Nat.add_comm, Nat.add_left_comm, Nat.add_assoc] using hroom)
  simp only [h2, if_false] at hroom ⊢
  by_cases h3 : bs.length ≤ 65535
  · simp only [h3, if_true] at hroom ⊢
    exact p.write_two_appends (0xc5 :: hostBytes e 2 bs.length) bs
      (by simpa [Nat.add_comm, Nat.add_left_comm, Nat.add_assoc] using hroom)
  simp only [h3, if_false] at hroom ⊢
  exact p.write_two_appends (0xc6 :: hostBytes e 4 bs.length) bs
    (by simpa [Nat.add_comm, Nat.add_left_comm, Nat.add_assoc] using hroom)

theorem packedBinary_eq (e : Endian) (bs : List Nat) (hlen : bs.length ≤ 2 ^ 32 - 1) :
    packedBinary e bs = specBinaryEncoding e bs := by
  have h := pack_binary_appends e bs Packer.mkDynamic hlen (Or.inl rfl)
  have hd : Packer.mkDynamic.data = [] := rfl
  rw [packedBinary, h.2, hd, List.nil_append]

theorem binary_tag_bounds (tag : Nat) (W : IntType) (hW : (tag, W) ∈ binaryTags) :
    tag < 256 := by
  simp only [binaryTags, List.mem_cons, Prod.mk.injEq, List.mem_singleton, List.not_mem_nil,
    or_false] at hW
  rcases hW with ⟨rfl, -⟩ | ⟨rfl, -⟩ | ⟨rfl, -⟩ <;> decide

theorem Unpacker.readBinaryLength_explicit (e : Endian) (tag : Nat) (W : IntType)
    (u : Unpacker) (hW : (tag, W) ∈ binaryTags) :
    Unpacker.readBinaryLength e tag u =
      match u.read e W with
      | .ok (v, u1) => .ok (v.toNat, u1)
      | .error err => .error err := by
  simp only [binaryTags, List.mem_cons, Prod.mk.injEq, List.mem_singleton, List.not_mem_nil,
    or_false] at hW
  rcases hW with ⟨rfl, rfl⟩ | ⟨rfl, rfl⟩ | ⟨rfl, rfl⟩ <;>
    simp only [Unpacker.readBinaryLength, detail.MP_BIN8, detail.MP_BIN16, detail.MP_BIN32,
      if_true, Nat.reduceEqDiff, if_false]

theorem Unpacker.readBytes_ofSlice (q : List Nat) (n : Nat) :
    (Unpacker.ofSlice q).readBytes n =
      if q.length < n then .error .noBytes
      else .ok (q.take n, Unpacker.ofSlice (q.drop n)) := by
  simp [Unpacker.readBytes, Unpacker.ofSlice, Unpacker.init]

/-- Decoding of a binary header `tag, length` followed by `q` into a growable
target: the target is resized, then filled from `q` if `q` is long enough. -/
theorem Unpacker.unpack_binary_explicit (e : Endian) (ref : List Nat) (tag : Nat) (W : IntType)
    (n : Nat) (q : List Nat) (hW : (tag, W) ∈ binaryTags) (hn : W.InRange (n : Int)) :
    Unpacker.unpack_binary e ref (Unpacker.ofSlice (tag :: hostBytes e W.sizeof n ++ q)) =
      if q.length < n then .error (.noBytes, resize ref n 0)
      else .ok (q.take n, Unpacker.ofSlice (q.drop n)) := by
  have hd : List.drop n (resize ref n 0) = [] :=
    List.drop_eq_nil_of_le (by rw [resize_length])
  rw [List.cons_append]
  simp only [Unpacker.unpack_binary, Unpacker.read_head e tag _ (binary_tag_bounds tag W hW),
    Int.toNat_ofNat, Unpacker.readBinaryLength_explicit e tag W _ hW,
    ← objectRepr_of_nat e W n hn, Unpacker.read_objectRepr, IntType.conv_eq_self hn,
    Unpacker.readBytes_ofSlice, hd, List.append_nil]
  by_cases h : q.length < n <;> simp [h]

/-- Decoding of the specified encoding of `bs` followed by `rest`. -/
theorem Unpacker.unpack_binary_spec (e : Endian) (ref bs rest : List Nat)
    (hlen : bs.length ≤ 2 ^ 32 - 1) :
    Unpacker.unpack_binary e ref (Unpacker.ofSlice (specBinaryEncoding e bs ++ rest)) =
      .ok (bs, Unpacker.ofSlice rest) := by
  have key : ∀ (tag : Nat) (W : IntType), (tag, W) ∈ binaryTags → W.InRange (bs.length : Int) →
      Unpacker.unpack_binary e ref
          (Unpacker.ofSlice (tag :: hostBytes e W.sizeof bs.length ++ (bs ++ rest))) =
        .ok (bs, Unpacker.ofSlice rest) := by
    intro tag W hW hn
    rw [Unpacker.unpack_binary_explicit e ref tag W bs.length _ hW hn]
    simp
  unfold specBinaryEncoding
  split_ifs with h2 h3
  · simpa using key 0xc4 .uint8 (by decide) (by
      simp [IntType.InRange, IntType.min, IntType.max, IntType.isSigned, IntType.bits,
        IntType.sizeof]; omega)
  · simpa using key 0xc5 .uint16 (by decide) (by
      simp [IntType.InRange, IntType.min, IntType.max, IntType.isSigned, IntType.bits,
        IntType.sizeof]; omega)
  · simpa using key 0xc6 .uint32 (by decide) (by
      simp [IntType.InRange, IntType.min, IntType.max, IntType.isSigned, IntType.bits,
        IntType.sizeof]; omega)

/-- C14: for every sequence `bs` of at most `2^32-1` bytes (the empty one included),
`pack_binary` appends `0xc4`, `0xc5` or `0xc6` with a 1-, 2- or 4-byte length and then
the raw bytes, so the leading byte is never an inline tag, `nil` or an array tag; and
`unpack_binary` into a growable target, whatever it held, over exactly the bytes
produced succeeds, leaves the target equal to `bs` and leaves no byte unread. -/
theorem binary_roundtrip (e : Endian) (bs ref : List Nat) (p : Packer)
    (hlen : bs.length ≤ 2 ^ 32 - 1) (hroom : p.HasRoom (specBinaryEncoding e bs).length) :
    (p.pack_binary e bs).Appends p (specBinaryEncoding e bs)
      ∧ (∃ tag rest, specBinaryEncoding e bs = tag :: rest ∧ tag ∈ [0xc4, 0xc5, 0xc6])
      ∧ (Packer.mkDynamic.pack_binary e bs).error = none
      ∧ Unpacker.unpack_binary e ref (Unpacker.ofSlice (packedBinary e bs)) =
          .ok (bs, Unpacker.ofSlice []) := by
  refine ⟨pack_binary_appends e bs p hlen hroom, ?_,
    (pack_binary_appends e bs Packer.mkDynamic hlen (Or.inl rfl)).1, ?_⟩
  · unfold specBinaryEncoding
    split_ifs
    · exact ⟨0xc4, _, rfl, by decide⟩
    · exact ⟨0xc5, _, rfl, by decide⟩
    · exact ⟨0xc6, _, rfl, by decide⟩
  · have h := Unpacker.unpack_binary_spec e ref bs [] hlen
    rw [List.append_nil] at h
    rw [packedBinary_eq e bs hlen, h]

theorem binary_roundtrip_witness :
    ((Packer.mkStatic 2).pack_binary .big []).packer.data = [0xc4, 0x00]
      ∧ Unpacker.unpack_binary .big [7, 7, 7] (Unpacker.ofSlice (packedBinary .big [])) =
          .ok ([], Unpacker.ofSlice [])
      ∧ Unpacker.unpack_binary .big [7] (Unpacker.ofSlice (packedBinary .big [1, 0, 255])) =
          .ok ([1, 0, 255], Unpacker.ofSlice []) :=
  ⟨(binary_roundtrip .big [] [7, 7, 7] (Packer.mkStatic 2) (by decide) (by decide)).1.2,
   (binary_roundtrip .big [] [7, 7, 7] (Packer.mkStatic 2) (by decide) (by decide)).2.2.2,
   (binary_roundtrip .big [1, 0, 255] [7] Packer.mkDynamic (by decide) (by decide)).2.2.2⟩

/-! ## Floating point -/

theorem FloatType.carrier_inRange (T : FloatType) (v : Nat) (hv : v < 2 ^ T.bits) :
    T.carrier.InRange (v : Int) := by
  cases T <;>
    simp [FloatType.bits, FloatType.sizeof, FloatType.carrier, IntType.InRange, IntType.min,
      IntType.max, IntType.isSigned, IntType.bits, IntType.sizeof] at * <;> omega

theorem pack_floating_point_eq (e : Endian) (T : FloatType) (v : Nat) (p : Packer)
    (hv : v < 2 ^ T.bits) :
    p.pack_floating_point e T v =
      p.write ((match T with | .float => 0xca | .double => 0xcb) :: hostBytes e T.sizeof v) := by
  have h := objectRepr_of_nat e T.carrier v (T.carrier_inRange v hv)
  cases T <;>
    simp only [Packer.pack_floating_point, Packer.writeTagged, h, detail.MP_FLOAT,
      detail.MP_DOUBLE] <;> rfl

theorem Unpacker.readFloat_hostBytes (e : Endian) (T : FloatType) (v : Nat) (rest : List Nat)
    (hv : v < 2 ^ T.bits) :
    Unpacker.readFloat e T (Unpacker.ofSlice (hostBytes e T.sizeof v ++ rest)) =
      .ok (v, Unpacker.ofSlice rest) := by
  have hin := T.carrier_inRange v hv
  have hs : T.sizeof = T.carrier.sizeof := by cases T <;> rfl
  rw [Unpacker.readFloat, hs, ← objectRepr_of_nat e T.carrier v hin, Unpacker.read_objectRepr,
    IntType.conv_eq_self hin]
  simp

/-- Decoding of the `double` encoding of the pattern `v` into a target of type `T`:
the value is compared with `numeric_limits<T>::max()` and `numeric_limits<T>::min()`. -/
theorem Unpacker.unpack_floating_point_double (e : Endian) (c : FloatConv) (T : FloatType)
    (v : Nat) (rest : List Nat) (hv : v < 2 ^ 64) :
    Unpacker.unpack_floating_point e c T (Unpacker.ofSlice (0xcb :: hostBytes e 8 v ++ rest)) =
      if Double.greater v T.maxAsDouble then .error .overflow
      else if Double.less v T.minAsDouble then .error .underflow
      else .ok (T.ofDouble c v, Unpacker.ofSlice rest) := by
  have h := Unpacker.readFloat_hostBytes e .double v rest hv
  rw [show FloatType.double.sizeof = 8 from rfl] at h
  rw [List.cons_append]
  simp only [Unpacker.unpack_floating_point, Unpacker.read_head e 0xcb _ (by decide),
    Int.toNat_ofNat, detail.MP_FLOAT, detail.MP_DOUBLE, h]
  simp

/-- Decoding of the `float` encoding of the pattern `v`: no check is made. -/
theorem Unpacker.unpack_floating_point_float (e : Endian) (c : FloatConv) (T : FloatType)
    (v : Nat) (rest : List Nat) (hv : v < 2 ^ 32) :
    Unpacker.unpack_floating_point e c T (Unpacker.ofSlice (0xca :: hostBytes e 4 v ++ rest)) =
      .ok (T.ofFloat c v, Unpacker.ofSlice rest) := by
  have h := Unpacker.readFloat_hostBytes e .float v rest hv
  rw [show FloatType.float.sizeof = 4 from rfl] at h
  rw [List.cons_append]
  simp only [Unpacker.unpack_floating_point, Unpacker.read_head e 0xca _ (by decide),
    Int.toNat_ofNat, detail.MP_FLOAT, h]
  simp

/-- The `float` round trip: every 32-bit pattern is packed as `0xca` and its four
bytes and unpacks into a `float` target as itself. -/
theorem float_roundtrip (e : Endian) (c : FloatConv) (v : Nat) (hv : v < 2 ^ 32) :
    packedFloating e .float v = 0xca :: hostBytes e 4 v
      ∧ Unpacker.unpack_floating_point e c .float (Unpacker.ofSlice (packedFloating e .float v)) =
          .ok (v, Unpacker.ofSlice []) := by
  have hp : packedFloating e .float v = 0xca :: hostBytes e 4 v := by
    rw [packedFloating, pack_floating_point_eq e .float v _ hv, Packer.mkDynamic_write_data]
    rfl
  refine ⟨hp, ?_⟩
  have h := Unpacker.unpack_floating_point_float e c .float v [] hv
  rw [List.append_nil] at h
  rw [hp, h]
  rfl

/-- The `double` values that survive the round trip are exactly those that are
neither above `DBL_MAX` nor below `DBL_MIN`, the smallest positive normal value. -/
theorem double_roundtrip_iff (e : Endian) (c : FloatConv) (v : Nat) (hv : v < 2 ^ 64) :
    packedFloating e .double v = 0xcb :: hostBytes e 8 v
      ∧ (Unpacker.unpack_floating_point e c .double
            (Unpacker.ofSlice (packedFloating e .double v)) = .ok (v, Unpacker.ofSlice [])
          ↔ Double.greater v 0x7fefffffffffffff = false ∧ Double.less v 0x0010000000000000 = false) := by
  have hp : packedFloating e .double v = 0xcb :: hostBytes e 8 v := by
    rw [packedFloating, pack_floating_point_eq e .double v _ hv, Packer.mkDynamic_write_data]
    rfl
  refine ⟨hp, ?_⟩
  have h := Unpacker.unpack_floating_point_double e c .double v [] hv
  rw [List.append_nil] at h
  rw [hp, h]
  simp only [FloatType.maxAsDouble, FloatType.minAsDouble, FloatType.ofDouble]
  cases h1 : Double.greater v 0x7fefffffffffffff <;>
    cases h2 : Double.less v 0x0010000000000000 <;> simp

/-- C18 (the code at the failing input): the `double` values 0.0 and -1.0 are packed
as `0xcb` and their eight bytes, and unpacking those nine bytes into a `double` target
throws the underflow error, because the value is compared with
`numeric_limits<double>::min()`, the smallest positive normal value; 1.0 and every
`float` pattern do survive the round trip. -/
theorem double_roundtrip_zero (e : Endian) (c : FloatConv) :
    packedFloating e .double 0 = [0xcb, 0, 0, 0, 0, 0, 0, 0, 0]
      ∧ Double.isFinite 0 = true
      ∧ Unpacker.unpack_floating_point e c .double
          (Unpacker.ofSlice (packedFloating e .double 0)) = .error .underflow
      ∧ Double.isFinite 0xbff0000000000000 = true
      ∧ Unpacker.unpack_floating_point e c .double
          (Unpacker.ofSlice (packedFloating e .double 0xbff0000000000000)) = .error .underflow
      ∧ Unpacker.unpack_floating_point e c .double
          (Unpacker.ofSlice (packedFloating e .double 0x3ff0000000000000)) =
            .ok (0x3ff0000000000000, Unpacker.ofSlice [])
      ∧ Unpacker.unpack_floating_point e c .float
          (Unpacker.ofSlice (packedFloating e .float 0)) = .ok (0, Unpacker.ofSlice []) := by
  cases e <;> exact ⟨rfl, rfl, rfl, rfl, rfl, rfl, rfl⟩

/-! ## Fixed-capacity string target -/

theorem Unpacker.unpack_c_string_cons (e : Endian) (ptr : List Nat) (b : Nat) (rest : List Nat)
    (hb : b < 256) :
    Unpacker.unpack_c_string e ptr (Unpacker.ofSlice (b :: rest)) =
      if b = 0xc0 then .ok (ptr.set 0 0, Unpacker.ofSlice rest)
      else
        match Unpacker.readStringLength e b (Unpacker.ofSlice rest) with
        | .error err => .error (err, ptr)
        | .ok (length, u2) =>
          if length > ptr.length then .error (.stringBufferOverflow, ptr)
          else
            match u2.readBytes length with
            | .error err =>
              .error (err, ptr.take length ++ List.replicate (ptr.length - length) 0)
            | .ok (bytes, u3) =>
              .ok (bytes ++ List.replicate (ptr.length - length) 0, u3) := by
  simp only [Unpacker.unpack_c_string, Unpacker.read_head e b rest hb, Int.toNat_ofNat,
    detail.MP_NIL]
  by_cases h0 : b = 0xc0
  · simp only [h0, if_true]
  simp only [h0, if_false]
  cases hr : Unpacker.readStringLength e b (Unpacker.ofSlice rest) with
  | error err => rfl
  | ok r =>
    obtain ⟨length, u2⟩ := r
    by_cases hlt : length > ptr.length
    · simp only [hlt, if_true]
    · simp only [hlt, if_false]
      have hd : List.drop length (List.take length ptr ++
          List.replicate (ptr.length - length) 0) = List.replicate (ptr.length - length) 0 := by
        have hl : (List.take length ptr).length = length := by
          rw [List.length_take]; omega
        rw [List.drop_append_eq_append_drop, hl, Nat.sub_self, List.drop_zero,
          List.drop_eq_nil_of_le (by omega), List.nil_append]
      cases hb2 : u2.readBytes length with
      | error err => rfl
      | ok r2 =>
        obtain ⟨bytes, u3⟩ := r2
        simp only [hd]

/-- Decoding of a string header announcing the length `n` followed by `q`, into a
target of `ptr.length` bytes. -/
theorem Unpacker.unpack_c_string_payload (ptr q : List Nat) (n : Nat) :
    (if n > ptr.length then (.error (.stringBufferOverflow, ptr) : UnpackResult (List Nat))
      else
        match (Unpacker.ofSlice q).readBytes n with
        | .error err => .error (err, ptr.take n ++ List.replicate (ptr.length - n) 0)
        | .ok (bytes, u3) => .ok (bytes ++ List.replicate (ptr.length - n) 0, u3)) =
      if n > ptr.length then .error (.stringBufferOverflow, ptr)
      else if q.length < n then
        .error (.noBytes, ptr.take n ++ List.replicate (ptr.length - n) 0)
      else .ok (q.take n ++ List.replicate (ptr.length - n) 0, Unpacker.ofSlice (q.drop n)) := by
  rw [Unpacker.readBytes_ofSlice]
  by_cases h1 : n > ptr.length
  · simp only [h1, if_true]
  · simp only [h1, if_false]
    by_cases h2 : q.length < n <;> simp only [h2, if_true, if_false]

theorem Unpacker.unpack_c_string_explicit (e : Endian) (ptr : List Nat) (tag : Nat)
    (W : IntType) (n : Nat) (q : List Nat)
    (hW : (tag, W) ∈ [(0xd9, IntType.uint8), (0xda, IntType.uint16), (0xdb, IntType.uint32)])
    (hn : W.InRange (n : Int)) :
    Unpacker.unpack_c_string e ptr (Unpacker.ofSlice (tag :: hostBytes e W.sizeof n ++ q)) =
      if n > ptr.length then .error (.stringBufferOverflow, ptr)
      else if q.length < n then
        .error (.noBytes, ptr.take n ++ List.replicate (ptr.length - n) 0)
      else .ok (q.take n ++ List.replicate (ptr.length - n) 0, Unpacker.ofSlice (q.drop n)) := by
  have ht : tag < 256 ∧ tag ≠ 0xc0 := by
    simp only [List.mem_cons, Prod.mk.injEq, List.mem_singleton, List.not_mem_nil,
      or_false] at hW
    rcases hW with ⟨rfl, -⟩ | ⟨rfl, -⟩ | ⟨rfl, -⟩ <;> decide
  rw [List.cons_append, Unpacker.unpack_c_string_cons e ptr tag _ ht.1, if_neg ht.2,
    Unpacker.readStringLength_explicit e tag W _ hW, ← objectRepr_of_nat e W n hn,
    Unpacker.read_objectRepr, IntType.conv_eq_self hn]
  simp only [Int.toNat_ofNat]
  rw [Unpacker.unpack_c_string_payload]

theorem Unpacker.unpack_c_string_fixstr (e : Endian) (ptr : List Nat) (n : Nat) (q : List Nat)
    (h0 : 0 < n) (h1 : n ≤ 31) :
    Unpacker.unpack_c_string e ptr (Unpacker.ofSlice ((0xa0 ||| n) :: q)) =
      if n > ptr.length then .error (.stringBufferOverflow, ptr)
      else if q.length < n then
        .error (.noBytes, ptr.take n ++ List.replicate (ptr.length - n) 0)
      else .ok (q.take n ++ List.replicate (ptr.length - n) 0, Unpacker.ofSlice (q.drop n)) := by
  obtain ⟨f1, f2, -⟩ := fixstr_tag_facts n (by omega) h0
  rw [Unpacker.unpack_c_string_cons e ptr _ _ f1, if_neg f2,
    Unpacker.readStringLength_fixstr e n _ h0 h1]
  simp only []
  rw [Unpacker.unpack_c_string_payload]

/-- The fixed-capacity string target on every encoding other than `nil`: for the
specified encoding of a non-empty string `s` followed by `rest`, `unpack_c_string`
throws the buffer-overflow error if `s` is longer than the target, and otherwise
leaves the target equal to `s` followed by zeros. -/
theorem Unpacker.unpack_c_string_spec (e : Endian) (ptr s rest : List Nat)
    (h0 : s ≠ []) (hlen : s.length ≤ 2 ^ 32 - 1) :
    Unpacker.unpack_c_string e ptr (Unpacker.ofSlice (specStringEncoding e s ++ rest)) =
      if s.length > ptr.length then .error (.stringBufferOverflow, ptr)
      else .ok (s ++ List.replicate (ptr.length - s.length) 0, Unpacker.ofSlice rest) := by
  have hpos : 0 < s.length := List.length_pos.mpr h0
  have fin : (if s.length > ptr.length then
        (.error (.stringBufferOverflow, ptr) : UnpackResult (List Nat))
      else if (s ++ rest).length < s.length then
        .error (.noBytes, ptr.take s.length ++ List.replicate (ptr.length - s.length) 0)
      else .ok ((s ++ rest).take s.length ++ List.replicate (ptr.length - s.length) 0,
        Unpacker.ofSlice ((s ++ rest).drop s.length))) =
      if s.length > ptr.length then .error (.stringBufferOverflow, ptr)
      else .ok (s ++ List.replicate (ptr.length - s.length) 0, Unpacker.ofSlice rest) := by
    by_cases hcap : s.length > ptr.length
    · simp only [hcap, if_true]
    · simp [hcap]
  rw [← fin]
  unfold specStringEncoding
  rw [if_neg (by omega)]
  by_cases h1 : s.length ≤ 31
  · rw [if_pos h1, List.cons_append, Unpacker.unpack_c_string_fixstr e ptr s.length _ hpos h1]
  rw [if_neg h1]
  by_cases h2 : s.length ≤ 255
  · rw [if_pos h2]
    simp only [List.cons_append, List.append_assoc]
    exact Unpacker.unpack_c_string_explicit e ptr 0xd9 .uint8 s.length (s ++ rest) (by simp) (by
      simp [IntType.InRange, IntType.min, IntType.max, IntType.isSigned, IntType.bits,
        IntType.sizeof]; omega)
  rw [if_neg h2]
  by_cases h3 : s.length ≤ 65535
  · rw [if_pos h3]
    simp only [List.cons_append, List.append_assoc]
    exact Unpacker.unpack_c_string_explicit e ptr 0xda .uint16 s.length (s ++ rest) (by simp) (by
      simp [IntType.InRange, IntType.min, IntType.max, IntType.isSigned, IntType.bits,
        IntType.sizeof]; omega)
  rw [if_neg h3]
  simp only [List.cons_append, List.append_assoc]
  exact Unpacker.unpack_c_string_explicit e ptr 0xdb .uint32 s.length (s ++ rest) (by simp) (by
    simp [IntType.InRange, IntType.min, IntType.max, IntType.isSigned, IntType.bits,
      IntType.sizeof]; omega)

/-- C19 (the code at the failing input): on the `nil` encoding `0xc0` of the empty
string, `unpack_c_string` into the three-byte target `x y z` succeeds and leaves
`0 y z`: only the first byte is cleared. On the zero-length `fixstr` encoding `0xa0`
the same target is left all zero. -/
theorem unpack_c_string_nil_keeps_tail (e : Endian) :
    packedString e [] = [0xc0]
      ∧ Unpacker.unpack_c_string e [0x78, 0x79, 0x7a] (Unpacker.ofSlice [0xc0]) =
          .ok ([0, 0x79, 0x7a], Unpacker.ofSlice [])
      ∧ Unpacker.unpack_c_string e [0x78, 0x79, 0x7a] (Unpacker.ofSlice [0xa0]) =
          .ok ([0, 0, 0], Unpacker.ofSlice []) := by
  cases e <;> exact ⟨rfl, rfl, rfl⟩

/-! ## Packs as sequences of writes -/

theorem PackResult.andThen_ok (p : Packer) (f : Packer → PackResult) :
    (PackResult.mk p none).andThen f = f p := rfl

theorem PackResult.andThen_assoc (r : PackResult) (f g : Packer → PackResult) :
    (r.andThen f).andThen g = r.andThen fun q => (f q).andThen g := by
  rcases r with ⟨p, _ | err⟩ <;> rfl

theorem Packer.writeChunks_append (cs ds : List (List Nat)) (p : Packer) :
    p.writeChunks (cs ++ ds) = (p.writeChunks cs).andThen (Packer.writeChunks ds) := by
  induction cs generalizing p with
  | nil => rfl
  | cons c cs ih =>
    simp only [List.cons_append, Packer.writeChunks, PackResult.andThen_assoc]
    congr 1
    funext q
    exact ih q

theorem Packer.writeChunks_singleton (c : List Nat) (p : Packer) :
    p.writeChunks [c] = p.write c := by
  simp only [Packer.writeChunks]
  rcases p.write c with ⟨q, _ | err⟩ <;> rfl

theorem Packer.writeChunks_pair (c d : List Nat) (p : Packer) :
    p.writeChunks [c, d] = (p.write c).andThen fun q => q.write d := by
  simp only [Packer.writeChunks]
  congr 1
  funext q
  exact Packer.writeChunks_singleton d q

theorem Packer.writeChunks_appends (cs : List (List Nat)) (p : Packer)
    (h : p.HasRoom cs.flatten.length) : (p.writeChunks cs).Appends p cs.flatten := by
  induction cs generalizing p with
  | nil => simp [Packer.writeChunks, PackResult.Appends]
  | cons c cs ih =>
    have hc : p.HasRoom c.length := by
      rcases h with h | h
      · exact Or.inl h
      · exact Or.inr (by simp only [List.flatten_cons, List.length_append] at h; omega)
    have h1 := p.write_appends c hc
    have h2 := ih (p.write c).packer
      (p.write_hasRoom c _ (by simpa only [List.flatten_cons, List.length_append] using h))
    unfold PackResult.Appends at *
    simp only [Packer.writeChunks, PackResult.andThen, h1.1]
    refine ⟨h2.1, ?_⟩
    rw [h2.2, h1.2, List.flatten_cons, List.append_assoc]

theorem Packer.writeChunks_mkDynamic (cs : List (List Nat)) :
    (Packer.mkDynamic.writeChunks cs).error = none
      ∧ (Packer.mkDynamic.writeChunks cs).packer.data = cs.flatten := by
  have h := Packer.writeChunks_appends cs Packer.mkDynamic (Or.inl rfl)
  exact ⟨h.1, by rw [h.2]; rfl⟩

theorem Packer.write_static_fail (p : Packer) (c : List Nat) (hs : p.type = .STATIC)
    (h : p.staticPacker.remaining < c.length) : p.write c = ⟨p, some .noSpace⟩ := by
  rcases p with ⟨sp, dp, ty⟩
  cases hs
  simp only [Packer.write, PackerStatic.write]
  rw [if_pos h]

theorem Packer.write_static_ok (p : Packer) (c : List Nat) (hs : p.type = .STATIC)
    (h : ¬ p.staticPacker.remaining < c.length) :
    (p.write c).error = none ∧ (p.write c).packer.type = .STATIC
      ∧ (p.write c).packer.staticPacker.remaining = p.staticPacker.remaining - c.length
      ∧ (p.write c).packer.data = p.data ++ c := by
  rcases p with ⟨sp, dp, ty⟩
  cases hs
  simp only [Packer.write, PackerStatic.write]
  rw [if_neg h]
  exact ⟨rfl, rfl, rfl, rfl⟩

/-- A sequence of writes that does not fit a fixed sink stops at the first chunk that
does not fit: the no-space exception is raised, the chunks before it are in the
buffer, and if already the first chunk does not fit the Packer is untouched. -/
theorem Packer.writeChunks_static_fail (cs : List (List Nat)) (p : Packer)
    (hs : p.type = .STATIC) (h : p.staticPacker.remaining < cs.flatten.length) :
    (p.writeChunks cs).FailsPartway p cs.flatten
      ∧ (∀ c rest, cs = c :: rest → p.staticPacker.remaining < c.length →
          p.writeChunks cs = ⟨p, some .noSpace⟩) := by
  induction cs generalizing p with
  | nil => simp at h
  | cons c cs ih =>
    by_cases hc : p.staticPacker.remaining < c.length
    · have hw := p.write_static_fail c hs hc
      have hr : p.writeChunks (c :: cs) = ⟨p, some .noSpace⟩ := by
        simp only [Packer.writeChunks, hw]
        rfl
      refine ⟨?_, fun _ _ _ _ => hr⟩
      rw [hr]
      refine ⟨rfl, [], ⟨List.nil_prefix, ?_⟩, by simp⟩
      intro hnil
      rw [← hnil] at h
      simp at h
    · obtain ⟨w1, w2, w3, w4⟩ := p.write_static_ok c hs hc
      have hrem : (p.write c).packer.staticPacker.remaining < cs.flatten.length := by
        rw [w3]
        simp only [List.flatten_cons, List.length_append] at h
        omega
      obtain ⟨⟨f1, pre, f2, f3⟩, -⟩ := ih (p.write c).packer w2 hrem
      have hr : p.writeChunks (c :: cs) = (p.write c).packer.writeChunks cs := by
        simp only [Packer.writeChunks, PackResult.andThen, w1]
      refine ⟨?_, ?_⟩
      · rw [hr]
        refine ⟨f1, c ++ pre, ⟨?_, ?_⟩, ?_⟩
        · rw [List.flatten_cons]
          exact (List.prefix_append_right_inj c).mpr f2.1
        · rw [List.flatten_cons]
          intro heq
          exact f2.2 (List.append_cancel_left heq)
        · rw [f3, w4, List.append_assoc]
      · intro c' rest heq hlt
        cases heq
        exact absurd hlt hc

theorem WritesChunks.packed {f : Packer → PackResult} {cs : List (List Nat)}
    (h : WritesChunks f cs) : (f Packer.mkDynamic).packer.data = cs.flatten := by
  rw [h Packer.mkDynamic]
  exact (Packer.writeChunks_mkDynamic cs).2

theorem WritesChunks.appends {f : Packer → PackResult} {cs : List (List Nat)}
    (h : WritesChunks f cs) (p : Packer) (hroom : p.HasRoom cs.flatten.length) :
    (f p).Appends p cs.flatten := by
  rw [h p]
  exact Packer.writeChunks_appends cs p hroom

theorem WritesChunks.fails {f : Packer → PackResult} {cs : List (List Nat)}
    (h : WritesChunks f cs) (p : Packer) (hs : p.type = .STATIC)
    (hlt : p.staticPacker.remaining < (f Packer.mkDynamic).packer.data.length) :
    (f p).FailsPartway p (f Packer.mkDynamic).packer.data := by
  rw [h.packed] at hlt ⊢
  rw [h p]
  exact (Packer.writeChunks_static_fail cs p hs hlt).1

theorem WritesChunks.fails_single {f : Packer → PackResult} {c : List Nat}
    (h : WritesChunks f [c]) (p : Packer) (hs : p.type = .STATIC)
    (hlt : p.staticPacker.remaining < (f Packer.mkDynamic).packer.data.length) :
    f p = ⟨p, some .noSpace⟩ := by
  rw [h.packed] at hlt
  rw [h p]
  exact (Packer.writeChunks_static_fail [c] p hs hlt).2 c [] rfl (by simpa using hlt)

/-! ## The element loops -/

theorem intLoop_wrapped (size fuel : Nat) (h : size < 2 ^ 63) :
    Packer.intLoop size fuel (-2 ^ 31) = [] := by
  cases fuel with
  | zero => rfl
  | succ fuel =>
    have hc : ¬ IntType.uint64.conv (-2 ^ 31) < (size : Int) := by
      simp [IntType.conv, IntType.isSigned, IntType.bits, IntType.sizeof]
      omega
    simp only [Packer.intLoop, hc, if_false]

theorem intLoop_eq (size : Nat) (h : size < 2 ^ 63) (fuel i : Nat) (hi : i < 2 ^ 31) :
    Packer.intLoop size fuel (i : Int) = List.range' i (min fuel (min size (2 ^ 31) - i)) := by
  induction fuel generalizing i with
  | zero => simp [Packer.intLoop]
  | succ fuel ih =>
    have hc : IntType.uint64.conv (i : Int) = (i : Int) := by
      simp [IntType.conv, IntType.isSigned, IntType.bits, IntType.sizeof]
      omega
    simp only [Packer.intLoop, hc, Int.toNat_ofNat, Nat.cast_lt]
    by_cases hlt : i < size
    · rw [if_pos hlt]
      by_cases hnext : i + 1 < 2 ^ 31
      · have hw : IntType.int32.conv ((i : Int) + 1) = ((i + 1 : Nat) : Int) := by
          simp [IntType.conv, IntType.isSigned, IntType.bits, IntType.sizeof]
          omega
        rw [hw, ih (i + 1) hnext]
        have hk : min (fuel + 1) (min size (2 ^ 31) - i) =
            min fuel (min size (2 ^ 31) - (i + 1)) + 1 := by omega
        rw [hk, List.range'_succ]
      · have hw : IntType.int32.conv ((i : Int) + 1) = -2 ^ 31 := by
          simp [IntType.conv, IntType.isSigned, IntType.bits, IntType.sizeof]
          omega
        rw [hw, intLoop_wrapped size fuel h]
        have hk : min (fuel + 1) (min size (2 ^ 31) - i) = 1 := by omega
        rw [hk]
        rfl
    · rw [if_neg hlt]
      have hk : min (fuel + 1) (min size (2 ^ 31) - i) = 0 := by omega
      rw [hk]
      rfl

/-- The loop `for(int i=0; i<size; i++)` visits the indices below `size` only as far
as `2 ^ 31 - 1`, the largest `int`. -/
theorem intIndices_eq (size : Nat) (h : size < 2 ^ 63) :
    Packer.intIndices size = List.range (min size (2 ^ 31)) := by
  have := intLoop_eq size h size 0 (by norm_num)
  simp only [Nat.cast_zero, Nat.sub_zero] at this
  rw [Packer.intIndices, this, List.range_eq_range']
  congr 1
  omega

theorem take_min_length {α : Type} (l : List α) (m : Nat) :
    l.take (min l.length m) = l.take m := by
  rcases Nat.le_total l.length m with h | h
  · rw [Nat.min_eq_left h, List.take_of_length_le (le_refl _), List.take_of_length_le h]
  · rw [Nat.min_eq_right h]

theorem Packer.forEach_range' {α : Type} (packElem : α → Packer → PackResult)
    (enc : α → List (List Nat)) (henc : ∀ x, WritesChunks (packElem x) (enc x))
    (data : List α) (k i : Nat) (p : Packer) :
    Packer.forEach (Packer.packAt packElem data) (List.range' i k) p =
      p.writeChunks (((data.drop i).take k).flatMap enc) := by
  induction k generalizing i p with
  | zero => simp [Packer.forEach, Packer.writeChunks]
  | succ k ih =>
    rw [List.range'_succ]
    simp only [Packer.forEach]
    have hih : Packer.forEach (Packer.packAt packElem data) (List.range' (i + 1) k) =
        Packer.writeChunks (((data.drop (i + 1)).take k).flatMap enc) := by
      funext q
      exact ih (i + 1) q
    rw [hih]
    by_cases hlt : i < data.length
    · have hget : data[i]? = some data[i] := List.getElem?_eq_getElem hlt
      have hdrop : data.drop i = data[i] :: data.drop (i + 1) := List.drop_eq_getElem_cons hlt
      simp only [Packer.packAt, hget, hdrop, List.take_succ_cons, List.flatMap_cons,
        henc data[i] p, Packer.writeChunks_append]
    · have hget : data[i]? = none := List.getElem?_eq_none (by omega)
      have hd1 : data.drop i = [] := List.drop_eq_nil_of_le (by omega)
      have hd2 : data.drop (i + 1) = [] := List.drop_eq_nil_of_le (by omega)
      simp only [Packer.packAt, hget, hd1, hd2, List.take_nil, List.flatMap_nil,
        Packer.writeChunks, PackResult.andThen]

theorem fixarray_byte (e : Endian) (n : Nat) (h : n ≤ 15) :
    objectRepr e .uint8
        (((IntType.uint8.conv (n : Int)).toNat ||| detail.MP_FIXARRAY : Nat) : Int) =
      [0x90 ||| n]
    ∧ objectRepr e .uint8
        (((IntType.uint8.conv (n : Int)).toNat ||| detail.MP_FIXMAP : Nat) : Int) =
      [0x80 ||| n] := by
  interval_cases n <;> cases e <;> decide

theorem pack_array_header_eq (e : Endian) (n : Nat) (p : Packer) (hn : n ≤ 2 ^ 32 - 1) :
    p.pack_array_header e n = p.write (specArrayHeader e n) := by
  unfold Packer.pack_array_header specArrayHeader
  simp only [detail.MAX_4BIT, detail.MAX_16BIT, detail.MAX_32BIT, detail.MP_ARRAY16,
    detail.MP_ARRAY32, Packer.writeValue, Packer.writeTagged]
  by_cases h1 : n ≤ 15
  · simp only [h1, if_true, (fixarray_byte e n h1).1]
  simp only [h1, if_false]
  by_cases h2 : n ≤ 65535
  · simp only [h2, if_true]
    rw [objectRepr_of_nat e .uint16 n (by
      simp [IntType.InRange, IntType.min, IntType.max, IntType.isSigned, IntType.bits,
        IntType.sizeof]; omega)]
    rfl
  simp only [h2, if_false]
  have h3 : n ≤ 4294967295 := by omega
  simp only [h3, if_true]
  rw [objectRepr_of_nat e .uint32 n (by
    simp [IntType.InRange, IntType.min, IntType.max, IntType.isSigned, IntType.bits,
      IntType.sizeof]; omega)]
  rfl

theorem pack_map_header_eq (e : Endian) (n : Nat) (p : Packer) (hn : n ≤ 2 ^ 32 - 1) :
    p.pack_map_header e n = p.write (specMapHeader e n) := by
  unfold Packer.pack_map_header specMapHeader
  simp only [detail.MAX_4BIT, detail.MAX_16BIT, detail.MAX_32BIT, detail.MP_MAP16,
    detail.MP_MAP32, Packer.writeValue, Packer.writeTagged]
  by_cases h1 : n ≤ 15
  · simp only [h1, if_true, (fixarray_byte e n h1).2]
  simp only [h1, if_false]
  by_cases h2 : n ≤ 65535
  · simp only [h2, if_true]
    rw [objectRepr_of_nat e .uint16 n (by
      simp [IntType.InRange, IntType.min, IntType.max, IntType.isSigned, IntType.bits,
        IntType.sizeof]; omega)]
    rfl
  simp only [h2, if_false]
  have h3 : n ≤ 4294967295 := by omega
  simp only [h3, if_true]
  rw [objectRepr_of_nat e .uint32 n (by
    simp [IntType.InRange, IntType.min, IntType.max, IntType.isSigned, IntType.bits,
      IntType.sizeof]; omega)]
  rfl

theorem pack_array_too_long {α : Type} (e : Endian) (packElem : α → Packer → PackResult)
    (data : List α) (p : Packer) (hn : ¬ data.length ≤ 2 ^ 32 - 1) :
    p.pack_array e packElem data = ⟨p, some .arraySizeOverflow⟩ := by
  unfold Packer.pack_array Packer.pack_array_header
  simp only [detail.MAX_4BIT, detail.MAX_16BIT, detail.MAX_32BIT]
  rw [if_neg (by omega), if_neg (by omega), if_neg (by omega)]
  rfl

/-- The pointer overload of `pack_array` as a sequence of writes: the length header,
then the chunks of the elements that the `int` counter reaches. -/
theorem pack_array_writes {α : Type} (e : Endian) (packElem : α → Packer → PackResult)
    (enc : α → List (List Nat)) (henc : ∀ x, WritesChunks (packElem x) (enc x))
    (data : List α) (hn : data.length ≤ 2 ^ 32 - 1) :
    WritesChunks (Packer.pack_array e packElem data)
      (specArrayHeader e data.length :: (data.take (2 ^ 31)).flatMap enc) := by
  intro p
  have hidx : Packer.intIndices data.length = List.range' 0 (min data.length (2 ^ 31)) := by
    rw [intIndices_eq data.length (by omega), List.range_eq_range']
  have hloop := Packer.forEach_range' packElem enc henc data (min data.length (2 ^ 31)) 0
  simp only [List.drop_zero, take_min_length] at hloop
  simp only [Packer.pack_array, pack_array_header_eq e data.length p hn, hidx,
    Packer.writeChunks]
  congr 1
  funext q
  exact hloop q

/-- The `std::vector<bool>` overload of `pack_array` as a sequence of writes: the
length header, then one byte for every element. -/
theorem pack_array_bool_writes (e : Endian) (ref : List Bool) (hn : ref.length ≤ 2 ^ 32 - 1) :
    WritesChunks (Packer.pack_array_bool e ref)
      (specArrayHeader e ref.length :: ref.flatMap fun b => [[if b then 0xc3 else 0xc2]]) := by
  intro p
  have henc : ∀ b : Bool, WritesChunks (Packer.pack_boolean e b) [[if b then 0xc3 else 0xc2]] := by
    intro b q
    rw [Packer.writeChunks_singleton]
    cases b
    · simp only [Packer.pack_boolean, Bool.false_eq_true, if_false, Packer.writeValue,
        (true_false_bytes e).2]
    · simp only [Packer.pack_boolean, if_true, Packer.writeValue, (true_false_bytes e).1]
  have hloop := Packer.forEach_range' (Packer.pack_boolean e) _ henc ref ref.length 0
  simp only [List.drop_zero, List.take_length] at hloop
  simp only [Packer.pack_array_bool, pack_array_header_eq e ref.length p hn,
    Packer.sizeIndices, List.range_eq_range', Packer.writeChunks]
  congr 1
  funext q
  exact hloop q

theorem Packer.packPairs_writes {K V : Type} (packKey : K → Packer → PackResult)
    (packVal : V → Packer → PackResult) (encK : K → List (List Nat)) (encV : V → List (List Nat))
    (hK : ∀ k, WritesChunks (packKey k) (encK k)) (hV : ∀ v, WritesChunks (packVal v) (encV v))
    (ref : List (K × V)) (p : Packer) :
    Packer.packPairs packKey packVal ref p =
      p.writeChunks (ref.flatMap fun kv => encK kv.1 ++ encV kv.2) := by
  induction ref generalizing p with
  | nil => rfl
  | cons kv rest ih =>
    have hih : Packer.packPairs packKey packVal rest =
        Packer.writeChunks (rest.flatMap fun kv => encK kv.1 ++ encV kv.2) := by
      funext q
      exact ih q
    have hV' : packVal kv.2 = Packer.writeChunks (encV kv.2) := by
      funext q
      exact hV kv.2 q
    simp only [Packer.packPairs, List.flatMap_cons, Packer.writeChunks_append, hK kv.1 p, hV',
      hih]

/-- The method `pack_map` as a sequence of writes: the length header, then for every
entry the chunks of its key and of its value. -/
theorem pack_map_writes {K V : Type} (e : Endian) (packKey : K → Packer → PackResult)
    (packVal : V → Packer → PackResult) (encK : K → List (List Nat)) (encV : V → List (List Nat))
    (hK : ∀ k, WritesChunks (packKey k) (encK k)) (hV : ∀ v, WritesChunks (packVal v) (encV v))
    (ref : List (K × V)) (hn : ref.length ≤ 2 ^ 32 - 1) :
    WritesChunks (Packer.pack_map e packKey packVal ref)
      (specMapHeader e ref.length :: ref.flatMap fun kv => encK kv.1 ++ encV kv.2) := by
  intro p
  simp only [Packer.pack_map, pack_map_header_eq e ref.length p hn, Packer.writeChunks]
  congr 1
  funext q
  exact Packer.packPairs_writes packKey packVal encK encV hK hV ref q

theorem pack_integral_writes (e : Endian) (T : IntType) (v : Int) :
    WritesChunks (Packer.pack_integral e T v) [packedIntegral e T v] := by
  intro p
  rw [Packer.writeChunks_singleton]
  unfold packedIntegral Packer.pack_integral
  split_ifs <;>
    simp only [Packer.writeValue, Packer.writeTagged, Packer.mkDynamic_write_data]

theorem pack_boolean_writes (e : Endian) (b : Bool) :
    WritesChunks (Packer.pack_boolean e b) [[if b then 0xc3 else 0xc2]] := by
  intro q
  rw [Packer.writeChunks_singleton]
  cases b
  · simp only [Packer.pack_boolean, Bool.false_eq_true, if_false, Packer.writeValue,
      (true_false_bytes e).2]
  · simp only [Packer.pack_boolean, if_true, Packer.writeValue, (true_false_bytes e).1]

theorem pack_string_writes (e : Endian) (s : List Nat) (hlen : s.length ≤ 2 ^ 32 - 1) :
    ∃ cs, WritesChunks (Packer.pack_string e s) cs := by
  by_cases h0 : s.length = 0
  · refine ⟨[[0xc0]], fun p => ?_⟩
    rw [pack_string_eq e s p hlen, if_pos h0, Packer.writeChunks_singleton]
  by_cases h1 : s.length ≤ 31
  · refine ⟨[[0xa0 ||| s.length], s], fun p => ?_⟩
    rw [pack_string_eq e s p hlen, if_neg h0, if_pos h1, Packer.writeChunks_pair]
  by_cases h2 : s.length ≤ 255
  · refine ⟨[0xd9 :: hostBytes e 1 s.length, s], fun p => ?_⟩
    rw [pack_string_eq e s p hlen, if_neg h0, if_neg h1, if_pos h2, Packer.writeChunks_pair]
  by_cases h3 : s.length ≤ 65535
  · refine ⟨[0xda :: hostBytes e 2 s.length, s], fun p => ?_⟩
    rw [pack_string_eq e s p hlen, if_neg h0, if_neg h1, if_neg h2, if_pos h3,
      Packer.writeChunks_pair]
  · refine ⟨[0xdb :: hostBytes e 4 s.length, s], fun p => ?_⟩
    rw [pack_string_eq e s p hlen, if_neg h0, if_neg h1, if_neg h2, if_neg h3,
      Packer.writeChunks_pair]

theorem pack_binary_writes (e : Endian) (bs : List Nat) (hlen : bs.length ≤ 2 ^ 32 - 1) :
    ∃ cs, WritesChunks (Packer.pack_binary e bs) cs := by
  by_cases h2 : bs.length ≤ 255
  · refine ⟨[0xc4 :: hostBytes e 1 bs.length, bs], fun p => ?_⟩
    rw [pack_binary_eq e bs p hlen, if_pos h2, Packer.writeChunks_pair]
  by_cases h3 : bs.length ≤ 65535
  · refine ⟨[0xc5 :: hostBytes e 2 bs.length, bs], fun p => ?_⟩
    rw [pack_binary_eq e bs p hlen, if_neg h2, if_pos h3, Packer.writeChunks_pair]
  · refine ⟨[0xc6 :: hostBytes e 4 bs.length, bs], fun p => ?_⟩
    rw [pack_binary_eq e bs p hlen, if_neg h2, if_neg h3, Packer.writeChunks_pair]

/-! ## A fixed sink that runs out of room -/

/-- C12 (as amended): for every Packer `p` over a fixed-capacity buffer, in any state,
and every value whose encoding is longer than the room left, `pack` throws the
no-space exception and keeps every byte `p` held. An integer or a boolean, written
by one `write`, leaves the Packer exactly as it was. A string, a byte array, a
sequence or a map (with elements packed by writes) leaves the old bytes followed by a
strict prefix of the encoding: the writes that still fitted. -/
theorem fixed_sink_overflow (e : Endian) (p : Packer) (hs : p.type = .STATIC) :
    (∀ (T : IntType) (v : Int), p.staticPacker.remaining < (packedIntegral e T v).length →
        p.pack_integral e T v = ⟨p, some .noSpace⟩)
      ∧ (∀ b : Bool, p.staticPacker.remaining < 1 → p.pack_boolean e b = ⟨p, some .noSpace⟩)
      ∧ (∀ s : List Nat, s.length ≤ 2 ^ 32 - 1 →
          p.staticPacker.remaining < (packedString e s).length →
          (p.pack_string e s).FailsPartway p (packedString e s))
      ∧ (∀ bs : List Nat, bs.length ≤ 2 ^ 32 - 1 →
          p.staticPacker.remaining < (packedBinary e bs).length →
          (p.pack_binary e bs).FailsPartway p (packedBinary e bs))
      ∧ (∀ (α : Type) (packElem : α → Packer → PackResult) (data : List α),
          (∀ x, ∃ cs, WritesChunks (packElem x) cs) → data.length ≤ 2 ^ 32 - 1 →
          p.staticPacker.remaining <
            (Packer.mkDynamic.pack_array e packElem data).packer.data.length →
          (p.pack_array e packElem data).FailsPartway p
            (Packer.mkDynamic.pack_array e packElem data).packer.data)
      ∧ (∀ ref : List Bool, ref.length ≤ 2 ^ 32 - 1 →
          p.staticPacker.remaining < (Packer.mkDynamic.pack_array_bool e ref).packer.data.length →
          (p.pack_array_bool e ref).FailsPartway p
            (Packer.mkDynamic.pack_array_bool e ref).packer.data)
      ∧ (∀ (K V : Type) (packKey : K → Packer → PackResult) (packVal : V → Packer → PackResult)
          (ref : List (K × V)),
          (∀ k, ∃ cs, WritesChunks (packKey k) cs) → (∀ v, ∃ cs, WritesChunks (packVal v) cs) →
          ref.length ≤ 2 ^ 32 - 1 →
          p.staticPacker.remaining <
            (Packer.mkDynamic.pack_map e packKey packVal ref).packer.data.length →
          (p.pack_map e packKey packVal ref).FailsPartway p
            (Packer.mkDynamic.pack_map e packKey packVal ref).packer.data) := by
  refine ⟨?_, ?_, ?_, ?_, ?_, ?_, ?_⟩
  · intro T v h
    exact (pack_integral_writes e T v).fails_single p hs h
  · intro b h
    have hw := pack_boolean_writes e b
    exact hw.fails_single p hs (by rw [hw.packed]; simpa using h)
  · intro s hlen h
    obtain ⟨cs, hw⟩ := pack_string_writes e s hlen
    exact hw.fails p hs h
  · intro bs hlen h
    obtain ⟨cs, hw⟩ := pack_binary_writes e bs hlen
    exact hw.fails p hs h
  · intro α packElem data helem hlen h
    choose enc henc using helem
    exact (pack_array_writes e packElem enc henc data hlen).fails p hs h
  · intro ref hlen h
    exact (pack_array_bool_writes e ref hlen).fails p hs h
  · intro K V packKey packVal ref hK hV hlen h
    choose encK hencK using hK
    choose encV hencV using hV
    exact (pack_map_writes e packKey packVal encK encV hencK hencV ref hlen).fails p hs h

theorem fixed_sink_overflow_witness :
    (Packer.mkStatic 1).pack_integral .little .uint16 300 =
        ⟨Packer.mkStatic 1, some .noSpace⟩
      ∧ ((Packer.mkStatic 2).pack_string .little [0x61, 0x62, 0x63]).error = some .noSpace
      ∧ ((Packer.mkStatic 3).pack_array .little (Packer.pack_integral .little .uint16)
            [1, 2, 300]).error = some .noSpace :=
  ⟨(fixed_sink_overflow .little (Packer.mkStatic 1) rfl).1 .uint16 300 (by decide),
   ((fixed_sink_overflow .little (Packer.mkStatic 2) rfl).2.2.1 [0x61, 0x62, 0x63]
      (by decide) (by decide)).1,
   ((fixed_sink_overflow .little (Packer.mkStatic 3) rfl).2.2.2.2.1 Int
      (Packer.pack_integral .little .uint16) [1, 2, 300]
      (fun x => ⟨_, pack_integral_writes .little .uint16 x⟩) (by decide) (by decide)).1⟩

/-- C12 (counterexample): packing the three-byte string `abc`, whose encoding takes
four bytes, into an empty fixed buffer of capacity 2 throws the no-space exception
after the header byte `0xa3` has been written: `size()` is 1 and not 0 afterwards. -/
theorem fixed_sink_string_partial_write :
    (Packer.mkStatic 2).size = 0 ∧ (Packer.mkStatic 2).data = []
      ∧ (packedString .little [0x61, 0x62, 0x63]).length = 4
      ∧ ((Packer.mkStatic 2).pack_string .little [0x61, 0x62, 0x63]).error = some .noSpace
      ∧ ((Packer.mkStatic 2).pack_string .little [0x61, 0x62, 0x63]).packer.size = 1
      ∧ ((Packer.mkStatic 2).pack_string .little [0x61, 0x62, 0x63]).packer.data = [0xa3]
      ∧ ¬ (((Packer.mkStatic 2).pack_string .little [0x61, 0x62, 0x63]).packer.size =
            (Packer.mkStatic 2).size
          ∧ ((Packer.mkStatic 2).pack_string .little [0x61, 0x62, 0x63]).packer.data =
            (Packer.mkStatic 2).data) := by
  decide

/-! ## Arrays -/

theorem packedIntegral_uint16_zero (e : Endian) : packedIntegral e .uint16 0 = [0] := by
  cases e <;> rfl

theorem flatMap_replicate_singleton {α β : Type} (m : Nat) (x : α) (f : α → List (List β))
    (c : β) (hf : f x = [[c]]) :
    ((List.replicate m x).flatMap f).flatten = List.replicate m c := by
  induction m with
  | zero => rfl
  | succ m ih =>
    rw [List.replicate_succ, List.flatMap_cons, List.flatten_append, ih, hf]
    rfl

/-- What the pointer overload of `pack_array` produces for a sequence of `n` zeros of
type `uint16_t` when `n` exceeds `2 ^ 31`: the header announces `n` elements and only
`2 ^ 31` element bytes follow. -/
theorem pack_array_replicate (e : Endian) (n : Nat) (h1 : 2 ^ 31 < n) (h2 : n ≤ 2 ^ 32 - 1) :
    (Packer.mkDynamic.pack_array e (Packer.pack_integral e .uint16)
        (List.replicate n 0)).error = none
      ∧ (Packer.mkDynamic.pack_array e (Packer.pack_integral e .uint16)
        (List.replicate n 0)).packer.data =
          0xdd :: hostBytes e 4 n ++ List.replicate (2 ^ 31) 0 := by
  have hlen : (List.replicate n (0 : Int)).length ≤ 2 ^ 32 - 1 := by
    rw [List.length_replicate]; exact h2
  have hw := pack_array_writes e (Packer.pack_integral e .uint16)
    (fun v => [packedIntegral e .uint16 v]) (pack_integral_writes e .uint16)
    (List.replicate n 0) hlen
  have hhdr : specArrayHeader e n = 0xdd :: hostBytes e 4 n := by
    unfold specArrayHeader
    rw [if_neg (by omega), if_neg (by omega)]
  have htake : List.take (2 ^ 31) (List.replicate n (0 : Int)) = List.replicate (2 ^ 31) 0 := by
    rw [List.take_replicate, Nat.min_eq_left (le_of_lt h1)]
  have hbody := flatMap_replicate_singleton (2 ^ 31) (0 : Int)
    (fun v => [packedIntegral e .uint16 v]) 0
    (by show [packedIntegral e .uint16 0] = [[0]]; rw [packedIntegral_uint16_zero])
  rw [hw Packer.mkDynamic]
  obtain ⟨d1, d2⟩ := Packer.writeChunks_mkDynamic
    (specArrayHeader e (List.replicate n (0 : Int)).length ::
      (List.take (2 ^ 31) (List.replicate n (0 : Int))).flatMap
        fun v => [packedIntegral e .uint16 v])
  refine ⟨d1, ?_⟩
  rw [d2, List.flatten_cons, List.length_replicate, hhdr, htake, hbody]

/-- C13 (the code at the failing input): for a sequence of `2 ^ 31 + 1` elements of
type `uint16_t`, all zero, the pointer overload of `pack_array` writes the `array32`
header with the count `2 ^ 31 + 1` and then the encodings of only `2 ^ 31` elements:
its loop counter is an `int` and stops at the largest `int`. -/
theorem pack_array_int_counter (e : Endian) :
    (Packer.mkDynamic.pack_array e (Packer.pack_integral e .uint16)
        (List.replicate (2 ^ 31 + 1) 0)).error = none
      ∧ (Packer.mkDynamic.pack_array e (Packer.pack_integral e .uint16)
        (List.replicate (2 ^ 31 + 1) 0)).packer.data =
          0xdd :: hostBytes e 4 (2 ^ 31 + 1) ++ List.replicate (2 ^ 31) 0 :=
  pack_array_replicate e (2 ^ 31 + 1) (by norm_num) (by norm_num)

/-- The array encoding where the `int` counter suffices: for every sequence of at
most `2 ^ 31` elements packed by writes, the pointer overload of `pack_array` appends
the length header followed by the encodings of all elements in order. -/
theorem pack_array_encoding {α : Type} (e : Endian) (packElem : α → Packer → PackResult)
    (enc : α → List (List Nat)) (henc : ∀ x, WritesChunks (packElem x) (enc x))
    (data : List α) (p : Packer) (hn : data.length ≤ 2 ^ 31)
    (hroom : p.HasRoom (specArrayHeader e data.length ++ (data.flatMap enc).flatten).length) :
    (p.pack_array e packElem data).Appends p
      (specArrayHeader e data.length ++ (data.flatMap enc).flatten) := by
  have hw := pack_array_writes e packElem enc henc data (by omega)
  rw [List.take_of_length_le hn] at hw
  have h := hw.appends p (by rw [List.flatten_cons]; exact hroom)
  rw [List.flatten_cons] at h
  exact h

theorem flatMap_bool_bytes (ref : List Bool) :
    (ref.flatMap fun b => [[if b then 0xc3 else 0xc2]]).flatten =
      ref.map fun b => if b then (0xc3 : Nat) else 0xc2 := by
  induction ref with
  | nil => rfl
  | cons b rest ih =>
    rw [List.flatMap_cons, List.flatten_append, ih]
    rfl

/-- The array encoding of a `std::vector<bool>`: for every sequence of at most
`2 ^ 32 - 1` booleans the length header is followed by one byte per element, and a
longer sequence is refused with the array size-overflow error. -/
theorem pack_array_bool_encoding (e : Endian) (ref : List Bool) (p : Packer)
    (hroom : p.HasRoom ((specArrayHeader e ref.length).length + ref.length)) :
    if ref.length ≤ 2 ^ 32 - 1 then
      (p.pack_array_bool e ref).Appends p
        (specArrayHeader e ref.length ++ ref.map fun b => if b then 0xc3 else 0xc2)
    else p.pack_array_bool e ref = ⟨p, some .arraySizeOverflow⟩ := by
  by_cases hn : ref.length ≤ 2 ^ 32 - 1
  · rw [if_pos hn]
    have hw := pack_array_bool_writes e ref hn
    have hflat := flatMap_bool_bytes ref
    have h := hw.appends p (by
      rw [List.flatten_cons, hflat, List.length_append, List.length_map]; exact hroom)
    rw [List.flatten_cons, hflat] at h
    exact h
  · rw [if_neg hn]
    unfold Packer.pack_array_bool Packer.pack_array_header
    simp only [detail.MAX_4BIT, detail.MAX_16BIT, detail.MAX_32BIT]
    rw [if_neg (by omega), if_neg (by omega), if_neg (by omega)]
    rfl

/-- The two examples of the specification: three 16-bit integers are packed as
`0x93` and the three packed integers, twenty as `0xdc`, the 2-byte count 20 and the
twenty packed integers. -/
theorem pack_array_examples (e : Endian) :
    (Packer.mkDynamic.pack_array e (Packer.pack_integral e .uint16) [1, 300, 65535]).packer.data =
        0x93 :: (packedIntegral e .uint16 1 ++ packedIntegral e .uint16 300
          ++ packedIntegral e .uint16 65535)
      ∧ (Packer.mkDynamic.pack_array e (Packer.pack_integral e .int16)
          (List.replicate 20 (-2))).packer.data =
        0xdc :: (hostBytes e 2 20 ++ List.replicate 20 0xfe) := by
  cases e <;> exact ⟨by decide, by decide⟩

/-! ## Count headers -/

set_option maxRecDepth 100000 in
theorem fix_tag_facts : ∀ c < 16,
    (0x90 ||| c) < 256 ∧ (0x90 ||| c) &&& 0xf0 = 0x90 ∧ (0x90 ||| c) &&& 0x0f = c
      ∧ (0x80 ||| c) < 256 ∧ (0x80 ||| c) &&& 0xf0 = 0x80 ∧ (0x80 ||| c) &&& 0x0f = c := by
  decide

theorem Unpacker.read_count (e : Endian) (W : IntType) (c : Nat) (q : List Nat)
    (hc : W.InRange (c : Int)) :
    (match (Unpacker.ofSlice (hostBytes e W.sizeof c ++ q)).read e W with
      | .ok (v, u1) => (.ok (v.toNat, u1) : Except Error (Nat × Unpacker))
      | .error err => .error err) = .ok (c, Unpacker.ofSlice q) := by
  rw [← objectRepr_of_nat e W c hc, Unpacker.read_objectRepr, IntType.conv_eq_self hc]
  simp

/-- The first two steps of every array decoder on a well-formed header: the tag byte
is read and the count `c` is obtained, leaving the bytes after the header. -/
theorem Unpacker.array_header_steps (e : Endian) (hdr q : List Nat) (c : Nat)
    (h : IsArrayHeader e hdr c) :
    ∃ head u1, (Unpacker.ofSlice (hdr ++ q)).read e .uint8 = .ok (head, u1)
      ∧ Unpacker.readArrayCount e head.toNat u1 = .ok (c, Unpacker.ofSlice q) := by
  rcases h with ⟨hc, rfl⟩ | ⟨hc, rfl⟩ | ⟨hc, rfl⟩
  · obtain ⟨f1, f2, f3, -⟩ := fix_tag_facts c (by omega)
    refine ⟨_, _, Unpacker.read_head e _ _ f1, ?_⟩
    simp only [Int.toNat_ofNat, Unpacker.readArrayCount, detail.TYPE_4BIT, detail.MP_FIXARRAY,
      detail.VALUE_4BIT, f2, f3, if_true]
    rfl
  · refine ⟨_, _, Unpacker.read_head e 0xdc _ (by decide), ?_⟩
    have a1 : ¬ ((220 : Nat) &&& 240 = 144) := by decide
    simp only [Int.toNat_ofNat, Unpacker.readArrayCount, detail.TYPE_4BIT, detail.MP_FIXARRAY,
      detail.MP_ARRAY16, a1, if_false, if_true]
    exact Unpacker.read_count e .uint16 c q (by
      simp [IntType.InRange, IntType.min, IntType.max, IntType.isSigned, IntType.bits,
        IntType.sizeof]; omega)
  · refine ⟨_, _, Unpacker.read_head e 0xdd _ (by decide), ?_⟩
    have a1 : ¬ ((221 : Nat) &&& 240 = 144) := by decide
    simp only [Int.toNat_ofNat, Unpacker.readArrayCount, detail.TYPE_4BIT, detail.MP_FIXARRAY,
      detail.MP_ARRAY16, detail.MP_ARRAY32, a1, if_false, if_true, Nat.reduceEqDiff]
    exact Unpacker.read_count e .uint32 c q (by
      simp [IntType.InRange, IntType.min, IntType.max, IntType.isSigned, IntType.bits,
        IntType.sizeof]; omega)

theorem Unpacker.map_header_steps (e : Endian) (hdr q : List Nat) (c : Nat)
    (h : IsMapHeader e hdr c) :
    ∃ head u1, (Unpacker.ofSlice (hdr ++ q)).read e .uint8 = .ok (head, u1)
      ∧ Unpacker.readMapCount e head.toNat u1 = .ok (c, Unpacker.ofSlice q) := by
  rcases h with ⟨hc, rfl⟩ | ⟨hc, rfl⟩ | ⟨hc, rfl⟩
  · obtain ⟨-, -, -, f1, f2, f3⟩ := fix_tag_facts c (by omega)
    refine ⟨_, _, Unpacker.read_head e _ _ f1, ?_⟩
    simp only [Int.toNat_ofNat, Unpacker.readMapCount, detail.TYPE_4BIT, detail.MP_FIXMAP,
      detail.VALUE_4BIT, f2, f3, if_true]
    rfl
  · refine ⟨_, _, Unpacker.read_head e 0xde _ (by decide), ?_⟩
    have a1 : ¬ ((222 : Nat) &&& 240 = 128) := by decide
    simp only [Int.toNat_ofNat, Unpacker.readMapCount, detail.TYPE_4BIT, detail.MP_FIXMAP,
      detail.MP_MAP16, a1, if_false, if_true]
    exact Unpacker.read_count e .uint16 c q (by
      simp [IntType.InRange, IntType.min, IntType.max, IntType.isSigned, IntType.bits,
        IntType.sizeof]; omega)
  · refine ⟨_, _, Unpacker.read_head e 0xdf _ (by decide), ?_⟩
    have a1 : ¬ ((223 : Nat) &&& 240 = 128) := by decide
    simp only [Int.toNat_ofNat, Unpacker.readMapCount, detail.TYPE_4BIT, detail.MP_FIXMAP,
      detail.MP_MAP16, detail.MP_MAP32, a1, if_false, if_true, Nat.reduceEqDiff]
    exact Unpacker.read_count e .uint32 c q (by
      simp [IntType.InRange, IntType.min, IntType.max, IntType.isSigned, IntType.bits,
        IntType.sizeof]; omega)

theorem Unpacker.binary_header_steps (e : Endian) (hdr q : List Nat) (c : Nat)
    (h : IsBinaryHeader e hdr c) :
    ∃ head u1, (Unpacker.ofSlice (hdr ++ q)).read e .uint8 = .ok (head, u1)
      ∧ Unpacker.readBinaryLength e head.toNat u1 = .ok (c, Unpacker.ofSlice q) := by
  rcases h with ⟨hc, rfl⟩ | ⟨hc, rfl⟩ | ⟨hc, rfl⟩
  · refine ⟨_, _, Unpacker.read_head e 0xc4 _ (by decide), ?_⟩
    simp only [Int.toNat_ofNat, Unpacker.readBinaryLength, detail.MP_BIN8, if_true]
    exact Unpacker.read_count e .uint8 c q (by
      simp [IntType.InRange, IntType.min, IntType.max, IntType.isSigned, IntType.bits,
        IntType.sizeof]; omega)
  · refine ⟨_, _, Unpacker.read_head e 0xc5 _ (by decide), ?_⟩
    simp only [Int.toNat_ofNat, Unpacker.readBinaryLength, detail.MP_BIN8, detail.MP_BIN16,
      if_true, if_false, Nat.reduceEqDiff]
    exact Unpacker.read_count e .uint16 c q (by
      simp [IntType.InRange, IntType.min, IntType.max, IntType.isSigned, IntType.bits,
        IntType.sizeof]; omega)
  · refine ⟨_, _, Unpacker.read_head e 0xc6 _ (by decide), ?_⟩
    simp only [Int.toNat_ofNat, Unpacker.readBinaryLength, detail.MP_BIN8, detail.MP_BIN16,
      detail.MP_BIN32, if_true, if_false, Nat.reduceEqDiff]
    exact Unpacker.read_count e .uint32 c q (by
      simp [IntType.InRange, IntType.min, IntType.max, IntType.isSigned, IntType.bits,
        IntType.sizeof]; omega)

/-! ## Fixed-size targets -/

/-- The fixed-size byte target on a well-formed binary header declaring `c` bytes: a
length other than the size of the target is refused before anything is copied;
otherwise exactly `c` bytes are copied, if the input has them. -/
theorem Unpacker.unpack_binary_fixed_header (e : Endian) (buffer hdr q : List Nat) (c : Nat)
    (h : IsBinaryHeader e hdr c) :
    Unpacker.unpack_binary_fixed e buffer (Unpacker.ofSlice (hdr ++ q)) =
      if c ≠ buffer.length then .error (.binarySizeMismatch, buffer)
      else if q.length < c then .error (.noBytes, buffer)
      else .ok (q.take c, Unpacker.ofSlice (q.drop c)) := by
  obtain ⟨head, u1, h1, h2⟩ := Unpacker.binary_header_steps e hdr q c h
  simp only [Unpacker.unpack_binary_fixed, h1, h2, Unpacker.readBytes_ofSlice]
  by_cases hc : c = buffer.length
  · have hd : List.drop c buffer = [] := List.drop_eq_nil_of_le (by omega)
    by_cases hq : q.length < c <;> simp [hc, hq, hd] <;> simp [← hc, hq, hd]
  · simp [hc]

/-- The fixed-size array target on a well-formed array header declaring `c`
elements: a count other than the length of the target is refused before any element
is touched; otherwise the element loop runs. -/
theorem Unpacker.unpack_array_fixed_header {α : Type} (e : Endian)
    (unpackElem : α → Unpacker → UnpackResult α) (data : List α) (hdr q : List Nat) (c : Nat)
    (h : IsArrayHeader e hdr c) :
    Unpacker.unpack_array_fixed e unpackElem data (Unpacker.ofSlice (hdr ++ q)) =
      if c ≠ data.length then .error (.arraySizeMismatch, data)
      else Unpacker.forEach (Unpacker.unpackAt unpackElem) (Packer.intIndices data.length) data
        (Unpacker.ofSlice q) := by
  obtain ⟨head, u1, h1, h2⟩ := Unpacker.array_header_steps e hdr q c h
  simp only [Unpacker.unpack_array_fixed, h1, h2]

theorem take_succ_set {α : Type} (data : List α) (i : Nat) (x : α) (hi : i < data.length) :
    (data.set i x).take (i + 1) = data.take i ++ [x] := by
  rw [List.set_eq_take_append_cons_drop, if_pos hi]
  have hl : (data.take i).length = i := by rw [List.length_take]; omega
  rw [List.take_append_eq_append_take, hl, List.take_of_length_le (by omega)]
  simp

/-- The element loop over the indices `i, i+1, ...` on an input that holds the
encodings of the values `xs` one after the other: the elements from `i` on are
replaced by `xs`, and the input after the encodings is left. -/
theorem Unpacker.forEach_unpackAt_decodes {α : Type}
    (unpackElem : α → Unpacker → UnpackResult α) (dec : α → List Nat) (xs : List α)
    (hdec : ∀ x ∈ xs, ∀ old rest,
      unpackElem old (Unpacker.ofSlice (dec x ++ rest)) = .ok (x, Unpacker.ofSlice rest))
    (data : List α) (i : Nat) (rest : List Nat) (hi : i + xs.length ≤ data.length) :
    Unpacker.forEach (Unpacker.unpackAt unpackElem) (List.range' i xs.length) data
        (Unpacker.ofSlice (xs.flatMap dec ++ rest)) =
      .ok (data.take i ++ xs ++ data.drop (i + xs.length), Unpacker.ofSlice rest) := by
  induction xs generalizing i data with
  | nil => simp [Unpacker.forEach]
  | cons x xs ih =>
    have hlt : i < data.length := by simp only [List.length_cons] at hi; omega
    have hget : data[i]? = some data[i] := List.getElem?_eq_getElem hlt
    have hx := hdec x (List.mem_cons_self x xs) data[i] (xs.flatMap dec ++ rest)
    have hih := ih (fun y hy => hdec y (List.mem_cons_of_mem x hy)) (data.set i x) (i + 1)
      (by simp only [List.length_cons, List.length_set] at hi ⊢; omega)
    rw [List.length_cons, List.range'_succ, List.flatMap_cons, List.append_assoc]
    simp only [Unpacker.forEach, Unpacker.unpackAt, hget, hx, hih]
    rw [take_succ_set data i x hlt, List.drop_set_of_lt x data (by omega),
      show i + 1 + xs.length = i + (xs.length + 1) from by omega]
    simp only [List.append_assoc, List.singleton_append, List.cons_append, List.nil_append]

theorem flatMap_replicate_const {α β : Type} (m : Nat) (x : α) (c : β) :
    (List.replicate m x).flatMap (fun _ => [c]) = List.replicate m c := by
  induction m with
  | zero => rfl
  | succ m ih => rw [List.replicate_succ, List.flatMap_cons, ih]; rfl

/-- What the fixed-size array target does when it has `2 ^ 31 + k` elements and the
input holds that many encoded zeros: only the first `2 ^ 31` elements are unpacked. -/
theorem unpack_array_fixed_replicate (e : Endian) (k : Nat) (hk : 2 ^ 31 + k ≤ 2 ^ 32 - 1) :
    Unpacker.unpack_array_fixed e (Unpacker.onTarget (Unpacker.unpack_integral e .uint16))
        (List.replicate (2 ^ 31 + k) 7)
        (Unpacker.ofSlice
          (0xdd :: hostBytes e 4 (2 ^ 31 + k) ++ List.replicate (2 ^ 31 + k) 0)) =
      .ok (List.replicate (2 ^ 31) 0 ++ List.replicate k 7,
        Unpacker.ofSlice (List.replicate k 0)) := by
  have hhdr : IsArrayHeader e (0xdd :: hostBytes e 4 (2 ^ 31 + k)) (2 ^ 31 + k) :=
    Or.inr (Or.inr ⟨hk, rfl⟩)
  have hdec : ∀ x ∈ List.replicate (2 ^ 31) (0 : Int), ∀ (old : Int) (rest : List Nat),
      Unpacker.onTarget (Unpacker.unpack_integral e .uint16) old
          (Unpacker.ofSlice ((fun _ => [0]) x ++ rest)) = .ok (x, Unpacker.ofSlice rest) := by
    intro x hx old rest
    rw [List.eq_of_mem_replicate hx]
    simp only [Unpacker.onTarget, List.singleton_append,
      Unpacker.unpack_integral_cons e .uint16 0 rest (by decide)]
    rfl
  have hloop := Unpacker.forEach_unpackAt_decodes
    (Unpacker.onTarget (Unpacker.unpack_integral e .uint16)) (fun _ => [0])
    (List.replicate (2 ^ 31) (0 : Int)) hdec (List.replicate (2 ^ 31 + k) 7) 0
    (List.replicate k 0) (by rw [List.length_replicate, List.length_replicate]; omega)
  rw [List.length_replicate, flatMap_replicate_const, List.append_replicate_replicate,
    List.take_zero, List.nil_append, Nat.zero_add, List.drop_replicate,
    Nat.add_sub_cancel_left] at hloop
  have hidx : Packer.intIndices (2 ^ 31 + k) = List.range' 0 (2 ^ 31) := by
    rw [intIndices_eq (2 ^ 31 + k) (by omega), List.range_eq_range',
      Nat.min_eq_right (Nat.le_add_right _ _)]
  rw [List.cons_append,
    show (221 : Nat) :: (hostBytes e 4 (2 ^ 31 + k) ++ List.replicate (2 ^ 31 + k) 0) =
      (0xdd :: hostBytes e 4 (2 ^ 31 + k)) ++ List.replicate (2 ^ 31 + k) 0 from rfl,
    Unpacker.unpack_array_fixed_header e _ _ _ _ _ hhdr, List.length_replicate,
    if_neg (by simp), hidx, hloop]

/-- C15 (the code at the failing input): a fixed-size target of `2 ^ 31 + 1` elements
of type `uint16_t`, all 7, is unpacked from a well-formed `array32` header declaring
`2 ^ 31 + 1` elements followed by that many encoded zeros. The call succeeds, having
decoded `2 ^ 31` elements: the last element still holds 7 and one input byte is left
unread, because the loop counter is an `int`. -/
theorem unpack_array_fixed_int_counter (e : Endian) :
    Unpacker.unpack_array_fixed e (Unpacker.onTarget (Unpacker.unpack_integral e .uint16))
        (List.replicate (2 ^ 31 + 1) 7)
        (Unpacker.ofSlice
          (0xdd :: hostBytes e 4 (2 ^ 31 + 1) ++ List.replicate (2 ^ 31 + 1) 0)) =
      .ok (List.replicate (2 ^ 31) 0 ++ [7], Unpacker.ofSlice [0]) :=
  unpack_array_fixed_replicate e 1 (by norm_num)

/-! ## Maps -/

theorem mapFind_mapAssign {K V : Type} [LinearOrder K] (k k' : K) (v : V) (m : List (K × V)) :
    mapFind k (mapAssign k' v m) = if k = k' then some v else mapFind k m := by
  induction m with
  | nil =>
    by_cases h : k = k'
    · simp [mapAssign, mapFind, h]
    · simp [mapAssign, mapFind, h, Ne.symm h]
  | cons ab rest ih =>
    obtain ⟨a, b⟩ := ab
    simp only [mapAssign]
    by_cases h1 : k' < a
    · rw [if_pos h1]
      by_cases h : k = k'
      · simp [mapFind, h]
      · simp [mapFind, h, Ne.symm h]
    rw [if_neg h1]
    by_cases h2 : a < k'
    · rw [if_pos h2]
      by_cases ha : a = k
      · have hne : k ≠ k' := by rw [← ha]; exact ne_of_lt h2
        simp [mapFind, ha, hne]
      · have hrec : mapFind k ((a, b) :: mapAssign k' v rest) = mapFind k (mapAssign k' v rest) := by
          simp [mapFind, ha]
        have hold : mapFind k ((a, b) :: rest) = mapFind k rest := by
          simp [mapFind, ha]
        rw [hrec, ih, hold]
    · rw [if_neg h2]
      have hak : a = k' := le_antisymm (not_lt.mp h1) (not_lt.mp h2)
      by_cases h : k = k'
      · simp [mapFind, h, hak]
      · have ha : ¬ a = k := by rw [hak]; exact Ne.symm h
        simp [mapFind, h, ha]

/-- Assignments made one after the other: the last pair with key `k` decides the
value for `k`, and a key that no pair names keeps the value it had. -/
theorem mapFind_foldl_mapAssign {K V : Type} [LinearOrder K] (k : K) (pairs t : List (K × V)) :
    mapFind k (pairs.foldl (fun m kv => mapAssign kv.1 kv.2 m) t) =
      match lastValue k pairs with
      | some v => some v
      | none => mapFind k t := by
  induction pairs generalizing t with
  | nil => simp [lastValue, mapFind]
  | cons p ps ih =>
    rw [List.foldl_cons, ih, mapFind_mapAssign]
    have hlast : lastValue k (p :: ps) =
        match lastValue k ps with
        | some v => some v
        | none => if p.1 = k then some p.2 else none := by
      simp only [lastValue, mapFind, List.reverse_cons, List.find?_append]
      cases hf : List.find? (fun kv => decide (kv.1 = k)) ps.reverse with
      | some kv => simp
      | none =>
        by_cases hp : p.1 = k <;> simp [hp]
    rw [hlast]
    cases lastValue k ps with
    | some v => rfl
    | none =>
      by_cases hp : p.1 = k
      · simp [hp]
      · simp [hp, Ne.symm hp]

/-- The loop of `unpack_map` on an input that holds the encodings of the pairs one
after the other, where every key and value is decoded whatever the local it is
unpacked into held: the pairs are assigned to the target in order. -/
theorem Unpacker.unpackPairs_decodes {K V : Type} [LinearOrder K]
    (unpackKey : K → Unpacker → UnpackResult K) (unpackVal : V → Unpacker → UnpackResult V)
    (decK : K → List Nat) (decV : V → List Nat) (pairs : List (K × V))
    (hK : ∀ kv ∈ pairs, ∀ old rest,
      unpackKey old (Unpacker.ofSlice (decK kv.1 ++ rest)) = .ok (kv.1, Unpacker.ofSlice rest))
    (hV : ∀ kv ∈ pairs, ∀ old rest,
      unpackVal old (Unpacker.ofSlice (decV kv.2 ++ rest)) = .ok (kv.2, Unpacker.ofSlice rest))
    (t : List (K × V)) (key : K) (value : V) (rest : List Nat) :
    Unpacker.unpackPairs unpackKey unpackVal pairs.length t key value
        (Unpacker.ofSlice (pairs.flatMap (fun kv => decK kv.1 ++ decV kv.2) ++ rest)) =
      .ok (pairs.foldl (fun m kv => mapAssign kv.1 kv.2 m) t, Unpacker.ofSlice rest) := by
  induction pairs generalizing t key value with
  | nil => simp [Unpacker.unpackPairs]
  | cons p ps ih =>
    have h1 := hK p (List.mem_cons_self p ps) key
      (decV p.2 ++ (ps.flatMap (fun kv => decK kv.1 ++ decV kv.2) ++ rest))
    have h2 := hV p (List.mem_cons_self p ps) value
      (ps.flatMap (fun kv => decK kv.1 ++ decV kv.2) ++ rest)
    have hih := ih (fun kv hkv => hK kv (List.mem_cons_of_mem p hkv))
      (fun kv hkv => hV kv (List.mem_cons_of_mem p hkv)) (mapAssign p.1 p.2 t) p.1 p.2
    rw [List.length_cons, List.flatMap_cons, List.append_assoc, List.append_assoc]
    simp only [Unpacker.unpackPairs, h1, h2, hih, List.foldl_cons]

/-- Method `unpack_map` on a well-formed header for `pairs.length` pairs followed by
the encodings of the pairs: the pairs are assigned to the target in order. -/
theorem Unpacker.unpack_map_decodes {K V : Type} [LinearOrder K] (e : Endian)
    (unpackKey : K → Unpacker → UnpackResult K) (unpackVal : V → Unpacker → UnpackResult V)
    (decK : K → List Nat) (decV : V → List Nat) (pairs : List (K × V))
    (hK : ∀ kv ∈ pairs, ∀ old rest,
      unpackKey old (Unpacker.ofSlice (decK kv.1 ++ rest)) = .ok (kv.1, Unpacker.ofSlice rest))
    (hV : ∀ kv ∈ pairs, ∀ old rest,
      unpackVal old (Unpacker.ofSlice (decV kv.2 ++ rest)) = .ok (kv.2, Unpacker.ofSlice rest))
    (hdr : List Nat) (hhdr : IsMapHeader e hdr pairs.length)
    (key0 : K) (value0 : V) (t : List (K × V)) (rest : List Nat) :
    Unpacker.unpack_map e unpackKey unpackVal key0 value0 t
        (Unpacker.ofSlice
          (hdr ++ (pairs.flatMap (fun kv => decK kv.1 ++ decV kv.2) ++ rest))) =
      .ok (pairs.foldl (fun m kv => mapAssign kv.1 kv.2 m) t, Unpacker.ofSlice rest) := by
  obtain ⟨head, u1, h1, h2⟩ := Unpacker.map_header_steps e hdr
    (pairs.flatMap (fun kv => decK kv.1 ++ decV kv.2) ++ rest) pairs.length hhdr
  simp only [Unpacker.unpack_map, h1, h2]
  exact Unpacker.unpackPairs_decodes unpackKey unpackVal decK decV pairs hK hV t key0 value0
    rest

/-- C17: for every target mapping `t`, every well-formed map header declaring `n`
pairs and every input holding after it the encodings of `n` pairs `(k1, v1), ...,
(kn, vn)` of scalar keys and values (each decoded whatever the local it is unpacked
into held), `unpack_map` succeeds and leaves the target equal to `t` with `k1 := v1`,
..., `kn := vn` assigned in that order. Hence the last pair naming a key decides its
value, and an entry of `t` whose key no pair names keeps its value: the target is not
cleared. -/
theorem unpack_map_sequential {K V : Type} [LinearOrder K] (e : Endian)
    (unpackKey : K → Unpacker → UnpackResult K) (unpackVal : V → Unpacker → UnpackResult V)
    (decK : K → List Nat) (decV : V → List Nat) (pairs : List (K × V))
    (hK : ∀ kv ∈ pairs, ∀ old rest,
      unpackKey old (Unpacker.ofSlice (decK kv.1 ++ rest)) = .ok (kv.1, Unpacker.ofSlice rest))
    (hV : ∀ kv ∈ pairs, ∀ old rest,
      unpackVal old (Unpacker.ofSlice (decV kv.2 ++ rest)) = .ok (kv.2, Unpacker.ofSlice rest))
    (hdr : List Nat) (hhdr : IsMapHeader e hdr pairs.length)
    (key0 : K) (value0 : V) (t : List (K × V)) (rest : List Nat) :
    Unpacker.unpack_map e unpackKey unpackVal key0 value0 t
        (Unpacker.ofSlice
          (hdr ++ (pairs.flatMap (fun kv => decK kv.1 ++ decV kv.2) ++ rest))) =
      .ok (pairs.foldl (fun m kv => mapAssign kv.1 kv.2 m) t, Unpacker.ofSlice rest)
    ∧ (∀ k v, lastValue k pairs = some v →
        mapFind k (pairs.foldl (fun m kv => mapAssign kv.1 kv.2 m) t) = some v)
    ∧ (∀ k, (∀ kv ∈ pairs, kv.1 ≠ k) →
        mapFind k (pairs.foldl (fun m kv => mapAssign kv.1 kv.2 m) t) = mapFind k t) := by
  refine ⟨?_, ?_, ?_⟩
  · exact Unpacker.unpack_map_decodes e unpackKey unpackVal decK decV pairs hK hV hdr hhdr
      key0 value0 t rest
  · intro k v hlast
    rw [mapFind_foldl_mapAssign, hlast]
  · intro k hk
    have hnone : lastValue k pairs = none := by
      simp only [lastValue, mapFind, Option.map_eq_none', List.find?_eq_none, List.mem_reverse,
        decide_eq_true_eq]
      exact hk
    rw [mapFind_foldl_mapAssign, hnone]

theorem Unpacker.unpack_fixnum (e : Endian) (T : IntType) (n : Nat) (hn : n ≤ 127) (old : Int)
    (rest : List Nat) :
    Unpacker.onTarget (Unpacker.unpack_integral e T) old (Unpacker.ofSlice (n :: rest)) =
      .ok ((n : Int), Unpacker.ofSlice rest) := by
  have hin : T.InRange (n : Int) := by
    cases T <;>
      simp [IntType.InRange, IntType.min, IntType.max, IntType.isSigned, IntType.bits,
        IntType.sizeof] <;> omega
  simp only [Unpacker.onTarget, Unpacker.unpack_integral_cons e T n rest (by omega), if_pos hn,
    Nat.mod_eq_of_lt (show n < 128 by omega), IntType.conv_eq_self hin]

theorem unpack_map_sequential_witness :
    Unpacker.unpack_map .little (Unpacker.onTarget (Unpacker.unpack_integral .little .uint8))
        (Unpacker.onTarget (Unpacker.unpack_integral .little .uint8)) 0 0
        [(2, 99), (5, 55)] (Unpacker.ofSlice [0x83, 1, 10, 2, 20, 1, 30]) =
      .ok ([(1, 30), (2, 20), (5, 55)], Unpacker.ofSlice []) := by
  have h := (unpack_map_sequential .little
    (Unpacker.onTarget (Unpacker.unpack_integral .little .uint8))
    (Unpacker.onTarget (Unpacker.unpack_integral .little .uint8))
    (fun k => [k.toNat]) (fun v => [v.toNat]) [(1, 10), (2, 20), (1, 30)]
    (by
      intro kv hkv old rest
      simp only [List.mem_cons, List.mem_singleton, List.not_mem_nil, or_false] at hkv
      rcases hkv with rfl | rfl | rfl <;>
        exact Unpacker.unpack_fixnum .little .uint8 _ (by decide) old rest)
    (by
      intro kv hkv old rest
      simp only [List.mem_cons, List.mem_singleton, List.not_mem_nil, or_false] at hkv
      rcases hkv with rfl | rfl | rfl <;>
        exact Unpacker.unpack_fixnum .little .uint8 _ (by decide) old rest)
    [0x83] (Or.inl ⟨by decide, by decide⟩) 0 0 [(2, 99), (5, 55)] []).1
  exact h

theorem mapAssign_append {K V : Type} [LinearOrder K] (k : K) (v : V) (l : List (K × V))
    (h : ∀ kv ∈ l, kv.1 < k) : mapAssign k v l = l ++ [(k, v)] := by
  induction l with
  | nil => rfl
  | cons ab rest ih =>
    obtain ⟨a, b⟩ := ab
    have ha : a < k := h (a, b) (List.mem_cons_self _ _)
    simp only [mapAssign, if_neg (not_lt_of_gt ha), if_pos ha, List.cons_append]
    rw [ih fun kv hkv => h kv (List.mem_cons_of_mem _ hkv)]

/-- Assigning the entries of a map in key order rebuilds the map. -/
theorem foldl_mapAssign_sorted {K V : Type} [LinearOrder K] (ps t : List (K × V))
    (h : (t ++ ps).Pairwise fun a b => a.1 < b.1) :
    ps.foldl (fun m kv => mapAssign kv.1 kv.2 m) t = t ++ ps := by
  induction ps generalizing t with
  | nil => simp
  | cons p ps ih =>
    have hp : ∀ kv ∈ t, kv.1 < p.1 := by
      intro kv hkv
      exact (List.pairwise_append.mp h).2.2 kv hkv p (List.mem_cons_self _ _)
    rw [List.foldl_cons, mapAssign_append p.1 p.2 t hp, ih (t ++ [(p.1, p.2)])
      (by simpa using h)]
    simp

theorem flatten_flatMap_pairs {K V : Type} (encK : K → List (List Nat))
    (encV : V → List (List Nat)) (m : List (K × V)) :
    (m.flatMap fun kv => encK kv.1 ++ encV kv.2).flatten =
      m.flatMap fun kv => (encK kv.1).flatten ++ (encV kv.2).flatten := by
  induction m with
  | nil => rfl
  | cons p ps ih =>
    rw [List.flatMap_cons, List.flatMap_cons, List.flatten_append, List.flatten_append, ih]

theorem specMapHeader_isMapHeader (e : Endian) (n : Nat) (hn : n ≤ 2 ^ 32 - 1) :
    IsMapHeader e (specMapHeader e n) n := by
  unfold specMapHeader IsMapHeader
  split_ifs with h1 h2
  · exact Or.inl ⟨h1, rfl⟩
  · exact Or.inr (Or.inl ⟨h2, rfl⟩)
  · exact Or.inr (Or.inr ⟨hn, rfl⟩)

/-- The map round trip where it holds: for a map of fewer than `2 ^ 32` entries in
strict key order whose keys and values are packed by writes and are decoded from their
encodings whatever the local they are unpacked into held, unpacking the bytes
`pack_map` produced into an empty map yields the map and leaves no byte. -/
theorem map_roundtrip_scalar {K V : Type} [LinearOrder K] (e : Endian)
    (packKey : K → Packer → PackResult) (packVal : V → Packer → PackResult)
    (unpackKey : K → Unpacker → UnpackResult K) (unpackVal : V → Unpacker → UnpackResult V)
    (encK : K → List (List Nat)) (encV : V → List (List Nat))
    (hpK : ∀ k, WritesChunks (packKey k) (encK k)) (hpV : ∀ v, WritesChunks (packVal v) (encV v))
    (m : List (K × V))
    (hK : ∀ kv ∈ m, ∀ old rest,
      unpackKey old (Unpacker.ofSlice ((encK kv.1).flatten ++ rest)) =
        .ok (kv.1, Unpacker.ofSlice rest))
    (hV : ∀ kv ∈ m, ∀ old rest,
      unpackVal old (Unpacker.ofSlice ((encV kv.2).flatten ++ rest)) =
        .ok (kv.2, Unpacker.ofSlice rest))
    (hsorted : m.Pairwise fun a b => a.1 < b.1) (hlen : m.length ≤ 2 ^ 32 - 1)
    (key0 : K) (value0 : V) :
    packedMap e packKey packVal m =
        specMapHeader e m.length ++
          m.flatMap (fun kv => (encK kv.1).flatten ++ (encV kv.2).flatten)
      ∧ Unpacker.unpack_map e unpackKey unpackVal key0 value0 []
          (Unpacker.ofSlice (packedMap e packKey packVal m)) = .ok (m, Unpacker.ofSlice []) := by
  have hp : packedMap e packKey packVal m =
      specMapHeader e m.length ++
        m.flatMap (fun kv => (encK kv.1).flatten ++ (encV kv.2).flatten) := by
    rw [packedMap, (pack_map_writes e packKey packVal encK encV hpK hpV m hlen).packed,
      List.flatten_cons, flatten_flatMap_pairs]
  refine ⟨hp, ?_⟩
  have h := Unpacker.unpack_map_decodes e unpackKey unpackVal (fun k => (encK k).flatten)
    (fun v => (encV v).flatten) m hK hV (specMapHeader e m.length)
    (specMapHeader_isMapHeader e m.length hlen) key0 value0 [] []
  rw [List.append_nil] at h
  rw [hp, h, foldl_mapAssign_sorted m [] (by simpa using hsorted), List.nil_append]

/-- C16 (the code at the failing input): the map `{1: {1: 1}, 2: {2: 2}}` from bytes
to maps from bytes to bytes is packed as `82 01 81 01 01 02 81 02 02`, and unpacking
these bytes into an empty map succeeds with `{1: {1: 1}, 2: {1: 1, 2: 2}}`: the local
`value` of `unpack_map` is not cleared between pairs, so the second inner map also
receives the entry of the first. Besides, a map with the `int8_t` key -1 comes back
with the key -31. -/
theorem map_roundtrip_nested (e : Endian) :
    packedMap e (Packer.pack_integral e .uint8)
        (Packer.pack_map e (Packer.pack_integral e .uint8) (Packer.pack_integral e .uint8))
        [(1, [(1, 1)]), (2, [(2, 2)])] =
      [0x82, 0x01, 0x81, 0x01, 0x01, 0x02, 0x81, 0x02, 0x02]
    ∧ Unpacker.unpack_map e (Unpacker.onTarget (Unpacker.unpack_integral e .uint8))
        (Unpacker.unpack_map e (Unpacker.onTarget (Unpacker.unpack_integral e .uint8))
          (Unpacker.onTarget (Unpacker.unpack_integral e .uint8)) 0 0)
        0 [] []
        (Unpacker.ofSlice [0x82, 0x01, 0x81, 0x01, 0x01, 0x02, 0x81, 0x02, 0x02]) =
      .ok ([(1, [(1, 1)]), (2, [(1, 1), (2, 2)])], Unpacker.ofSlice [])
    ∧ packedMap e (Packer.pack_integral e .int8) (Packer.pack_integral e .int8) [(-1, 5)] =
      [0x81, 0xff, 0x05]
    ∧ Unpacker.unpack_map e (Unpacker.onTarget (Unpacker.unpack_integral e .int8))
        (Unpacker.onTarget (Unpacker.unpack_integral e .int8)) 0 0 []
        (Unpacker.ofSlice [0x81, 0xff, 0x05]) =
      .ok ([(-31, 5)], Unpacker.ofSlice []) := by
  cases e <;> exact ⟨by decide, rfl, by decide, rfl⟩

/-! ## Cursor discipline -/

theorem Unpacker.ofSlice_eq_within (bs : List Nat) :
    Unpacker.ofSlice bs = Unpacker.within bs [] := by
  simp [Unpacker.ofSlice, Unpacker.within]

theorem Unpacker.within_drop (bs junk : List Nat) (n : Nat) (h : n ≤ bs.length) :
    (⟨List.drop n (bs ++ junk), bs.length - n⟩ : Unpacker) =
      Unpacker.within (bs.drop n) junk := by
  simp only [Unpacker.within, Unpacker.init, List.length_drop]
  congr 1
  rw [List.drop_append_eq_append_drop, Nat.sub_eq_zero_of_le h, List.drop_zero]

theorem Unpacker.take_within (bs junk : List Nat) (n : Nat) (h : n ≤ bs.length) :
    List.take n (bs ++ junk) = bs.take n := by
  rw [List.take_append_eq_append_take, Nat.sub_eq_zero_of_le h, List.take_zero,
    List.append_nil]

theorem Framed.mono {ε α : Type} {a b : Nat} {f : Unpacker → Except ε (α × Unpacker)}
    (h : Framed a f) (hab : b ≤ a) : Framed b f := by
  intro bs
  obtain ⟨r, h1, h2⟩ := h bs
  exact ⟨r, fun v k hr => ⟨le_trans hab (h1 v k hr).1, (h1 v k hr).2⟩, h2⟩

theorem Framed.congr {ε α : Type} {a : Nat} {f g : Unpacker → Except ε (α × Unpacker)}
    (h : Framed a f) (hfg : ∀ u, g u = f u) : Framed a g := by
  have : g = f := funext hfg
  rw [this]
  exact h

theorem Framed.cursorSafe {ε α : Type} {f : Unpacker → Except ε (α × Unpacker)}
    (h : Framed 1 f) : CursorSafe f := by
  intro bs
  obtain ⟨r, h1, h2⟩ := h bs
  have h0 := h2 []
  rw [← Unpacker.ofSlice_eq_within] at h0
  rcases r with err | ⟨v, k⟩
  · refine ⟨fun v u' hv => ?_, fun junk => ?_⟩
    · rw [h0] at hv
      cases hv
    · rw [h2 junk, h0]
  · obtain ⟨hk1, hk2⟩ := h1 v k rfl
    refine ⟨fun v' u' hv => ?_, fun junk => ?_⟩
    · rw [h0] at hv
      simp only [Except.ok.injEq, Prod.mk.injEq] at hv
      obtain ⟨-, rfl⟩ := hv
      refine ⟨k, hk1, hk2, ?_, ?_⟩
      · simp [Unpacker.within, Unpacker.init]
      · simp [Unpacker.within, Unpacker.init]
    · rw [h2 junk, h0]
      simp [Unpacker.within, Unpacker.init]

theorem CursorSafe.framed {ε α : Type} {f : Unpacker → Except ε (α × Unpacker)}
    (h : CursorSafe f) : Framed 1 f := by
  intro bs
  obtain ⟨h1, h2⟩ := h bs
  cases hf : f (Unpacker.ofSlice bs) with
  | error err =>
    refine ⟨.error err, (fun v k hr => by cases hr), fun junk => ?_⟩
    rw [h2 junk, hf]
  | ok r =>
    obtain ⟨v, u'⟩ := r
    obtain ⟨k, hk1, hk2, hk3, -⟩ := h1 v u' hf
    refine ⟨.ok (v, k), fun v' k' hr => ?_, fun junk => ?_⟩
    · simp only [Except.ok.injEq, Prod.mk.injEq] at hr
      obtain ⟨-, rfl⟩ := hr
      exact ⟨hk1, hk2⟩
    · rw [h2 junk, hf]
      simp only [hk3]

theorem framed_ok {ε α : Type} (v : α) : Framed 0 (fun u => (.ok (v, u) : Except ε (α × Unpacker))) := by
  intro bs
  exact ⟨.ok (v, 0), fun v' k hr => by
    simp only [Except.ok.injEq, Prod.mk.injEq] at hr
    obtain ⟨-, rfl⟩ := hr
    exact ⟨le_refl _, Nat.zero_le _⟩, fun junk => by simp⟩

theorem framed_error {ε α : Type} (lo : Nat) (err : ε) :
    Framed lo (fun _ => (.error err : Except ε (α × Unpacker))) := by
  intro bs
  exact ⟨.error err, (fun v k hr => by cases hr), fun junk => rfl⟩

theorem framed_ite {ε α : Type} {lo : Nat} (c : Prop) [Decidable c]
    {f g : Unpacker → Except ε (α × Unpacker)} (hf : Framed lo f) (hg : Framed lo g) :
    Framed lo (fun u => if c then f u else g u) := by
  by_cases hc : c
  · simp only [hc, if_true]; exact hf
  · simp only [hc, if_false]; exact hg

theorem framed_read (e : Endian) (T : IntType) : Framed T.sizeof (Unpacker.read e T) := by
  intro bs
  by_cases hlt : bs.length < T.sizeof
  · refine ⟨.error .noBytes, (fun v k hr => by cases hr), fun junk => ?_⟩
    simp [Unpacker.read, Unpacker.within, Unpacker.init, hlt]
  · refine ⟨.ok (T.conv (hostValue e (bs.take T.sizeof)), T.sizeof), fun v k hr => ?_,
      fun junk => ?_⟩
    · simp only [Except.ok.injEq, Prod.mk.injEq] at hr
      obtain ⟨-, rfl⟩ := hr
      exact ⟨le_refl _, by omega⟩
    · simp only [Unpacker.read, Unpacker.within, Unpacker.init, hlt, if_false,
        Unpacker.take_within bs junk T.sizeof (by omega)]
      rw [Unpacker.within_drop bs junk T.sizeof (by omega)]
      rfl

theorem framed_readBytes (n : Nat) : Framed n (fun u => u.readBytes n) := by
  intro bs
  by_cases hlt : bs.length < n
  · refine ⟨.error .noBytes, (fun v k hr => by cases hr), fun junk => ?_⟩
    simp [Unpacker.readBytes, Unpacker.within, Unpacker.init, hlt]
  · refine ⟨.ok (bs.take n, n), fun v k hr => ?_, fun junk => ?_⟩
    · simp only [Except.ok.injEq, Prod.mk.injEq] at hr
      obtain ⟨-, rfl⟩ := hr
      exact ⟨le_refl _, by omega⟩
    · simp only [Unpacker.readBytes, Unpacker.within, Unpacker.init, hlt, if_false,
        Unpacker.take_within bs junk n (by omega)]
      rw [Unpacker.within_drop bs junk n (by omega)]
      rfl

theorem Framed.seq {ε ε' α β : Type} {a b : Nat} (h : ε → ε')
    {f : Unpacker → Except ε (α × Unpacker)} {g : α → Unpacker → Except ε' (β × Unpacker)}
    (hf : Framed a f) (hg : ∀ v, Framed b (g v)) : Framed (a + b) (Unpacker.seq h f g) := by
  intro bs
  obtain ⟨r1, f1, f2⟩ := hf bs
  rcases r1 with err | ⟨v, k⟩
  · refine ⟨.error (h err), (fun v k hr => by cases hr), fun junk => ?_⟩
    simp only [Unpacker.seq, f2 junk]
  · obtain ⟨hk1, hk2⟩ := f1 v k rfl
    obtain ⟨r2, g1, g2⟩ := hg v (bs.drop k)
    rcases r2 with err2 | ⟨w, k2⟩
    · refine ⟨.error err2, (fun v k hr => by cases hr), fun junk => ?_⟩
      simp only [Unpacker.seq, f2 junk, g2 junk]
    · obtain ⟨hk3, hk4⟩ := g1 w k2 rfl
      rw [List.length_drop] at hk4
      refine ⟨.ok (w, k + k2), fun v' k' hr => ?_, fun junk => ?_⟩
      · simp only [Except.ok.injEq, Prod.mk.injEq] at hr
        obtain ⟨-, rfl⟩ := hr
        exact ⟨by omega, by omega⟩
      · simp only [Unpacker.seq, f2 junk, g2 junk, List.drop_drop]

theorem framed_lengthField (e : Endian) (W : IntType) :
    Framed 0 (Unpacker.seq id (Unpacker.read e W)
      (fun v u1 => (.ok (v.toNat, u1) : Except Error (Nat × Unpacker)))) :=
  ((framed_read e W).mono (Nat.zero_le _)).seq id (fun _ => framed_ok _)

theorem framed_readStringLength (e : Endian) (head : Nat) :
    Framed 0 (Unpacker.readStringLength e head) := by
  have key : ∀ u, Unpacker.readStringLength e head u =
      (if head &&& detail.TYPE_3BIT = detail.MP_FIXSTR then .ok (head &&& detail.VALUE_5BIT, u)
       else if head = detail.MP_STR8 then
        Unpacker.seq id (Unpacker.read e .uint8) (fun v u1 => .ok (v.toNat, u1)) u
       else if head = detail.MP_STR16 then
        Unpacker.seq id (Unpacker.read e .uint16) (fun v u1 => .ok (v.toNat, u1)) u
       else if head = detail.MP_STR32 then
        Unpacker.seq id (Unpacker.read e .uint32) (fun v u1 => .ok (v.toNat, u1)) u
       else .error .invalidType) := by
    intro u
    unfold Unpacker.readStringLength Unpacker.seq Unpacker.read
    split_ifs <;> rfl
  exact Framed.congr
    (framed_ite _ (framed_ok _) (framed_ite _ (framed_lengthField e .uint8)
      (framed_ite _ (framed_lengthField e .uint16)
        (framed_ite _ (framed_lengthField e .uint32) (framed_error 0 _))))) key

theorem framed_readBinaryLength (e : Endian) (head : Nat) :
    Framed 0 (Unpacker.readBinaryLength e head) := by
  have key : ∀ u, Unpacker.readBinaryLength e head u =
      (if head = detail.MP_BIN8 then
        Unpacker.seq id (Unpacker.read e .uint8) (fun v u1 => .ok (v.toNat, u1)) u
       else if head = detail.MP_BIN16 then
        Unpacker.seq id (Unpacker.read e .uint16) (fun v u1 => .ok (v.toNat, u1)) u
       else if head = detail.MP_BIN32 then
        Unpacker.seq id (Unpacker.read e .uint32) (fun v u1 => .ok (v.toNat, u1)) u
       else .error .invalidType) := by
    intro u
    unfold Unpacker.readBinaryLength Unpacker.seq Unpacker.read
    split_ifs <;> rfl
  exact Framed.congr
    (framed_ite _ (framed_lengthField e .uint8)
      (framed_ite _ (framed_lengthField e .uint16)
        (framed_ite _ (framed_lengthField e .uint32) (framed_error 0 _)))) key

theorem framed_readArrayCount (e : Endian) (head : Nat) :
    Framed 0 (Unpacker.readArrayCount e head) := by
  have key : ∀ u, Unpacker.readArrayCount e head u =
      (if head &&& detail.TYPE_4BIT = detail.MP_FIXARRAY then
        .ok (head &&& detail.VALUE_4BIT, u)
       else if head = detail.MP_ARRAY16 then
        Unpacker.seq id (Unpacker.read e .uint16) (fun v u1 => .ok (v.toNat, u1)) u
       else if head = detail.MP_ARRAY32 then
        Unpacker.seq id (Unpacker.read e .uint32) (fun v u1 => .ok (v.toNat, u1)) u
       else .error .invalidType) := by
    intro u
    unfold Unpacker.readArrayCount Unpacker.seq Unpacker.read
    split_ifs <;> rfl
  exact Framed.congr
    (framed_ite _ (framed_ok _) (framed_ite _ (framed_lengthField e .uint16)
      (framed_ite _ (framed_lengthField e .uint32) (framed_error 0 _)))) key

theorem framed_readMapCount (e : Endian) (head : Nat) :
    Framed 0 (Unpacker.readMapCount e head) := by
  have key : ∀ u, Unpacker.readMapCount e head u =
      (if head &&& detail.TYPE_4BIT = detail.MP_FIXMAP then
        .ok (head &&& detail.VALUE_4BIT, u)
       else if head = detail.MP_MAP16 then
        Unpacker.seq id (Unpacker.read e .uint16) (fun v u1 => .ok (v.toNat, u1)) u
       else if head = detail.MP_MAP32 then
        Unpacker.seq id (Unpacker.read e .uint32) (fun v u1 => .ok (v.toNat, u1)) u
       else .error .invalidType) := by
    intro u
    unfold Unpacker.readMapCount Unpacker.seq Unpacker.read
    split_ifs <;> rfl
  exact Framed.congr
    (framed_ite _ (framed_ok _) (framed_ite _ (framed_lengthField e .uint16)
      (framed_ite _ (framed_lengthField e .uint32) (framed_error 0 _)))) key

theorem framed_readExplicit (e : Endian) (head : Nat) :
    Framed 0 (Unpacker.readExplicit e head) := by
  have hU : ∀ W, Framed 0 (Unpacker.seq id (Unpacker.read e W)
      (fun v u1 => (.ok ((IntType.uint64.conv v, 0, Unpacker.ValKind.U), u1) :
        Except Error ((Int × Int × Unpacker.ValKind) × Unpacker)))) :=
    fun W => ((framed_read e W).mono (Nat.zero_le _)).seq id (fun _ => framed_ok _)
  have hS : ∀ W, Framed 0 (Unpacker.seq id (Unpacker.read e W)
      (fun v u1 => (.ok ((0, IntType.int64.conv v, Unpacker.ValKind.S), u1) :
        Except Error ((Int × Int × Unpacker.ValKind) × Unpacker)))) :=
    fun W => ((framed_read e W).mono (Nat.zero_le _)).seq id (fun _ => framed_ok _)
  have key : ∀ u, Unpacker.readExplicit e head u =
      (if head = detail.MP_UINT8 then
        Unpacker.seq id (Unpacker.read e .uint8)
          (fun v u1 => .ok ((IntType.uint64.conv v, 0, Unpacker.ValKind.U), u1)) u
       else if head = detail.MP_UINT16 then
        Unpacker.seq id (Unpacker.read e .uint16)
          (fun v u1 => .ok ((IntType.uint64.conv v, 0, Unpacker.ValKind.U), u1)) u
       else if head = detail.MP_UINT32 then
        Unpacker.seq id (Unpacker.read e .uint32)
          (fun v u1 => .ok ((IntType.uint64.conv v, 0, Unpacker.ValKind.U), u1)) u
       else if head = detail.MP_UINT64 then
        Unpacker.seq id (Unpacker.read e .uint64)
          (fun v u1 => .ok ((IntType.uint64.conv v, 0, Unpacker.ValKind.U), u1)) u
       else if head = detail.MP_INT8 then
        Unpacker.seq id (Unpacker.read e .int8)
          (fun v u1 => .ok ((0, IntType.int64.conv v, Unpacker.ValKind.S), u1)) u
       else if head = detail.MP_INT16 then
        Unpacker.seq id (Unpacker.read e .int16)
          (fun v u1 => .ok ((0, IntType.int64.conv v, Unpacker.ValKind.S), u1)) u
       else if head = detail.MP_INT32 then
        Unpacker.seq id (Unpacker.read e .int32)
          (fun v u1 => .ok ((0, IntType.int64.conv v, Unpacker.ValKind.S), u1)) u
       else if head = detail.MP_INT64 then
        Unpacker.seq id (Unpacker.read e .int64)
          (fun v u1 => .ok ((0, IntType.int64.conv v, Unpacker.ValKind.S), u1)) u
       else .error .invalidType) := by
    intro u
    unfold Unpacker.readExplicit Unpacker.seq
    split_ifs <;> first | rfl | (unfold Unpacker.read; split_ifs <;> rfl)
  exact Framed.congr
    (framed_ite _ (hU .uint8) (framed_ite _ (hU .uint16) (framed_ite _ (hU .uint32)
      (framed_ite _ (hU .uint64) (framed_ite _ (hS .int8) (framed_ite _ (hS .int16)
        (framed_ite _ (hS .int32) (framed_ite _ (hS .int64) (framed_error 0 _))))))))) key

theorem framed_head {ε β : Type} (e : Endian) (h : Error → ε)
    {g : Int → Unpacker → Except ε (β × Unpacker)} (hg : ∀ head, Framed 0 (g head)) :
    Framed 1 (Unpacker.seq h (Unpacker.read e .uint8) g) :=
  (framed_read e .uint8).seq h hg

theorem framed_unpack_integral (e : Endian) (T : IntType) :
    Framed 1 (Unpacker.unpack_integral e T) := by
  have hcr : ∀ r : Int × Int × Unpacker.ValKind, Framed 0 (fun u2 =>
      match Unpacker.checkRange T r.1 r.2.1 r.2.2 with
      | .error err => (.error err : Except Error (Int × Unpacker))
      | .ok ref => .ok (ref, u2)) := by
    intro r
    cases Unpacker.checkRange T r.1 r.2.1 r.2.2 with
    | error err => exact framed_error 0 err
    | ok ref => exact framed_ok ref
  have key : ∀ u, Unpacker.unpack_integral e T u =
      Unpacker.seq id (Unpacker.read e .uint8) (fun head u1 =>
        if head.toNat &&& detail.TYPE_1BIT = detail.MP_FIXNUM then
          .ok (T.conv ((head.toNat &&& detail.VALUE_7BIT : Nat) : Int), u1)
        else if head.toNat &&& detail.TYPE_3BIT = detail.MP_NEGATIVE_FIXNUM then
          .ok (T.conv (-((head.toNat &&& detail.VALUE_5BIT : Nat) : Int)), u1)
        else
          Unpacker.seq id (Unpacker.readExplicit e head.toNat) (fun r u2 =>
            match Unpacker.checkRange T r.1 r.2.1 r.2.2 with
            | .error err => .error err
            | .ok ref => .ok (ref, u2)) u1) u := by
    intro u
    unfold Unpacker.unpack_integral Unpacker.seq
    cases u.read e .uint8 with
    | error err => rfl
    | ok r =>
      obtain ⟨head, u1⟩ := r
      simp only []
      split_ifs
      · rfl
      · rfl
      · cases Unpacker.readExplicit e head.toNat u1 with
        | error err => rfl
        | ok r2 =>
          obtain ⟨⟨a, b, c⟩, u2⟩ := r2
          rfl
  exact Framed.congr
    (framed_head e id (fun head => framed_ite _ (framed_ok _) (framed_ite _ (framed_ok _)
      ((framed_readExplicit e head.toNat).seq id hcr)))) key

theorem framed_unpack_boolean (e : Endian) : Framed 1 (Unpacker.unpack_boolean e) := by
  have key : ∀ u, Unpacker.unpack_boolean e u =
      Unpacker.seq id (Unpacker.read e .uint8) (fun head u1 =>
        if head.toNat = detail.MP_TRUE then .ok (true, u1)
        else if head.toNat = detail.MP_FALSE then .ok (false, u1)
        else .error .invalidType) u := by
    intro u
    unfold Unpacker.unpack_boolean Unpacker.seq
    cases u.read e .uint8 with
    | error err => rfl
    | ok r => rfl
  exact Framed.congr
    (framed_head e id (fun head => framed_ite _ (framed_ok _) (framed_ite _ (framed_ok _)
      (framed_error 0 _)))) key

theorem framed_unpack_string (e : Endian) (ref : List Nat) :
    Framed 1 (Unpacker.unpack_string e ref) := by
  have key : ∀ u, Unpacker.unpack_string e ref u =
      Unpacker.seq id (Unpacker.read e .uint8) (fun head u1 =>
        if head.toNat = detail.MP_NIL then .ok (ref.take 0, u1)
        else
          Unpacker.seq id (Unpacker.readStringLength e head.toNat)
            (fun length u2 => u2.readBytes length) u1) u := by
    intro u
    unfold Unpacker.unpack_string Unpacker.seq
    cases u.read e .uint8 with
    | error err => rfl
    | ok r =>
      obtain ⟨head, u1⟩ := r
      simp only []
      split_ifs
      · rfl
      · cases Unpacker.readStringLength e head.toNat u1 with
        | error err => rfl
        | ok r2 =>
          obtain ⟨length, u2⟩ := r2
          simp only [Unpacker.consume, Unpacker.readBytes]
          split_ifs <;> rfl
  exact Framed.congr
    (framed_head e id (fun head => framed_ite _ (framed_ok _)
      ((framed_readStringLength e head.toNat).seq id
        (fun length => (framed_readBytes length).mono (Nat.zero_le _))))) key

theorem framed_onTarget {α : Type} {lo : Nat} {f : Unpacker → Except Error (α × Unpacker)}
    (hf : Framed lo f) (ref : α) : Framed lo (Unpacker.onTarget f ref) := by
  have key : ∀ u, Unpacker.onTarget f ref u =
      Unpacker.seq (fun err => (err, ref)) f (fun v u1 => .ok (v, u1)) u := by
    intro u
    unfold Unpacker.onTarget Unpacker.seq
    cases f u with
    | error err => rfl
    | ok r => rfl
  exact Framed.congr (hf.seq _ (fun _ => framed_ok _)) key

theorem framed_payload (length : Nat) (ptr tail : List Nat) :
    Framed 0 (Unpacker.seq (fun err => (err, ptr)) (fun u => u.readBytes length)
      (fun bytes u3 => (.ok (bytes ++ tail, u3) : UnpackResult (List Nat)))) :=
  ((framed_readBytes length).mono (Nat.zero_le _)).seq _ (fun _ => framed_ok _)

theorem framed_unpack_c_string (e : Endian) (ptr : List Nat) :
    Framed 1 (Unpacker.unpack_c_string e ptr) := by
  have key : ∀ u, Unpacker.unpack_c_string e ptr u =
      Unpacker.seq (fun err => (err, ptr)) (Unpacker.read e .uint8) (fun head u1 =>
        if head.toNat = detail.MP_NIL then .ok (ptr.set 0 0, u1)
        else
          Unpacker.seq (fun err => (err, ptr)) (Unpacker.readStringLength e head.toNat)
            (fun length u2 =>
              if length > ptr.length then .error (.stringBufferOverflow, ptr)
              else
                Unpacker.seq
                  (fun err => (err, ptr.take length ++ List.replicate (ptr.length - length) 0))
                  (fun u => u.readBytes length)
                  (fun bytes u3 => .ok (bytes ++
                    (ptr.take length ++ List.replicate (ptr.length - length) 0).drop length,
                    u3)) u2) u1) u := by
    intro u
    unfold Unpacker.unpack_c_string Unpacker.seq
    cases u.read e .uint8 with
    | error err => rfl
    | ok r =>
      obtain ⟨head, u1⟩ := r
      simp only []
      split_ifs
      · rfl
      · cases Unpacker.readStringLength e head.toNat u1 with
        | error err => rfl
        | ok r2 =>
          obtain ⟨length, u2⟩ := r2
          simp only []
          split_ifs
          · rfl
          · cases u2.readBytes length with
            | error err => rfl
            | ok r3 => rfl
  exact Framed.congr
    (framed_head e _ (fun head => framed_ite _ (framed_ok _)
      ((framed_readStringLength e head.toNat).seq _
        (fun length => framed_ite _ (framed_error 0 _) (framed_payload length _ _))))) key

theorem framed_unpack_binary_fixed (e : Endian) (buffer : List Nat) :
    Framed 1 (Unpacker.unpack_binary_fixed e buffer) := by
  have key : ∀ u, Unpacker.unpack_binary_fixed e buffer u =
      Unpacker.seq (fun err => (err, buffer)) (Unpacker.read e .uint8) (fun head u1 =>
        Unpacker.seq (fun err => (err, buffer)) (Unpacker.readBinaryLength e head.toNat)
          (fun length u2 =>
            if length ≠ buffer.length then .error (.binarySizeMismatch, buffer)
            else
              Unpacker.seq (fun err => (err, buffer)) (fun u => u.readBytes length)
                (fun bytes u3 => .ok (bytes ++ buffer.drop length, u3)) u2) u1) u := by
    intro u
    unfold Unpacker.unpack_binary_fixed Unpacker.seq
    cases u.read e .uint8 with
    | error err => rfl
    | ok r =>
      obtain ⟨head, u1⟩ := r
      simp only []
      cases Unpacker.readBinaryLength e head.toNat u1 with
      | error err => rfl
      | ok r2 =>
        obtain ⟨length, u2⟩ := r2
        simp only []
        split_ifs
        · rfl
        · cases u2.readBytes length with
          | error err => rfl
          | ok r3 => rfl
  exact Framed.congr
    (framed_head e _ (fun head => (framed_readBinaryLength e head.toNat).seq _
      (fun length => framed_ite _ (framed_error 0 _) (framed_payload length _ _)))) key

theorem framed_unpack_binary (e : Endian) (ref : List Nat) :
    Framed 1 (Unpacker.unpack_binary e ref) := by
  have key : ∀ u, Unpacker.unpack_binary e ref u =
      Unpacker.seq (fun err => (err, ref)) (Unpacker.read e .uint8) (fun head u1 =>
        Unpacker.seq (fun err => (err, ref)) (Unpacker.readBinaryLength e head.toNat)
          (fun length u2 =>
            Unpacker.seq (fun err => (err, resize ref length 0)) (fun u => u.readBytes length)
              (fun bytes u3 => .ok (bytes ++ (resize ref length 0).drop length, u3)) u2) u1) u := by
    intro u
    unfold Unpacker.unpack_binary Unpacker.seq
    cases u.read e .uint8 with
    | error err => rfl
    | ok r =>
      obtain ⟨head, u1⟩ := r
      simp only []
      cases Unpacker.readBinaryLength e head.toNat u1 with
      | error err => rfl
      | ok r2 =>
        obtain ⟨length, u2⟩ := r2
        simp only []
        cases u2.readBytes length with
        | error err => rfl
        | ok r3 => rfl
  exact Framed.congr
    (framed_head e _ (fun head => (framed_readBinaryLength e head.toNat).seq _
      (fun length => framed_payload length _ _))) key

theorem framed_forEach {τ : Type} (body : Nat → τ → Unpacker → UnpackResult τ)
    (hb : ∀ i t, Framed 0 (body i t)) :
    ∀ (idx : List Nat) (t : τ), Framed 0 (Unpacker.forEach body idx t) := by
  intro idx
  induction idx with
  | nil =>
    intro t
    exact Framed.congr (framed_ok t) (fun u => rfl)
  | cons i is ih =>
    intro t
    have key : ∀ u, Unpacker.forEach body (i :: is) t u =
        Unpacker.seq id (body i t) (fun t1 => Unpacker.forEach body is t1) u := by
      intro u
      simp only [Unpacker.forEach, Unpacker.seq]
      cases body i t u with
      | error err => rfl
      | ok r => rfl
    exact Framed.congr ((hb i t).seq id ih) key

theorem framed_unpackAt {α : Type} (unpackElem : α → Unpacker → UnpackResult α)
    (he : ∀ x, Framed 0 (unpackElem x)) (i : Nat) (data : List α) :
    Framed 0 (Unpacker.unpackAt unpackElem i data) := by
  cases hx : data[i]? with
  | none =>
    refine Framed.congr (framed_ok data) (fun u => ?_)
    simp only [Unpacker.unpackAt, hx]
  | some x =>
    have key : ∀ u, Unpacker.unpackAt unpackElem i data u =
        Unpacker.seq (fun r => (r.1, data.set i r.2)) (unpackElem x)
          (fun x1 u1 => .ok (data.set i x1, u1)) u := by
      intro u
      simp only [Unpacker.unpackAt, hx, Unpacker.seq]
      cases unpackElem x u with
      | error err => rfl
      | ok r => rfl
    exact Framed.congr ((he x).seq _ (fun _ => framed_ok _)) key

theorem framed_unpack_array_fixed {α : Type} (e : Endian)
    (unpackElem : α → Unpacker → UnpackResult α) (he : ∀ x, Framed 0 (unpackElem x))
    (data : List α) : Framed 1 (Unpacker.unpack_array_fixed e unpackElem data) := by
  have key : ∀ u, Unpacker.unpack_array_fixed e unpackElem data u =
      Unpacker.seq (fun err => (err, data)) (Unpacker.read e .uint8) (fun head u1 =>
        Unpacker.seq (fun err => (err, data)) (Unpacker.readArrayCount e head.toNat)
          (fun elements u2 =>
            if elements ≠ data.length then .error (.arraySizeMismatch, data)
            else
              Unpacker.forEach (Unpacker.unpackAt unpackElem) (Packer.intIndices data.length)
                data u2) u1) u := by
    intro u
    unfold Unpacker.unpack_array_fixed Unpacker.seq
    cases u.read e .uint8 with
    | error err => rfl
    | ok r =>
      obtain ⟨head, u1⟩ := r
      simp only []
      cases Unpacker.readArrayCount e head.toNat u1 with
      | error err => rfl
      | ok r2 => rfl
  exact Framed.congr
    (framed_head e _ (fun head => (framed_readArrayCount e head.toNat).seq _
      (fun elements => framed_ite _ (framed_error 0 _)
        (framed_forEach _ (framed_unpackAt unpackElem he) _ _)))) key

theorem framed_unpack_array {α : Type} (e : Endian)
    (unpackElem : α → Unpacker → UnpackResult α) (he : ∀ x, Framed 0 (unpackElem x))
    (dflt : α) (ref : List α) : Framed 1 (Unpacker.unpack_array e unpackElem dflt ref) := by
  have key : ∀ u, Unpacker.unpack_array e unpackElem dflt ref u =
      Unpacker.seq (fun err => (err, ref)) (Unpacker.read e .uint8) (fun head u1 =>
        Unpacker.seq (fun err => (err, ref)) (Unpacker.readArrayCount e head.toNat)
          (fun elements u2 =>
            Unpacker.forEach (Unpacker.unpackAt unpackElem) (Packer.sizeIndices elements)
              (resize ref elements dflt) u2) u1) u := by
    intro u
    unfold Unpacker.unpack_array Unpacker.seq
    cases u.read e .uint8 with
    | error err => rfl
    | ok r =>
      obtain ⟨head, u1⟩ := r
      simp only []
      cases Unpacker.readArrayCount e head.toNat u1 with
      | error err => rfl
      | ok r2 => rfl
  exact Framed.congr
    (framed_head e _ (fun head => (framed_readArrayCount e head.toNat).seq _
      (fun elements => framed_forEach _ (framed_unpackAt unpackElem he) _ _))) key

theorem framed_unpack_array_bool (e : Endian) (ref : List Bool) :
    Framed 1 (Unpacker.unpack_array_bool e ref) := by
  have hbody : ∀ (i : Nat) (t : List Bool), Framed 0 (fun u =>
      match Unpacker.unpack_boolean e u with
      | .ok (value, u1) => (.ok (t.set i value, u1) : UnpackResult (List Bool))
      | .error err => .error (err, t)) := by
    intro i t
    have key : ∀ u, (match Unpacker.unpack_boolean e u with
        | .ok (value, u1) => (.ok (t.set i value, u1) : UnpackResult (List Bool))
        | .error err => .error (err, t)) =
        Unpacker.seq (fun err => (err, t)) (Unpacker.unpack_boolean e)
          (fun value u1 => .ok (t.set i value, u1)) u := by
      intro u
      unfold Unpacker.seq
      cases Unpacker.unpack_boolean e u with
      | error err => rfl
      | ok r => rfl
    exact Framed.congr
      (((framed_unpack_boolean e).mono (Nat.zero_le _)).seq _ (fun _ => framed_ok _)) key
  have key : ∀ u, Unpacker.unpack_array_bool e ref u =
      Unpacker.seq (fun err => (err, ref)) (Unpacker.read e .uint8) (fun head u1 =>
        Unpacker.seq (fun err => (err, ref)) (Unpacker.readArrayCount e head.toNat)
          (fun elements u2 =>
            Unpacker.forEach
              (fun i t u =>
                match Unpacker.unpack_boolean e u with
                | .ok (value, u1) => .ok (t.set i value, u1)
                | .error err => .error (err, t))
              (Packer.sizeIndices elements) (resize ref elements false) u2) u1) u := by
    intro u
    unfold Unpacker.unpack_array_bool Unpacker.seq
    cases u.read e .uint8 with
    | error err => rfl
    | ok r =>
      obtain ⟨head, u1⟩ := r
      simp only []
      cases Unpacker.readArrayCount e head.toNat u1 with
      | error err => rfl
      | ok r2 => rfl
  exact Framed.congr
    (framed_head e _ (fun head => (framed_readArrayCount e head.toNat).seq _
      (fun elements => framed_forEach _ hbody _ _))) key

theorem framed_unpackPairs {K V : Type} [LinearOrder K]
    (unpackKey : K → Unpacker → UnpackResult K) (unpackVal : V → Unpacker → UnpackResult V)
    (hk : ∀ k, Framed 0 (unpackKey k)) (hv : ∀ v, Framed 0 (unpackVal v)) :
    ∀ (n : Nat) (ref : List (K × V)) (key : K) (value : V),
      Framed 0 (Unpacker.unpackPairs unpackKey unpackVal n ref key value) := by
  intro n
  induction n with
  | zero =>
    intro ref key value
    exact Framed.congr (framed_ok ref) (fun u => rfl)
  | succ n ih =>
    intro ref key value
    have heq : ∀ u, Unpacker.unpackPairs unpackKey unpackVal (n + 1) ref key value u =
        Unpacker.seq (fun r => (r.1, ref)) (unpackKey key) (fun key1 =>
          Unpacker.seq (fun r => (r.1, ref)) (unpackVal value) (fun value1 =>
            Unpacker.unpackPairs unpackKey unpackVal n (mapAssign key1 value1 ref)
              key1 value1)) u := by
      intro u
      simp only [Unpacker.unpackPairs, Unpacker.seq]
      cases unpackKey key u with
      | error err => rfl
      | ok r =>
        obtain ⟨key1, u1⟩ := r
        simp only []
        cases unpackVal value u1 with
        | error err => rfl
        | ok r2 => rfl
    exact Framed.congr
      ((hk key).seq _ (fun key1 => (hv value).seq _ (fun value1 => ih _ _ _))) heq

theorem framed_unpack_map {K V : Type} [LinearOrder K] (e : Endian)
    (unpackKey : K → Unpacker → UnpackResult K) (unpackVal : V → Unpacker → UnpackResult V)
    (hk : ∀ k, Framed 0 (unpackKey k)) (hv : ∀ v, Framed 0 (unpackVal v))
    (key0 : K) (value0 : V) (ref : List (K × V)) :
    Framed 1 (Unpacker.unpack_map e unpackKey unpackVal key0 value0 ref) := by
  have key : ∀ u, Unpacker.unpack_map e unpackKey unpackVal key0 value0 ref u =
      Unpacker.seq (fun err => (err, ref)) (Unpacker.read e .uint8) (fun head u1 =>
        Unpacker.seq (fun err => (err, ref)) (Unpacker.readMapCount e head.toNat)
          (fun elements u2 =>
            Unpacker.unpackPairs unpackKey unpackVal elements ref key0 value0 u2) u1) u := by
    intro u
    unfold Unpacker.unpack_map Unpacker.seq
    cases u.read e .uint8 with
    | error err => rfl
    | ok r =>
      obtain ⟨head, u1⟩ := r
      simp only []
      cases Unpacker.readMapCount e head.toNat u1 with
      | error err => rfl
      | ok r2 => rfl
  exact Framed.congr
    (framed_head e _ (fun head => (framed_readMapCount e head.toNat).seq _
      (fun elements => framed_unpackPairs unpackKey unpackVal hk hv _ _ _ _))) key

theorem cursorSafe_onTarget_integral (e : Endian) (T : IntType) (x : Int) :
    CursorSafe (Unpacker.onTarget (Unpacker.unpack_integral e T) x) :=
  (framed_onTarget (framed_unpack_integral e T) x).cursorSafe

/-- C11: cursor discipline of the Unpacker. Every unpack operation (integer,
boolean, string into a `std::string` or a `char` buffer, binary into a buffer or a
vector, array into a buffer or a vector, `vector<bool>`, map; containers for element,
key and value unpackers that keep the discipline themselves, hence by nesting for
every target built from these) is `CursorSafe`: on every byte slice, a successful
unpack leaves the pointer at a strict suffix `bs.drop k` of the slice with
`1 ≤ k ≤ bs.length` and the counter at `bs.length - k`; and the run, successful or
failing, is the same whatever bytes lie at or beyond the end of the slice. -/
theorem unpack_cursor_discipline (e : Endian) {α K V : Type} [LinearOrder K]
    (unpackElem : α → Unpacker → UnpackResult α) (unpackKey : K → Unpacker → UnpackResult K)
    (unpackVal : V → Unpacker → UnpackResult V)
    (he : ∀ x, CursorSafe (unpackElem x)) (hk : ∀ k, CursorSafe (unpackKey k))
    (hv : ∀ v, CursorSafe (unpackVal v)) :
    (∀ T, CursorSafe (Unpacker.unpack_integral e T)) ∧
    CursorSafe (Unpacker.unpack_boolean e) ∧
    (∀ ref, CursorSafe (Unpacker.unpack_string e ref)) ∧
    (∀ ptr, CursorSafe (Unpacker.unpack_c_string e ptr)) ∧
    (∀ buffer, CursorSafe (Unpacker.unpack_binary_fixed e buffer)) ∧
    (∀ ref, CursorSafe (Unpacker.unpack_binary e ref)) ∧
    (∀ data, CursorSafe (Unpacker.unpack_array_fixed e unpackElem data)) ∧
    (∀ dflt ref, CursorSafe (Unpacker.unpack_array e unpackElem dflt ref)) ∧
    (∀ ref, CursorSafe (Unpacker.unpack_array_bool e ref)) ∧
    (∀ key0 value0 ref,
      CursorSafe (Unpacker.unpack_map e unpackKey unpackVal key0 value0 ref)) := by
  have he0 : ∀ x, Framed 0 (unpackElem x) := fun x => (he x).framed.mono (Nat.zero_le _)
  have hk0 : ∀ k, Framed 0 (unpackKey k) := fun k => (hk k).framed.mono (Nat.zero_le _)
  have hv0 : ∀ v, Framed 0 (unpackVal v) := fun v => (hv v).framed.mono (Nat.zero_le _)
  exact ⟨fun T => (framed_unpack_integral e T).cursorSafe,
    (framed_unpack_boolean e).cursorSafe,
    fun ref => (framed_unpack_string e ref).cursorSafe,
    fun ptr => (framed_unpack_c_string e ptr).cursorSafe,
    fun buffer => (framed_unpack_binary_fixed e buffer).cursorSafe,
    fun ref => (framed_unpack_binary e ref).cursorSafe,
    fun data => (framed_unpack_array_fixed e unpackElem he0 data).cursorSafe,
    fun dflt ref => (framed_unpack_array e unpackElem he0 dflt ref).cursorSafe,
    fun ref => (framed_unpack_array_bool e ref).cursorSafe,
    fun key0 value0 ref =>
      (framed_unpack_map e unpackKey unpackVal hk0 hv0 key0 value0 ref).cursorSafe⟩

theorem unpack_cursor_discipline_witness :
    (∀ x, CursorSafe (Unpacker.onTarget (Unpacker.unpack_integral .little .uint16) x)) ∧
    (∀ ref, CursorSafe (Unpacker.unpack_string .little ref)) ∧
    (∀ dflt ref, CursorSafe (Unpacker.unpack_array .little
      (Unpacker.onTarget (Unpacker.unpack_integral .little .uint16)) dflt ref)) ∧
    (∀ key0 value0 ref, CursorSafe (Unpacker.unpack_map .little
      (Unpacker.onTarget (Unpacker.unpack_integral .little .uint16))
      (Unpacker.onTarget (Unpacker.unpack_integral .little .uint16)) key0 value0 ref)) :=
  have h := unpack_cursor_discipline .little
    (Unpacker.onTarget (Unpacker.unpack_integral .little .uint16))
    (Unpacker.onTarget (Unpacker.unpack_integral .little .uint16))
    (Unpacker.onTarget (Unpacker.unpack_integral .little .uint16))
    (cursorSafe_onTarget_integral .little .uint16)
    (cursorSafe_onTarget_integral .little .uint16)
    (cursorSafe_onTarget_integral .little .uint16)
  ⟨cursorSafe_onTarget_integral .little .uint16, h.2.2.1, h.2.2.2.2.2.2.2.1,
    h.2.2.2.2.2.2.2.2.2⟩

/-- Runs on slices with bytes lying after them: an array of two elements is decoded
from its three bytes and the pointer stops at the end of the slice; a string16 header
cut after two bytes throws buffer-exhausted although the bytes after the slice would
complete it. -/
theorem cursor_examples :
    Unpacker.unpack_array .little (Unpacker.onTarget (Unpacker.unpack_integral .little .uint16))
      0 [] (Unpacker.within [0x92, 1, 2] [3, 4]) = .ok ([1, 2], Unpacker.within [] [3, 4]) ∧
    Unpacker.unpack_string .big [] (Unpacker.within [0xda, 0x00] [0x01, 0x61]) =
      .error .noBytes ∧
    Unpacker.unpack_string .big [] (Unpacker.init [0xda, 0x00, 0x01, 0x61] 4) =
      .ok ([0x61], Unpacker.init [] 0) :=
  ⟨rfl, rfl, rfl⟩

/-! ## Inline negative tags and unsigned targets -/

/-- C23 (the code at the failing input): the one-byte input `0xff`, an inline negative
tag, unpacked into a `uint8_t`, `uint16_t`, `uint32_t` or `uint64_t` target does not
throw: the call succeeds, consumes the byte and stores `-31` converted to the target
type (225, 65505, 4294967265, 18446744073709551585). Likewise `0xe0` stores 0 and
`0xe1` stores `-1` converted, 255 at `uint8_t`. The same value -1 behind the `int8`
tag, `d0 ff`, is refused with the underflow exception. -/
theorem unpack_integral_negfixnum_unsigned (e : Endian) :
    Unpacker.unpack_integral e .uint8 (Unpacker.ofSlice [0xff]) =
        .ok (225, Unpacker.ofSlice [])
      ∧ Unpacker.unpack_integral e .uint16 (Unpacker.ofSlice [0xff]) =
        .ok (65505, Unpacker.ofSlice [])
      ∧ Unpacker.unpack_integral e .uint32 (Unpacker.ofSlice [0xff]) =
        .ok (4294967265, Unpacker.ofSlice [])
      ∧ Unpacker.unpack_integral e .uint64 (Unpacker.ofSlice [0xff]) =
        .ok (18446744073709551585, Unpacker.ofSlice [])
      ∧ Unpacker.unpack_integral e .uint8 (Unpacker.ofSlice [0xe0]) =
        .ok (0, Unpacker.ofSlice [])
      ∧ Unpacker.unpack_integral e .uint8 (Unpacker.ofSlice [0xe1]) =
        .ok (255, Unpacker.ofSlice [])
      ∧ Unpacker.unpack_integral e .uint8 (Unpacker.ofSlice [0xd0, 0xff]) =
        .error .underflow := by
  cases e <;> exact ⟨rfl, rfl, rfl, rfl, rfl, rfl, rfl⟩

/-- Every inline negative tag is accepted at every target type, the unsigned ones
included: no range check is made on this path. -/
theorem Unpacker.unpack_integral_negfixnum_succeeds (e : Endian) (T : IntType) (b : Nat)
    (rest : List Nat) (h1 : 0xe0 ≤ b) (h2 : b ≤ 0xff) :
    ∃ v, Unpacker.unpack_integral e T (Unpacker.ofSlice (b :: rest)) =
      .ok (v, Unpacker.ofSlice rest) :=
  ⟨_, Unpacker.unpack_integral_negfixnum e T b rest h1 h2⟩

/-! ## Tag categories -/

set_option maxRecDepth 100000 in
/-- Every byte passes at most one of the tests on the leading byte. -/
theorem tagTests_unique : ∀ b < 256, (tagTests.filter fun t => t.2 b).length ≤ 1 := by
  decide

theorem mem_unique_of_length_le_one {α : Type} (l : List α) (h : l.length ≤ 1) (a b : α)
    (ha : a ∈ l) (hb : b ∈ l) : a = b := by
  match l, h, ha, hb with
  | [x], _, ha, hb =>
    rw [List.mem_singleton] at ha hb
    rw [ha, hb]
  | _ :: _ :: _, h, _, _ => simp at h

/-- A byte passes the tests of at most one category. -/
theorem Category.tag_unique (b : Nat) (hb : b < 256) (c c' : Category)
    (h : c.tag b = true) (h' : c'.tag b = true) : c = c' := by
  simp only [Category.tag, List.any_eq_true, Bool.and_eq_true, beq_iff_eq] at h h'
  obtain ⟨t, ht, rfl, hp⟩ := h
  obtain ⟨t', ht', rfl, hp'⟩ := h'
  have := mem_unique_of_length_le_one _ (tagTests_unique b hb) t t'
    (List.mem_filter.mpr ⟨ht, hp⟩) (List.mem_filter.mpr ⟨ht', hp'⟩)
  rw [this]

theorem find_eq_head_filter {α : Type} (p : α → Bool) (l : List α) :
    l.find? p = (l.filter p).head? := by
  induction l with
  | nil => rfl
  | cons x xs ih =>
    by_cases hx : p x = true
    · rw [List.find?_cons_of_pos _ hx, List.filter_cons_of_pos hx, List.head?_cons]
    · rw [List.find?_cons_of_neg _ hx, List.filter_cons_of_neg hx, ih]

theorem perm_eq_of_length_le_one {α : Type} (l l' : List α) (hp : l'.Perm l)
    (h : l.length ≤ 1) : l' = l := by
  match l, h with
  | [], _ => exact List.Perm.eq_nil hp
  | [x], _ => exact List.perm_singleton.mp hp
  | _ :: _ :: _, h => simp at h

/-- The classification of a byte is the same for every order in which the tests are
tried. -/
theorem classify_perm (b : Nat) (hb : b < 256) (tests : List (Category × (Nat → Bool)))
    (hperm : tests.Perm tagTests) : classify tests b = classify tagTests b := by
  have heq : (tests.filter fun t => t.2 b) = tagTests.filter fun t => t.2 b :=
    perm_eq_of_length_le_one _ _ (hperm.filter _) (tagTests_unique b hb)
  unfold classify
  rw [find_eq_head_filter, find_eq_head_filter, heq]

theorem Category.tag_integer (b : Nat) :
    Category.tag .integer b = true ↔
      (b &&& 0x80 = 0 ∨ b &&& 0xe0 = 0xe0 ∨
        b ∈ [0xcc, 0xcd, 0xce, 0xcf, 0xd0, 0xd1, 0xd2, 0xd3]) := by
  simp [Category.tag, tagTests, detail.TYPE_1BIT, detail.TYPE_3BIT, detail.TYPE_4BIT,
    detail.MP_FIXNUM, detail.MP_NEGATIVE_FIXNUM, detail.MP_UINT8, detail.MP_UINT16,
    detail.MP_UINT32, detail.MP_UINT64, detail.MP_INT8, detail.MP_INT16, detail.MP_INT32,
    detail.MP_INT64]

theorem Category.tag_boolean (b : Nat) :
    Category.tag .boolean b = true ↔ (b = 0xc3 ∨ b = 0xc2) := by
  simp [Category.tag, tagTests, detail.MP_TRUE, detail.MP_FALSE]

theorem Category.tag_floating (b : Nat) :
    Category.tag .floating b = true ↔ (b = 0xca ∨ b = 0xcb) := by
  simp [Category.tag, tagTests, detail.MP_FLOAT, detail.MP_DOUBLE]

theorem Category.tag_string (b : Nat) :
    Category.tag .string b = true ↔
      (b = 0xc0 ∨ b &&& 0xe0 = 0xa0 ∨ b = 0xd9 ∨ b = 0xda ∨ b = 0xdb) := by
  simp [Category.tag, tagTests, detail.MP_NIL, detail.TYPE_3BIT, detail.MP_FIXSTR,
    detail.MP_STR8, detail.MP_STR16, detail.MP_STR32]

theorem Category.tag_binary (b : Nat) :
    Category.tag .binary b = true ↔ (b = 0xc4 ∨ b = 0xc5 ∨ b = 0xc6) := by
  simp [Category.tag, tagTests, detail.MP_BIN8, detail.MP_BIN16, detail.MP_BIN32]

theorem Category.tag_array (b : Nat) :
    Category.tag .array b = true ↔ (b &&& 0xf0 = 0x90 ∨ b = 0xdc ∨ b = 0xdd) := by
  simp [Category.tag, tagTests, detail.TYPE_4BIT, detail.MP_FIXARRAY, detail.MP_ARRAY16,
    detail.MP_ARRAY32]

theorem Category.tag_map (b : Nat) :
    Category.tag .map b = true ↔ (b &&& 0xf0 = 0x80 ∨ b = 0xde ∨ b = 0xdf) := by
  simp [Category.tag, tagTests, detail.TYPE_4BIT, detail.MP_FIXMAP, detail.MP_MAP16,
    detail.MP_MAP32]

theorem Unpacker.unpack_integral_rejects (e : Endian) (T : IntType) (b : Nat) (rest : List Nat)
    (hb : b < 256) (ht : ¬ Category.tag .integer b = true) :
    Unpacker.unpack_integral e T (Unpacker.ofSlice (b :: rest)) = .error .invalidType := by
  rw [Category.tag_integer] at ht
  simp only [List.mem_cons, List.mem_singleton, List.not_mem_nil, or_false, not_or] at ht
  obtain ⟨n1, n2, c1, c2, c3, c4, c5, c6, c7, c8⟩ := ht
  obtain ⟨m1, m2, -, -, -⟩ := byte_masks b hb
  rw [Unpacker.unpack_integral_cons e T b rest hb, if_neg (fun h => n1 (m1.mpr h)),
    if_neg (fun h => n2 (m2.mpr h))]
  simp [Unpacker.readExplicit, detail.MP_UINT8, detail.MP_UINT16, detail.MP_UINT32,
    detail.MP_UINT64, detail.MP_INT8, detail.MP_INT16, detail.MP_INT32, detail.MP_INT64,
    c1, c2, c3, c4, c5, c6, c7, c8]

theorem Unpacker.unpack_boolean_rejects (e : Endian) (b : Nat) (rest : List Nat)
    (hb : b < 256) (ht : ¬ Category.tag .boolean b = true) :
    Unpacker.unpack_boolean e (Unpacker.ofSlice (b :: rest)) = .error .invalidType := by
  rw [Category.tag_boolean, not_or] at ht
  rw [Unpacker.unpack_boolean_cons e b rest hb, if_neg ht.1, if_neg ht.2]

theorem Unpacker.unpack_floating_point_rejects (e : Endian) (c : FloatConv) (T : FloatType)
    (b : Nat) (rest : List Nat) (hb : b < 256) (ht : ¬ Category.tag .floating b = true) :
    Unpacker.unpack_floating_point e c T (Unpacker.ofSlice (b :: rest)) =
      .error .invalidType := by
  rw [Category.tag_floating, not_or] at ht
  simp [Unpacker.unpack_floating_point, Unpacker.read_head e b rest hb, detail.MP_FLOAT,
    detail.MP_DOUBLE, ht.1, ht.2]

theorem Unpacker.readStringLength_rejects (e : Endian) (b : Nat) (u : Unpacker)
    (ht : ¬ Category.tag .string b = true) :
    Unpacker.readStringLength e b u = .error .invalidType := by
  rw [Category.tag_string] at ht
  simp only [not_or] at ht
  obtain ⟨-, c1, c2, c3, c4⟩ := ht
  simp [Unpacker.readStringLength, detail.TYPE_3BIT, detail.MP_FIXSTR, detail.MP_STR8,
    detail.MP_STR16, detail.MP_STR32, c1, c2, c3, c4]

theorem Unpacker.readBinaryLength_rejects (e : Endian) (b : Nat) (u : Unpacker)
    (ht : ¬ Category.tag .binary b = true) :
    Unpacker.readBinaryLength e b u = .error .invalidType := by
  rw [Category.tag_binary] at ht
  simp only [not_or] at ht
  obtain ⟨c1, c2, c3⟩ := ht
  simp [Unpacker.readBinaryLength, detail.MP_BIN8, detail.MP_BIN16, detail.MP_BIN32,
    c1, c2, c3]

theorem Unpacker.readArrayCount_rejects (e : Endian) (b : Nat) (u : Unpacker)
    (ht : ¬ Category.tag .array b = true) :
    Unpacker.readArrayCount e b u = .error .invalidType := by
  rw [Category.tag_array] at ht
  simp only [not_or] at ht
  obtain ⟨c1, c2, c3⟩ := ht
  simp [Unpacker.readArrayCount, detail.TYPE_4BIT, detail.MP_FIXARRAY, detail.MP_ARRAY16,
    detail.MP_ARRAY32, c1, c2, c3]

theorem Unpacker.readMapCount_rejects (e : Endian) (b : Nat) (u : Unpacker)
    (ht : ¬ Category.tag .map b = true) :
    Unpacker.readMapCount e b u = .error .invalidType := by
  rw [Category.tag_map] at ht
  simp only [not_or] at ht
  obtain ⟨c1, c2, c3⟩ := ht
  simp [Unpacker.readMapCount, detail.TYPE_4BIT, detail.MP_FIXMAP, detail.MP_MAP16,
    detail.MP_MAP32, c1, c2, c3]

/-- A decoder that succeeds on a byte sequence read a leading byte that passes one of
its tests: on every other leading byte, and on the empty sequence, it throws. -/
theorem Category.decodes_tag (e : Endian) (c : Category) (bs : List Nat)
    (hbs : ∀ x ∈ bs.head?, x < 256) (h : c.decodes e bs) :
    ∃ b rest, bs = b :: rest ∧ c.tag b = true := by
  cases bs with
  | nil =>
    exfalso
    cases c <;> simp [Category.decodes, Unpacker.unpack_integral, Unpacker.unpack_boolean,
      Unpacker.unpack_floating_point, Unpacker.unpack_string, Unpacker.unpack_c_string,
      Unpacker.unpack_binary_fixed, Unpacker.unpack_binary, Unpacker.unpack_array_fixed,
      Unpacker.unpack_array, Unpacker.unpack_array_bool, Unpacker.unpack_map,
      Unpacker.read_empty] at h
  | cons b rest =>
    have hb : b < 256 := hbs b rfl
    refine ⟨b, rest, rfl, ?_⟩
    by_contra ht
    cases c with
    | integer =>
      obtain ⟨T, r, hr⟩ := h
      rw [Unpacker.unpack_integral_rejects e T b rest hb ht] at hr
      cases hr
    | boolean =>
      obtain ⟨r, hr⟩ := h
      rw [Unpacker.unpack_boolean_rejects e b rest hb ht] at hr
      cases hr
    | floating =>
      obtain ⟨c, T, r, hr⟩ := h
      rw [Unpacker.unpack_floating_point_rejects e c T b rest hb ht] at hr
      cases hr
    | string =>
      have hnil : ¬ b = detail.MP_NIL := fun h0 =>
        ht ((Category.tag_string b).mpr (Or.inl h0))
      rcases h with ⟨ref, r, hr⟩ | ⟨ptr, r, hr⟩
      · simp [Unpacker.unpack_string, Unpacker.read_head e b rest hb, hnil,
          Unpacker.readStringLength_rejects e b _ ht] at hr
      · simp [Unpacker.unpack_c_string, Unpacker.read_head e b rest hb, hnil,
          Unpacker.readStringLength_rejects e b _ ht] at hr
    | binary =>
      rcases h with ⟨buffer, r, hr⟩ | ⟨ref, r, hr⟩
      · simp [Unpacker.unpack_binary_fixed, Unpacker.read_head e b rest hb,
          Unpacker.readBinaryLength_rejects e b _ ht] at hr
      · simp [Unpacker.unpack_binary, Unpacker.read_head e b rest hb,
          Unpacker.readBinaryLength_rejects e b _ ht] at hr
    | array =>
      rcases h with ⟨α, unpackElem, data, r, hr⟩ | ⟨α, unpackElem, dflt, ref, r, hr⟩ |
        ⟨ref, r, hr⟩
      · simp [Unpacker.unpack_array_fixed, Unpacker.read_head e b rest hb,
          Unpacker.readArrayCount_rejects e b _ ht] at hr
      · simp [Unpacker.unpack_array, Unpacker.read_head e b rest hb,
          Unpacker.readArrayCount_rejects e b _ ht] at hr
      · simp [Unpacker.unpack_array_bool, Unpacker.read_head e b rest hb,
          Unpacker.readArrayCount_rejects e b _ ht] at hr
    | map =>
      obtain ⟨K, V, inst, unpackKey, unpackVal, key0, value0, ref, r, hr⟩ := h
      simp [Unpacker.unpack_map, Unpacker.read_head e b rest hb,
        Unpacker.readMapCount_rejects e b _ ht] at hr

theorem Category.accepts_tag (e : Endian) (c : Category) (b : Nat) (hb : b < 256)
    (h : c.accepts e b) : c.tag b = true := by
  obtain ⟨rest, hd⟩ := h
  obtain ⟨b', rest', heq, ht⟩ := Category.decodes_tag e c (b :: rest)
    (fun x hx => by cases hx; exact hb) hd
  cases heq
  exact ht

/-- One byte sequence for each category, decoded by a decoder of that category. -/
theorem Category.decodes_examples (e : Endian) :
    Category.decodes e .integer [0x05] ∧ Category.decodes e .boolean [0xc3]
      ∧ Category.decodes e .floating [0xca, 0, 0, 0, 0] ∧ Category.decodes e .string [0xc0]
      ∧ Category.decodes e .binary [0xc4, 0] ∧ Category.decodes e .array [0x92, 0xc3, 0xc2]
      ∧ Category.decodes e .map [0x81, 0x01, 0x02] := by
  refine ⟨⟨.uint8, (5, Unpacker.ofSlice []), ?_⟩, ⟨(true, Unpacker.ofSlice []), ?_⟩,
    ⟨⟨id, id⟩, .float, (0, Unpacker.ofSlice []), ?_⟩,
    Or.inl ⟨[], ([], Unpacker.ofSlice []), ?_⟩, Or.inr ⟨[], ([], Unpacker.ofSlice []), ?_⟩,
    Or.inr (Or.inr ⟨[], ([true, false], Unpacker.ofSlice []), ?_⟩),
    ⟨Int, Int, inferInstance, Unpacker.onTarget (Unpacker.unpack_integral e .uint8),
      Unpacker.onTarget (Unpacker.unpack_integral e .uint8), 0, 0, [],
      ([(1, 2)], Unpacker.ofSlice []), ?_⟩⟩ <;>
    cases e <;> rfl

/-- C25: tag categories are unambiguous. For every byte `b`: at most one of the tests
that the decoders make on a leading byte (the mask tests on the top 1, 3 and 4 bits
and the explicit tag constants) is passed by `b`, so the tests of two different
categories are never both passed; a decoder accepts `b` as leading byte only if `b`
passes one of its tests, so at most one of the seven decoders accepts `b`; the
category `b` is classified into is the same for every order in which the tests are
tried; and no byte sequence, starting with `b` or empty, decodes successfully as two
different categories. -/
theorem tag_categories_unambiguous (e : Endian) (b : Nat) (hb : b < 256) :
    (tagTests.filter fun t => t.2 b).length ≤ 1
      ∧ (∀ c c' : Category, c.tag b = true → c'.tag b = true → c = c')
      ∧ (∀ c : Category, c.accepts e b → c.tag b = true)
      ∧ (∀ c c' : Category, c.accepts e b → c'.accepts e b → c = c')
      ∧ (∀ tests : List (Category × (Nat → Bool)), tests.Perm tagTests →
          classify tests b = classify tagTests b)
      ∧ (∀ (rest : List Nat) (c c' : Category),
          c.decodes e (b :: rest) → c'.decodes e (b :: rest) → c = c')
      ∧ (∀ c : Category, ¬ c.decodes e []) := by
  refine ⟨tagTests_unique b hb, Category.tag_unique b hb,
    fun c h => Category.accepts_tag e c b hb h, fun c c' h h' => ?_,
    fun tests hperm => classify_perm b hb tests hperm, fun rest c c' h h' => ?_, fun c h => ?_⟩
  · exact Category.tag_unique b hb c c' (Category.accepts_tag e c b hb h)
      (Category.accepts_tag e c' b hb h')
  · exact Category.tag_unique b hb c c' (Category.accepts_tag e c b hb ⟨rest, h⟩)
      (Category.accepts_tag e c' b hb ⟨rest, h'⟩)
  · obtain ⟨b', rest', heq, -⟩ := Category.decodes_tag e c [] (fun x hx => by cases hx) h
    cases heq

theorem tag_categories_unambiguous_witness :
    (0xc3 : Nat) < 256 ∧ Category.accepts .little .boolean 0xc3
      ∧ ¬ Category.accepts .little .integer 0xc3
      ∧ classify tagTests.reverse 0xc3 = some .boolean :=
  have h := tag_categories_unambiguous .little 0xc3 (by decide)
  have hbool : Category.accepts .little .boolean 0xc3 := ⟨[], _, rfl⟩
  ⟨by decide, hbool, fun hint => absurd (h.2.2.2.1 _ _ hint hbool) (by decide),
    (h.2.2.2.2.1 tagTests.reverse (List.reverse_perm _)).trans (by decide)⟩

/-! ## Sequence round trip -/

theorem packedIntegral_nonneg (e : Endian) (T : IntType) (n : Nat) (hv : T.InRange (n : Int)) :
    packedIntegral e T (n : Int) = specNonNegEncoding e n := by
  unfold packedIntegral
  rw [pack_integral_nonneg_eq e T n _ hv, Packer.mkDynamic_write_data]

/-- Decoding of the encoding of a non-negative value followed by `rest`. -/
theorem Unpacker.unpack_integral_specNonNeg_append (e : Endian) (T : IntType) (n : Nat)
    (rest : List Nat) (hv : T.InRange (n : Int)) :
    Unpacker.unpack_integral e T (Unpacker.ofSlice (specNonNegEncoding e n ++ rest)) =
      .ok ((n : Int), Unpacker.ofSlice rest) := by
  have key : ∀ (tag : Nat) (W : IntType), (tag, W) ∈ unsignedTags → W.InRange (n : Int) →
      Unpacker.unpack_integral e T (Unpacker.ofSlice (tag :: hostBytes e W.sizeof n ++ rest)) =
        .ok ((n : Int), Unpacker.ofSlice rest) := by
    intro tag W hW hn
    have h := Unpacker.unpack_integral_unsigned e T tag W n rest hW hn
    rw [if_pos hv.2, objectRepr_of_nat e W n hn] at h
    exact h
  unfold specNonNegEncoding
  split_ifs with h1 h2 h3 h4
  · rw [List.singleton_append, Unpacker.unpack_integral_cons e T n rest (by omega), if_pos h1,
      Nat.mod_eq_of_lt (by omega), IntType.conv_eq_self hv]
  · exact key 0xcc .uint8 (by decide) (by
      simp [IntType.InRange, IntType.min, IntType.max, IntType.isSigned, IntType.bits,
        IntType.sizeof]; omega)
  · exact key 0xcd .uint16 (by decide) (by
      simp [IntType.InRange, IntType.min, IntType.max, IntType.isSigned, IntType.bits,
        IntType.sizeof]; omega)
  · exact key 0xce .uint32 (by decide) (by
      simp [IntType.InRange, IntType.min, IntType.max, IntType.isSigned, IntType.bits,
        IntType.sizeof]; omega)
  · exact key 0xcf .uint64 (by decide) (by
      have hmax : T.max ≤ 2 ^ 64 - 1 := by
        cases T <;> simp [IntType.max, IntType.isSigned, IntType.bits, IntType.sizeof]
      have := hv.2
      simp [IntType.InRange, IntType.min, IntType.max, IntType.isSigned, IntType.bits,
        IntType.sizeof]; omega)

/-- Decoding of the bytes `pack_integral` produced for a non-negative value, followed
by `rest`, into a target of the same type. -/
theorem Unpacker.unpack_integral_packed_nonneg (e : Endian) (T : IntType) (v : Int)
    (hv : T.InRange v) (h0 : 0 ≤ v) (old : Int) (rest : List Nat) :
    Unpacker.onTarget (Unpacker.unpack_integral e T) old
        (Unpacker.ofSlice (packedIntegral e T v ++ rest)) = .ok (v, Unpacker.ofSlice rest) := by
  obtain ⟨n, rfl⟩ := Int.eq_ofNat_of_zero_le h0
  rw [Unpacker.onTarget, packedIntegral_nonneg e T n hv,
    Unpacker.unpack_integral_specNonNeg_append e T n rest hv]

theorem Unpacker.forEach_append {τ : Type} (body : Nat → τ → Unpacker → UnpackResult τ)
    (l1 l2 : List Nat) (t : τ) (u : Unpacker) (t1 : τ) (u1 : Unpacker)
    (h : Unpacker.forEach body l1 t u = .ok (t1, u1)) :
    Unpacker.forEach body (l1 ++ l2) t u = Unpacker.forEach body l2 t1 u1 := by
  induction l1 generalizing t u with
  | nil =>
    simp only [Unpacker.forEach, Except.ok.injEq, Prod.mk.injEq] at h
    obtain ⟨rfl, rfl⟩ := h
    rfl
  | cons i is ih =>
    simp only [List.cons_append, Unpacker.forEach] at h ⊢
    cases hb : body i t u with
    | error err =>
      rw [hb] at h
      cases h
    | ok r =>
      obtain ⟨t', u'⟩ := r
      rw [hb] at h
      exact ih t' u' h

theorem specArrayHeader_isArrayHeader (e : Endian) (n : Nat) (hn : n ≤ 2 ^ 32 - 1) :
    IsArrayHeader e (specArrayHeader e n) n := by
  unfold specArrayHeader IsArrayHeader
  split_ifs with h1 h2
  · exact Or.inl ⟨h1, rfl⟩
  · exact Or.inr (Or.inl ⟨h2, rfl⟩)
  · exact Or.inr (Or.inr ⟨hn, rfl⟩)

/-- Method `unpack_array(std::vector<T>&)` on a well-formed header for `xs.length`
elements followed by the encodings of the elements: the target, whatever it held,
becomes `xs`. -/
theorem Unpacker.unpack_array_decodes {α : Type} (e : Endian)
    (unpackElem : α → Unpacker → UnpackResult α) (dec : α → List Nat) (xs : List α)
    (hdec : ∀ x ∈ xs, ∀ old rest,
      unpackElem old (Unpacker.ofSlice (dec x ++ rest)) = .ok (x, Unpacker.ofSlice rest))
    (hdr : List Nat) (hhdr : IsArrayHeader e hdr xs.length) (dflt : α) (ref : List α)
    (rest : List Nat) :
    Unpacker.unpack_array e unpackElem dflt ref
        (Unpacker.ofSlice (hdr ++ (xs.flatMap dec ++ rest))) =
      .ok (xs, Unpacker.ofSlice rest) := by
  obtain ⟨head, u1, h1, h2⟩ := Unpacker.array_header_steps e hdr (xs.flatMap dec ++ rest)
    xs.length hhdr
  simp only [Unpacker.unpack_array, h1, h2, Packer.sizeIndices, List.range_eq_range']
  rw [Unpacker.forEach_unpackAt_decodes unpackElem dec xs hdec _ 0 rest
    (by rw [resize_length]; omega)]
  rw [List.take_zero, List.nil_append, Nat.zero_add,
    List.drop_eq_nil_of_le (by rw [resize_length]), List.append_nil]

theorem flatten_flatMap_singleton {α : Type} (f : α → List Nat) (xs : List α) :
    (xs.flatMap fun x => [f x]).flatten = xs.flatMap f := by
  induction xs with
  | nil => rfl
  | cons x xs ih =>
    rw [List.flatMap_cons, List.flatMap_cons, List.flatten_append, ih]
    simp

/-- The sequence round trip where the `int` counter suffices: for every list `xs` of
at most `2 ^ 31` values of `uint16_t` and every prior content of the target, packing
`xs` as an array into an empty growable Packer completes and produces the length
header followed by the packed elements, and unpacking these bytes into a vector
succeeds, leaves the vector equal to `xs` and leaves no byte. -/
theorem array_roundtrip_uint16 (e : Endian) (xs : List Int)
    (hxs : ∀ x ∈ xs, IntType.uint16.InRange x) (hn : xs.length ≤ 2 ^ 31) (dflt : Int)
    (ref : List Int) :
    (Packer.mkDynamic.pack_array e (Packer.pack_integral e .uint16) xs).error = none
      ∧ (Packer.mkDynamic.pack_array e (Packer.pack_integral e .uint16) xs).packer.data =
          specArrayHeader e xs.length ++ xs.flatMap (packedIntegral e .uint16)
      ∧ Unpacker.unpack_array e (Unpacker.onTarget (Unpacker.unpack_integral e .uint16)) dflt ref
          (Unpacker.ofSlice
            (Packer.mkDynamic.pack_array e (Packer.pack_integral e .uint16) xs).packer.data) =
          .ok (xs, Unpacker.ofSlice []) := by
  have hw := pack_array_writes e (Packer.pack_integral e .uint16)
    (fun x => [packedIntegral e .uint16 x]) (fun x => pack_integral_writes e .uint16 x) xs
    (by omega)
  rw [List.take_of_length_le hn] at hw
  have hdata : (Packer.mkDynamic.pack_array e (Packer.pack_integral e .uint16) xs).packer.data =
      specArrayHeader e xs.length ++ xs.flatMap (packedIntegral e .uint16) := by
    rw [hw.packed, List.flatten_cons, flatten_flatMap_singleton]
  refine ⟨?_, hdata, ?_⟩
  · rw [hw Packer.mkDynamic]
    exact (Packer.writeChunks_mkDynamic _).1
  · rw [hdata]
    have h := Unpacker.unpack_array_decodes e
      (Unpacker.onTarget (Unpacker.unpack_integral e .uint16)) (packedIntegral e .uint16) xs
      (fun x hx old rest => Unpacker.unpack_integral_packed_nonneg e .uint16 x (hxs x hx)
        (by have := (hxs x hx).1; simpa [IntType.min, IntType.isSigned] using this) old rest)
      (specArrayHeader e xs.length) (specArrayHeader_isArrayHeader e xs.length (by omega))
      dflt ref []
    rw [List.append_nil] at h
    exact h

theorem set_replicate_self {α : Type} (m i : Nat) (c : α) :
    (List.replicate m c).set i c = List.replicate m c := by
  induction m generalizing i with
  | zero => rfl
  | succ m ih =>
    cases i with
    | zero => rfl
    | succ i => rw [List.replicate_succ, List.set_cons_succ, ih]

/-- Method `unpack_array(std::vector<uint16_t>&)` on a header announcing `m + 1`
elements followed by the bytes of `m` zeros only: `m` elements are unpacked and the
next one throws, the resized target being left behind. -/
theorem Unpacker.unpack_array_short (e : Endian) (m : Nat) (hdr : List Nat)
    (hhdr : IsArrayHeader e hdr (m + 1)) :
    Unpacker.unpack_array e (Unpacker.onTarget (Unpacker.unpack_integral e .uint16)) 0 []
        (Unpacker.ofSlice (hdr ++ List.replicate m 0)) =
      .error (.noBytes, List.replicate (m + 1) 0) := by
  obtain ⟨head, u1, h1, h2⟩ := Unpacker.array_header_steps e hdr (List.replicate m 0)
    (m + 1) hhdr
  have hres : resize ([] : List Int) (m + 1) 0 = List.replicate (m + 1) 0 := by
    simp only [resize, List.take_nil, List.nil_append, List.length_nil, Nat.sub_zero]
  have hfirst := Unpacker.forEach_unpackAt_decodes
    (Unpacker.onTarget (Unpacker.unpack_integral e .uint16)) (fun _ => [0])
    (List.replicate m (0 : Int))
    (fun x hx old rest => by
      rw [List.eq_of_mem_replicate hx]
      exact Unpacker.unpack_fixnum e .uint16 0 (by omega) old rest)
    (List.replicate (m + 1) 0) 0 [] (by simp)
  rw [flatMap_replicate_const, List.append_nil, List.length_replicate, List.take_zero,
    List.nil_append, Nat.zero_add, List.drop_replicate, Nat.add_sub_cancel_left,
    ← List.replicate_add, ← List.range_eq_range'] at hfirst
  simp only [Unpacker.unpack_array, h1, h2, Packer.sizeIndices, hres, List.range_succ]
  rw [Unpacker.forEach_append _ _ _ _ _ _ _ hfirst]
  have hget : (List.replicate (m + 1) (0 : Int))[m]? = some 0 := by
    rw [List.getElem?_replicate]
    simp
  simp only [Unpacker.forEach, Unpacker.unpackAt, hget, Unpacker.onTarget,
    Unpacker.unpack_integral_nil, set_replicate_self]

/-- C24 (the code at the failing input): the list of `2 ^ 31 + 1` zeros of type
`uint16_t` is packed as an array without an exception, as the header `0xdd` with
the count `2 ^ 31 + 1` followed by only `2 ^ 31` element bytes; unpacking the bytes
produced into an empty vector throws the no-bytes exception after `2 ^ 31` elements,
leaving the vector resized and the round trip failed. -/
theorem array_roundtrip_int_counter (e : Endian) :
    (Packer.mkDynamic.pack_array e (Packer.pack_integral e .uint16)
        (List.replicate (2 ^ 31 + 1) 0)).error = none
      ∧ (Packer.mkDynamic.pack_array e (Packer.pack_integral e .uint16)
        (List.replicate (2 ^ 31 + 1) 0)).packer.data =
          0xdd :: hostBytes e 4 (2 ^ 31 + 1) ++ List.replicate (2 ^ 31) 0
      ∧ Unpacker.unpack_array e (Unpacker.onTarget (Unpacker.unpack_integral e .uint16)) 0 []
          (Unpacker.ofSlice
            (Packer.mkDynamic.pack_array e (Packer.pack_integral e .uint16)
              (List.replicate (2 ^ 31 + 1) 0)).packer.data) =
          .error (.noBytes, List.replicate (2 ^ 31 + 1) 0) := by
  have hp := pack_array_replicate e (2 ^ 31 + 1) (by omega) (by norm_num)
  refine ⟨hp.1, hp.2, ?_⟩
  rw [hp.2]
  exact Unpacker.unpack_array_short e (2 ^ 31) (0xdd :: hostBytes e 4 (2 ^ 31 + 1))
    (Or.inr (Or.inr ⟨by norm_num, rfl⟩))

/-! ## Object wire layout -/

theorem Object.packFields_append {σ : Type} (l1 l2 : List (Field σ (Object σ))) (mem : σ)
    (p : Packer) :
    Object.packFields (l1 ++ l2) mem p =
      (Object.packFields l1 mem p).andThen (Object.packFields l2 mem) := by
  induction l1 generalizing p with
  | nil => rfl
  | cons f fs ih =>
    simp only [List.cons_append, Object.packFields, PackResult.andThen_assoc]
    congr 1
    funext q
    exact ih q

theorem PackResult.andThen_congr (r : PackResult) (f g : Packer → PackResult)
    (h : ∀ q, f q = g q) : r.andThen f = r.andThen g := by
  have : f = g := funext h
  rw [this]

mutual
/-- Packing an Object is packing its flattened fields one after the other. -/
theorem Object.pack_flatten {σ : Type} : ∀ (o : Object σ) (mem : σ) (p : Packer),
    o.pack mem p = Object.packFields o.flatten mem p
  | .mk parentObj fieldVec, mem, p => by
    rw [Object.pack, Object.flatten, Object.packFields_append,
      Object.packParent_flatten parentObj mem p]
    exact PackResult.andThen_congr _ _ _ (Object.packFields_flatten fieldVec mem)
theorem Object.packParent_flatten {σ : Type} : ∀ (o : Option (Object σ)) (mem : σ) (p : Packer),
    Object.packParent o mem p = Object.packFields (Object.flattenParent o) mem p
  | none, mem, p => by rw [Object.packParent, Object.flattenParent, Object.packFields]
  | some o, mem, p => by
    rw [Object.packParent, Object.flattenParent, Object.pack_flatten o mem p]
theorem Object.packFields_flatten {σ : Type} :
    ∀ (fs : List (Field σ (Object σ))) (mem : σ) (p : Packer),
    Object.packFields fs mem p = Object.packFields (Object.flattenFields fs) mem p
  | [], mem, p => by rw [Object.flattenFields]
  | f :: fs, mem, p => by
    rw [Object.packFields, Object.flattenFields, Object.packFields_append,
      Object.packField_flatten f mem p]
    exact PackResult.andThen_congr _ _ _ (Object.packFields_flatten fs mem)
theorem Object.packField_flatten {σ : Type} :
    ∀ (f : Field σ (Object σ)) (mem : σ) (p : Packer),
    Object.packField f mem p = Object.packFields (Object.flattenField f) mem p
  | .leaf fp fu, mem, p => by
    rw [Object.packField, Object.flattenField, Object.packFields, Object.packField]
    rcases fp mem p with ⟨q, _ | err⟩ <;> rfl
  | .nested o, mem, p => by
    rw [Object.packField, Object.flattenField, Object.pack_flatten o mem p]
end

theorem Object.flattenFields_append {σ : Type} (l1 l2 : List (Field σ (Object σ))) :
    Object.flattenFields (l1 ++ l2) = Object.flattenFields l1 ++ Object.flattenFields l2 := by
  induction l1 with
  | nil => rfl
  | cons f fs ih => rw [List.cons_append, Object.flattenFields, Object.flattenFields, ih,
      List.append_assoc]

mutual
/-- The flattened fields of an Object hold no nested Object: flattening them again
changes nothing. -/
theorem Object.flattenFields_flatten {σ : Type} : ∀ o : Object σ,
    Object.flattenFields o.flatten = o.flatten
  | .mk parentObj fieldVec => by
    rw [Object.flatten, Object.flattenFields_append, Object.flattenFields_flattenParent parentObj,
      Object.flattenFields_flattenFields fieldVec]
theorem Object.flattenFields_flattenParent {σ : Type} : ∀ o : Option (Object σ),
    Object.flattenFields (Object.flattenParent o) = Object.flattenParent o
  | none => by rw [Object.flattenParent, Object.flattenFields]
  | some o => by rw [Object.flattenParent, Object.flattenFields_flatten o]
theorem Object.flattenFields_flattenFields {σ : Type} : ∀ fs : List (Field σ (Object σ)),
    Object.flattenFields (Object.flattenFields fs) = Object.flattenFields fs
  | [] => by rw [Object.flattenFields, Object.flattenFields]
  | f :: fs => by
    rw [Object.flattenFields, Object.flattenFields_append, Object.flattenFields_flattenField f,
      Object.flattenFields_flattenFields fs]
theorem Object.flattenFields_flattenField {σ : Type} : ∀ f : Field σ (Object σ),
    Object.flattenFields (Object.flattenField f) = Object.flattenField f
  | .leaf fp fu => by
    rw [Object.flattenField, Object.flattenFields, Object.flattenFields, Object.flattenField,
      List.append_nil]
  | .nested o => by rw [Object.flattenField, Object.flattenFields_flatten o]
end

/-- A loop over fields that are all packed by writes is the sequence of these
writes. -/
theorem Object.packFields_writes {σ : Type} (mem : σ)
    (enc : Field σ (Object σ) → List (List Nat)) (fs : List (Field σ (Object σ)))
    (henc : ∀ f ∈ fs, WritesChunks (Object.packField f mem) (enc f)) :
    WritesChunks (Object.packFields fs mem) (fs.flatMap enc) := by
  induction fs with
  | nil => intro p; rfl
  | cons f fs ih =>
    intro p
    rw [Object.packFields, List.flatMap_cons, Packer.writeChunks_append,
      henc f (List.mem_cons_self _ _) p]
    exact PackResult.andThen_congr _ _ _
      (ih fun g hg => henc g (List.mem_cons_of_mem _ hg))

theorem Object.pack_writes {σ : Type} (mem : σ) (enc : Field σ (Object σ) → List (List Nat))
    (o : Object σ) (henc : ∀ f ∈ o.flatten, WritesChunks (Object.packField f mem) (enc f)) :
    WritesChunks (o.pack mem) (o.flatten.flatMap enc) := by
  intro p
  rw [Object.pack_flatten o mem p]
  exact Object.packFields_writes mem enc o.flatten henc p

theorem Object.packField_writes {σ : Type} (mem : σ)
    (enc : Field σ (Object σ) → List (List Nat)) (f : Field σ (Object σ))
    (henc : ∀ g ∈ Object.flattenField f, WritesChunks (Object.packField g mem) (enc g)) :
    WritesChunks (Object.packField f mem) ((Object.flattenField f).flatMap enc) := by
  intro p
  rw [Object.packField_flatten f mem p]
  exact Object.packFields_writes mem enc _ henc p

theorem Object.packParent_writes {σ : Type} (mem : σ)
    (enc : Field σ (Object σ) → List (List Nat)) (o : Option (Object σ))
    (henc : ∀ g ∈ Object.flattenParent o, WritesChunks (Object.packField g mem) (enc g)) :
    WritesChunks (Object.packParent o mem) ((Object.flattenParent o).flatMap enc) := by
  intro p
  rw [Object.packParent_flatten o mem p]
  exact Object.packFields_writes mem enc _ henc p

theorem Object.flattenFields_eq_flatMap {σ : Type} (fs : List (Field σ (Object σ))) :
    Object.flattenFields fs = fs.flatMap Object.flattenField := by
  induction fs with
  | nil => rfl
  | cons f fs ih => rw [Object.flattenFields, List.flatMap_cons, ih]

theorem flatten_flatMap_flatMap {α β γ : Type} (f : α → List β) (g : β → List (List γ))
    (l : List α) :
    ((l.flatMap f).flatMap g).flatten = l.flatMap fun x => ((f x).flatMap g).flatten := by
  induction l with
  | nil => rfl
  | cons x xs ih =>
    rw [List.flatMap_cons, List.flatMap_append, List.flatten_append, ih, List.flatMap_cons]

/-- The bytes packed for an Object whose fields are packed by writes: the bytes of its
parent, then the bytes of each field in registration order. -/
theorem Object.packed_eq {σ : Type} (mem : σ) (enc : Field σ (Object σ) → List (List Nat))
    (o : Object σ) (henc : ∀ f ∈ o.flatten, WritesChunks (Object.packField f mem) (enc f)) :
    (o.pack mem Packer.mkDynamic).packer.data =
      (Object.packParent o.parentObj mem Packer.mkDynamic).packer.data ++
        o.fieldVec.flatMap fun f => (Object.packField f mem Packer.mkDynamic).packer.data := by
  obtain ⟨parentObj, fieldVec⟩ := o
  have hflat : (Object.mk parentObj fieldVec).flatten =
      Object.flattenParent parentObj ++ Object.flattenFields fieldVec := by
    rw [Object.flatten]
  rw [hflat] at henc
  have hpar := Object.packParent_writes mem enc parentObj
    (fun g hg => henc g (List.mem_append_left _ hg))
  have hfield : ∀ f ∈ fieldVec,
      (Object.packField f mem Packer.mkDynamic).packer.data =
        ((Object.flattenField f).flatMap enc).flatten := by
    intro f hf
    refine (Object.packField_writes mem enc f fun g hg => henc g ?_).packed
    rw [Object.flattenFields_eq_flatMap]
    exact List.mem_append_right _ (List.mem_flatMap.mpr ⟨f, hf, hg⟩)
  have hall := (Object.pack_writes mem enc (Object.mk parentObj fieldVec)
    (by rw [hflat]; exact henc)).packed
  rw [hall, hflat, List.flatMap_append, List.flatten_append]
  simp only [Object.parentObj, Object.fieldVec]
  rw [hpar.packed, Object.flattenFields_eq_flatMap, flatten_flatMap_flatMap]
  congr 1
  exact List.flatMap_congr fun f hf => (hfield f hf).symm

theorem Object.flatten_eq {σ : Type} (o : Object σ) :
    o.flatten = Object.flattenParent o.parentObj ++ o.fieldVec.flatMap Object.flattenField := by
  obtain ⟨parentObj, fieldVec⟩ := o
  rw [Object.flatten, Object.flattenFields_eq_flatMap]
  rfl

/-- Registering a nested Object packs the same as registering its flattened fields at
the same position. -/
theorem Object.pack_nested_eq {σ : Type} (parentObj : Option (Object σ))
    (pre post : List (Field σ (Object σ))) (n : Object σ) (mem : σ) (p : Packer) :
    (Object.mk parentObj (pre ++ .nested n :: post)).pack mem p =
      (Object.mk parentObj (pre ++ n.flatten ++ post)).pack mem p := by
  rw [Object.pack_flatten, Object.pack_flatten, Object.flatten, Object.flatten,
    Object.flattenFields_append, Object.flattenFields_append, Object.flattenFields_append,
    Object.flattenFields, Object.flattenField, Object.flattenFields_flatten, List.append_assoc]

theorem flatten_flatMap_of_eq {α β : Type} (l : List α) (enc : α → List (List β))
    (g : α → List β) (h : ∀ x ∈ l, (enc x).flatten = g x) :
    (l.flatMap enc).flatten = l.flatMap g := by
  induction l with
  | nil => rfl
  | cons x xs ih =>
    rw [List.flatMap_cons, List.flatten_append, List.flatMap_cons,
      h x (List.mem_cons_self _ _), ih fun y hy => h y (List.mem_cons_of_mem _ hy)]

/-- Packing an Object whose fields are packed by writes into a Packer with room
completes and appends the encodings of the flattened fields, one after the other. -/
theorem Object.pack_appends {σ : Type} (o : Object σ) (mem : σ)
    (hw : ∀ f ∈ o.flatten, ∃ cs, WritesChunks (Object.packField f mem) cs) (p : Packer)
    (hroom : p.HasRoom
      (o.flatten.flatMap fun f =>
        (Object.packField f mem Packer.mkDynamic).packer.data).length) :
    (o.pack mem p).Appends p
      (o.flatten.flatMap fun f => (Object.packField f mem Packer.mkDynamic).packer.data) := by
  choose! enc henc using hw
  have hbytes : (o.flatten.flatMap enc).flatten =
      o.flatten.flatMap fun f => (Object.packField f mem Packer.mkDynamic).packer.data :=
    flatten_flatMap_of_eq _ _ _ fun f hf => (henc f hf).packed.symm
  rw [← hbytes] at hroom ⊢
  exact (Object.pack_writes mem enc o henc).appends p hroom

/-- C21: Object wire layout. For every Object `o` (a tree: acyclic parent chain and
nesting) whose fields are packed by writes, and every memory: the bytes `pack`
produces are the bytes of packing the parent, if one is registered, followed for each
field in registration order by the bytes of the field, a nested Object contributing
the bytes of packing it; the flattened fields of `o` are those of its parent, then its
own; `pack` is exactly the sequence of the packs of the flattened fields, with the same
outcome on every Packer, and appends the concatenation of their encodings and no other
byte; and an Object with a nested Object registered packs the same, on every Packer,
as the Object with the flattened fields of the nested Object registered at that
position. -/
theorem object_wire_layout {σ : Type} (o : Object σ) (mem : σ)
    (hw : ∀ f ∈ o.flatten, ∃ cs, WritesChunks (Object.packField f mem) cs) :
    (o.pack mem Packer.mkDynamic).packer.data =
        (Object.packParent o.parentObj mem Packer.mkDynamic).packer.data ++
          o.fieldVec.flatMap (fun f => (Object.packField f mem Packer.mkDynamic).packer.data)
      ∧ o.flatten =
          Object.flattenParent o.parentObj ++ o.fieldVec.flatMap Object.flattenField
      ∧ (∀ p, o.pack mem p = Object.packFields o.flatten mem p)
      ∧ (∀ p : Packer,
          p.HasRoom
            (o.flatten.flatMap fun f =>
              (Object.packField f mem Packer.mkDynamic).packer.data).length →
          (o.pack mem p).Appends p
            (o.flatten.flatMap fun f => (Object.packField f mem Packer.mkDynamic).packer.data))
      ∧ (∀ (pre post : List (Field σ (Object σ))) (n : Object σ) (p : Packer),
          o.fieldVec = pre ++ .nested n :: post →
          o.pack mem p = (Object.mk o.parentObj (pre ++ n.flatten ++ post)).pack mem p) := by
  refine ⟨?_, Object.flatten_eq o, fun p => Object.pack_flatten o mem p,
    fun p hroom => Object.pack_appends o mem hw p hroom, fun pre post n p hfv => ?_⟩
  · choose! enc henc using hw
    exact Object.packed_eq mem enc o henc
  · obtain ⟨parentObj, fieldVec⟩ := o
    simp only [Object.fieldVec] at hfv
    subst hfv
    exact Object.pack_nested_eq parentObj pre post n mem p

theorem Variable.field_writes (e : Endian) (x : Variable) (mem : Memory)
    (h : x.Packable mem) : ∃ cs, WritesChunks (Object.packField (x.field e) mem) cs := by
  cases x with
  | integral T addr => exact ⟨_, pack_integral_writes e T (mem.integrals addr)⟩
  | boolean addr => exact ⟨_, pack_boolean_writes e (mem.booleans addr)⟩
  | string addr => exact pack_string_writes e (mem.strings addr) h

theorem object_wire_layout_witness :
    ((((Object.init.inherit
          ((Object.init.regVariable .big (.integral .uint16 0)).regVariable .big (.boolean 0))
        ).regVariable .big (.string 0)).regObject
          (Object.init.regVariable .big (.integral .uint8 1))).pack
        ⟨fun a => if a = 0 then 300 else 7, fun _ => true, fun _ => [0x68, 0x69]⟩
        Packer.mkDynamic).packer.data =
      [0xcd, 0x01, 0x2c, 0xc3, 0xa2, 0x68, 0x69, 0x07] :=
  (object_wire_layout _ _ (fun f hf => by
    have hflat : ((((Object.init.inherit
          ((Object.init.regVariable .big (.integral .uint16 0)).regVariable .big (.boolean 0))
        ).regVariable .big (.string 0)).regObject
          (Object.init.regVariable .big (.integral .uint8 1)))).flatten =
        [Variable.integral .uint16 0, .boolean 0, .string 0, .integral .uint8 1].map
          (Variable.field .big) := rfl
    rw [hflat] at hf
    obtain ⟨x, -, rfl⟩ := List.mem_map.mp hf
    exact Variable.field_writes .big x _ (by cases x <;> simp [Variable.Packable]))).1.trans
    rfl

/-! ## Object round trip -/

theorem Object.unpackFields_append {σ : Type} (l1 l2 : List (Field σ (Object σ))) (mem : σ)
    (u : Unpacker) :
    Object.unpackFields (l1 ++ l2) mem u =
      Unpacker.seq id (Object.unpackFields l1 mem) (fun m => Object.unpackFields l2 m) u := by
  induction l1 generalizing mem u with
  | nil => rfl
  | cons f fs ih =>
    simp only [List.cons_append, Object.unpackFields, Unpacker.seq]
    cases Object.unpackField f mem u with
    | error err => rfl
    | ok r =>
      obtain ⟨m1, u1⟩ := r
      exact ih m1 u1

mutual
/-- Unpacking an Object is unpacking its flattened fields one after the other. -/
theorem Object.unpack_flatten {σ : Type} : ∀ (o : Object σ) (mem : σ) (u : Unpacker),
    o.unpack mem u = Object.unpackFields o.flatten mem u
  | .mk parentObj fieldVec, mem, u => by
    rw [Object.unpack, Object.flatten, Object.unpackFields_append, Unpacker.seq,
      Object.unpackParent_flatten parentObj mem u]
    cases Object.unpackFields (Object.flattenParent parentObj) mem u with
    | error err => rfl
    | ok r =>
      obtain ⟨m1, u1⟩ := r
      exact Object.unpackFields_flatten fieldVec m1 u1
theorem Object.unpackParent_flatten {σ : Type} :
    ∀ (o : Option (Object σ)) (mem : σ) (u : Unpacker),
    Object.unpackParent o mem u = Object.unpackFields (Object.flattenParent o) mem u
  | none, mem, u => by rw [Object.unpackParent, Object.flattenParent, Object.unpackFields]
  | some o, mem, u => by
    rw [Object.unpackParent, Object.flattenParent, Object.unpack_flatten o mem u]
theorem Object.unpackFields_flatten {σ : Type} :
    ∀ (fs : List (Field σ (Object σ))) (mem : σ) (u : Unpacker),
    Object.unpackFields fs mem u = Object.unpackFields (Object.flattenFields fs) mem u
  | [], mem, u => by rw [Object.flattenFields]
  | f :: fs, mem, u => by
    rw [Object.unpackFields, Object.flattenFields, Object.unpackFields_append, Unpacker.seq,
      Object.unpackField_flatten f mem u]
    cases Object.unpackFields (Object.flattenField f) mem u with
    | error err => rfl
    | ok r =>
      obtain ⟨m1, u1⟩ := r
      exact Object.unpackFields_flatten fs m1 u1
theorem Object.unpackField_flatten {σ : Type} :
    ∀ (f : Field σ (Object σ)) (mem : σ) (u : Unpacker),
    Object.unpackField f mem u = Object.unpackFields (Object.flattenField f) mem u
  | .leaf fp fu, mem, u => by
    rw [Object.unpackField, Object.flattenField, Object.unpackFields, Object.unpackField]
    cases fu mem u with
    | error err => rfl
    | ok r => rfl
  | .nested o, mem, u => by
    rw [Object.unpackField, Object.flattenField, Object.unpack_flatten o mem u]
end

theorem Unpacker.unpack_integral_of_packed (e : Endian) (T : IntType) (v : Int)
    (hv : T.InRange v) (h0 : 0 ≤ v) (rest : List Nat) :
    Unpacker.unpack_integral e T (Unpacker.ofSlice (packedIntegral e T v ++ rest)) =
      .ok (v, Unpacker.ofSlice rest) := by
  obtain ⟨n, rfl⟩ := Int.eq_ofNat_of_zero_le h0
  rw [packedIntegral_nonneg e T n hv, Unpacker.unpack_integral_specNonNeg_append e T n rest hv]

theorem packed_boolean (e : Endian) (b : Bool) :
    (Packer.pack_boolean e b Packer.mkDynamic).packer.data = [if b then 0xc3 else 0xc2] := by
  cases e <;> cases b <;> rfl

/-- Unpacking the bytes packed for an admissible variable, followed by `rest`, gives
the variable the value that was packed, whatever it held before. -/
theorem Variable.unpack_packed (e : Endian) (x : Variable) (mem m : Memory) (rest : List Nat)
    (h : x.Admissible mem) :
    x.f_unpack e m (Unpacker.ofSlice (x.packed e mem ++ rest)) =
      .ok (x.assign mem m, Unpacker.ofSlice rest) := by
  cases x with
  | integral T addr =>
    obtain ⟨hs, hv⟩ := h
    have h0 : 0 ≤ mem.integrals addr := by
      have := hv.1
      simpa [IntType.min, hs] using this
    have hp : Variable.packed e mem (.integral T addr) =
        packedIntegral e T (mem.integrals addr) := rfl
    simp only [Variable.f_unpack, hp,
      Unpacker.unpack_integral_of_packed e T _ hv h0 rest, Variable.assign]
  | boolean addr =>
    have hp : Variable.packed e mem (.boolean addr) =
        [if mem.booleans addr then 0xc3 else 0xc2] := packed_boolean e _
    simp only [Variable.f_unpack, hp, List.singleton_append, Variable.assign]
    cases mem.booleans addr
    · rw [Unpacker.unpack_boolean_cons e _ rest (by decide)]
      rfl
    · rw [Unpacker.unpack_boolean_cons e _ rest (by decide)]
      rfl
  | string addr =>
    have hp : Variable.packed e mem (.string addr) =
        specStringEncoding e (mem.strings addr) := packedString_eq e _ h
    simp only [Variable.f_unpack, hp, Unpacker.unpack_string_spec e _ _ rest h,
      Variable.assign]

theorem Object.unpackFields_variables (e : Endian) (mem : Memory) (xs : List Variable)
    (hadm : ∀ x ∈ xs, x.Admissible mem) (m : Memory) (rest : List Nat) :
    Object.unpackFields (xs.map (Variable.field e)) m
        (Unpacker.ofSlice (xs.flatMap (Variable.packed e mem) ++ rest)) =
      .ok (xs.foldl (fun m x => x.assign mem m) m, Unpacker.ofSlice rest) := by
  induction xs generalizing m with
  | nil => rfl
  | cons x xs ih =>
    rw [List.map_cons, List.flatMap_cons, List.append_assoc, Object.unpackFields]
    simp only [Variable.field, Object.unpackField,
      Variable.unpack_packed e x mem m _ (hadm x (List.mem_cons_self _ _)), List.foldl_cons]
    exact ih (fun y hy => hadm y (List.mem_cons_of_mem _ hy)) _

theorem Variable.sameValue_assign_self (x : Variable) (mem m : Memory) :
    x.sameValue (x.assign mem m) mem := by
  cases x <;> simp [Variable.sameValue, Variable.assign]

theorem Variable.sameValue_assign (x y : Variable) (mem m : Memory)
    (h : y.sameValue m mem) : y.sameValue (x.assign mem m) mem := by
  cases x <;> cases y <;> simp only [Variable.sameValue, Variable.assign] at h ⊢ <;>
    first
      | exact h
      | (simp only [Function.update_apply]
         split_ifs with hab
         · rw [hab]
         · exact h)

theorem Variable.sameValue_foldl (mem : Memory) (xs : List Variable) (m : Memory)
    (y : Variable) (h : y ∈ xs ∨ y.sameValue m mem) :
    y.sameValue (xs.foldl (fun m x => x.assign mem m) m) mem := by
  induction xs generalizing m with
  | nil =>
    rcases h with h | h
    · cases h
    · exact h
  | cons x xs ih =>
    rw [List.foldl_cons]
    apply ih
    rcases h with h | h
    · rcases List.mem_cons.mp h with rfl | h
      · exact Or.inr (Variable.sameValue_assign_self _ mem m)
      · exact Or.inl h
    · exact Or.inr (Variable.sameValue_assign x y mem m h)

theorem flatMap_map_field (e : Endian) (mem : Memory) (xs : List Variable) :
    ((xs.map (Variable.field e)).flatMap fun f =>
      (Object.packField f mem Packer.mkDynamic).packer.data) =
      xs.flatMap (Variable.packed e mem) := by
  induction xs with
  | nil => rfl
  | cons x xs ih =>
    rw [List.map_cons, List.flatMap_cons, List.flatMap_cons, ih]
    rfl

/-- C22: Object round trip. For every Object `o` (with a parent, with nested Objects,
or with neither) whose fields, those of its ancestors included, are the registered
variables `xs`, each an unsigned integer, a `bool` or a string of at most `2 ^ 32 - 1`
bytes: packing `o` from the memory `mem` into an empty growable Packer completes, and
unpacking the bytes produced into the same registration structure over any storage
`mem0`, zeroed storage included, succeeds, leaves no byte unread, and leaves every
registered variable with the value it has in `mem`. -/
theorem object_roundtrip (e : Endian) (o : Object Memory) (xs : List Variable)
    (hreg : o.flatten = xs.map (Variable.field e)) (mem mem0 : Memory)
    (hadm : ∀ x ∈ xs, x.Admissible mem) :
    (o.pack mem Packer.mkDynamic).error = none
      ∧ (o.pack mem Packer.mkDynamic).packer.data = xs.flatMap (Variable.packed e mem)
      ∧ o.unpack mem0 (Unpacker.ofSlice (o.pack mem Packer.mkDynamic).packer.data) =
          .ok (xs.foldl (fun m x => x.assign mem m) mem0, Unpacker.ofSlice [])
      ∧ ∀ x ∈ xs, x.sameValue (xs.foldl (fun m x => x.assign mem m) mem0) mem := by
  have hw : ∀ f ∈ o.flatten, ∃ cs, WritesChunks (Object.packField f mem) cs := by
    intro f hf
    rw [hreg] at hf
    obtain ⟨x, hx, rfl⟩ := List.mem_map.mp hf
    refine Variable.field_writes e x mem ?_
    have hx' := hadm x hx
    cases x with
    | integral T addr => trivial
    | boolean addr => trivial
    | string addr => exact hx'
  have happ := Object.pack_appends o mem hw Packer.mkDynamic (Or.inl rfl)
  rw [hreg, flatMap_map_field] at happ
  have hdata : (o.pack mem Packer.mkDynamic).packer.data =
      xs.flatMap (Variable.packed e mem) := by
    rw [happ.2]
    rfl
  refine ⟨happ.1, hdata, ?_, fun x hx => Variable.sameValue_foldl mem xs mem0 x (Or.inl hx)⟩
  rw [hdata, Object.unpack_flatten, hreg]
  have h := Object.unpackFields_variables e mem xs hadm mem0 []
  rw [List.append_nil] at h
  exact h

theorem object_roundtrip_witness :
    ((((Object.init.inherit
          ((Object.init.regVariable .big (.integral .uint16 0)).regVariable .big (.boolean 0))
        ).regVariable .big (.string 0)).regVariable .big (.integral .uint8 1)).pack
        ⟨fun a => if a = 0 then 300 else 7, fun _ => true, fun _ => [0x68, 0x69]⟩
        Packer.mkDynamic).packer.data =
      [0xcd, 0x01, 0x2c, 0xc3, 0xa2, 0x68, 0x69, 0x07]
    ∧ ∃ m : Memory,
      (((Object.init.inherit
          ((Object.init.regVariable .big (.integral .uint16 0)).regVariable .big (.boolean 0))
        ).regVariable .big (.string 0)).regVariable .big (.integral .uint8 1)).unpack
        Memory.zero (Unpacker.ofSlice [0xcd, 0x01, 0x2c, 0xc3, 0xa2, 0x68, 0x69, 0x07]) =
        .ok (m, Unpacker.ofSlice [])
      ∧ m.integrals 0 = 300 ∧ m.booleans 0 = true ∧ m.strings 0 = [0x68, 0x69]
      ∧ m.integrals 1 = 7 :=
  have h := object_roundtrip .big
    (((Object.init.inherit
          ((Object.init.regVariable .big (.integral .uint16 0)).regVariable .big (.boolean 0))
        ).regVariable .big (.string 0)).regVariable .big (.integral .uint8 1))
    [.integral .uint16 0, .boolean 0, .string 0, .integral .uint8 1] rfl
    ⟨fun a => if a = 0 then 300 else 7, fun _ => true, fun _ => [0x68, 0x69]⟩ Memory.zero
    (by
      intro x hx
      simp only [List.mem_cons, List.mem_singleton, List.not_mem_nil, or_false] at hx
      rcases hx with rfl | rfl | rfl | rfl <;>
        simp [Variable.Admissible, IntType.InRange, IntType.min, IntType.max,
          IntType.isSigned, IntType.bits, IntType.sizeof])
  ⟨h.2.1.trans rfl, _, h.2.2.1, h.2.2.2 (.integral .uint16 0) (by simp),
    h.2.2.2 (.boolean 0) (by simp), h.2.2.2 (.string 0) (by simp),
    h.2.2.2 (.integral .uint8 1) (by simp)⟩

end mpcompact
